import Mathlib

/-!
# ferrugo-fmt: format-string parser, rendering driver and output buffer

A shallow embedding of `include/ferrugo/fmt/buffer.hpp` and of the parsing and
rendering parts of `include/ferrugo/fmt/format.hpp`.

Modelling conventions.

* `std::string_view`, `std::string` and character arrays are lists of `Char`;
  an iterator into a view is an offset from the start of the view.
* A call either returns a value or ends in a `failure`: a thrown exception
  (`format_error`, `std::out_of_range`), a failed `assert`, a signed `int`
  overflow (undefined behaviour in C++), or a loop that used up its iteration
  budget.  Loops that the source writes as `while` take an explicit budget.
* `int` values are natural numbers bounded by `INT_MAX`; `std::size_t` values
  are natural numbers (wrap-around of `std::size_t` is not modelled).
* `std::ostream` is the list of characters written to it so far.
* A `std::string_view` can be part of a longer character array.  `parse` is the
  parser on a view with a terminating NUL behind it (a string literal or a whole
  `std::string`); `parse_stored` takes the character stored behind the view as
  a parameter.
-/

namespace ferrugo.fmt

/-- The type `std::string_view`: a sequence of characters. -/
abbrev string_view := List Char

/-- The type `std::ostream`, as the characters written so far. -/
abbrev ostream := List Char

/-- Ways in which a call ends without returning a value. -/
inductive failure where
  | format_error (message : String)
  | out_of_range
  | assertion_failed
  | signed_overflow
  | fuel_exhausted
  deriving DecidableEq

/-- Outcome of a call that may fail. -/
abbrev result (α : Type) := Except failure α

deriving instance DecidableEq for Except

/-- Largest value of a 32-bit `int`. -/
def INT_MAX : Nat := 2147483647

/-! ## buffer.hpp -/

/-- Content of a storage cell that has been allocated but not written. -/
def unwritten : Char := Char.ofNat 0

/-- The struct `basic_buffer<char>`; `m_data` is the array owned by the
`unique_ptr`. -/
structure basic_buffer where
  m_size : Nat
  m_capacity : Nat
  m_grow_fn : Nat → Nat
  m_data : List Char

namespace basic_buffer

/-- Constructor `basic_buffer(capacity, grow_fn)`. -/
def create (capacity : Nat) (grow_fn : Nat → Nat) : basic_buffer :=
  { m_size := 0, m_capacity := capacity, m_grow_fn := grow_fn,
    m_data := List.replicate capacity unwritten }

/-- Default constructor: capacity 64, doubling growth. -/
def create_default : basic_buffer := create 64 (fun n => 2 * n)

/-- Member `size()`. -/
def size (b : basic_buffer) : Nat := b.m_size

/-- The live range `[begin(), end())`. -/
def content (b : basic_buffer) : List Char := b.m_data.take b.size

/-- The call `std::copy(first, last, out)` where `out` points at offset `pos` of
the array `dst` and `[first, last)` holds `src`. -/
def copy (src dst : List Char) (pos : Nat) : List Char :=
  dst.take pos ++ src ++ dst.drop (pos + src.length)

/-- The loop `while (new_capacity < required_capacity) new_capacity = m_grow_fn(new_capacity);`
with an iteration budget. -/
def grow_loop (grow_fn : Nat → Nat) (required_capacity : Nat) : Nat → Nat → result Nat
  | 0, new_capacity =>
    if new_capacity < required_capacity then .error .fuel_exhausted else .ok new_capacity
  | fuel + 1, new_capacity =>
    if new_capacity < required_capacity then
      grow_loop grow_fn required_capacity fuel (grow_fn new_capacity)
    else .ok new_capacity

/-- Member `ensure_capacity(required_capacity)`. -/
def ensure_capacity (fuel : Nat) (b : basic_buffer) (required_capacity : Nat) :
    result basic_buffer :=
  if required_capacity ≤ b.m_capacity then .ok b
  else
    match grow_loop b.m_grow_fn required_capacity fuel b.m_capacity with
    | .error e => .error e
    | .ok new_capacity =>
      .ok { b with
        m_data := copy b.content (List.replicate new_capacity unwritten) 0
        m_capacity := new_capacity }

/-- Member `append(b, e)`, with `bytes` the range `[b, e)`. -/
def append (fuel : Nat) (b : basic_buffer) (bytes : List Char) : result basic_buffer :=
  let s := bytes.length
  match ensure_capacity fuel b (b.size + s) with
  | .error e => .error e
  | .ok b1 => .ok { b1 with m_data := copy bytes b1.m_data b1.size, m_size := b1.m_size + s }

/-- Member `reset()`. -/
def reset (b : basic_buffer) : basic_buffer := { b with m_size := 0 }

end basic_buffer

/-- The alias `buffer = basic_buffer<char>`. -/
abbrev buffer := basic_buffer

/-! ## format.hpp: contexts and formatters -/

/-- The class `parse_context`. -/
structure parse_context where
  m_specifier : string_view
  deriving DecidableEq

/-- Member `parse_context::specifier()`. -/
def parse_context.specifier (p : parse_context) : string_view := p.m_specifier

/-- The class `format_context`; `m_os` is the referenced buffer. -/
structure format_context where
  m_os : buffer

/-- Member `format_context::output()`. -/
def format_context.output (ctx : format_context) : buffer := ctx.m_os

/-- Member `format_context::flush(os)`: writes the live range to the stream and
resets the buffer. -/
def format_context.flush (ctx : format_context) (os : ostream) : ostream × format_context :=
  (os ++ ctx.m_os.content, { m_os := ctx.m_os.reset })

/-- Iteration budget handed to `append` by the formatters.  Every pass of the
growth loop of a buffer whose growth function satisfies `n < g n` raises the
capacity by at least one, so the required capacity is always enough. -/
def append_budget (b : buffer) (bytes : List Char) : Nat := b.size + bytes.length

/-- Member `formatter<std::string_view>::format` (the formatters of `std::string`,
`const char*` and `char[N]` append the same characters). -/
def formatter_string_view_format (ctx : format_context) (item : string_view) :
    result format_context :=
  match ctx.output.append (append_budget ctx.output item) item with
  | .error e => .error e
  | .ok b => .ok { m_os := b }

/-- Member `formatter<char>::format`. -/
def formatter_char_format (ctx : format_context) (item : Char) : result format_context :=
  match ctx.output.append (append_budget ctx.output [item]) [item] with
  | .error e => .error e
  | .ok b => .ok { m_os := b }

/-- The struct `detail::arg_ref`: the printer closed over the referenced value.
The printer runs `formatter<T>::parse` and then `formatter<T>::format`. -/
structure arg_ref where
  m_printer : format_context → parse_context → result format_context

/-- Member `arg_ref::print`. -/
def arg_ref.print (a : arg_ref) (format_ctx : format_context) (parse_ctx : parse_context) :
    result format_context :=
  a.m_printer format_ctx parse_ctx

/-- The constructor `arg_ref{ item }` for a string argument: `parse` ignores the
specifier and `format` appends the characters. -/
def arg_ref.of_string (item : string_view) : arg_ref :=
  { m_printer := fun format_ctx _ => formatter_string_view_format format_ctx item }

/-- The function `wrap_args` for string arguments. -/
def wrap_args (args : List string_view) : List arg_ref := args.map arg_ref.of_string

/-! ## format.hpp: format_string -/

/-- The variant `print_action` of `print_text` and `print_argument`. -/
inductive print_action where
  | print_text (text : string_view)
  | print_argument (index : Nat) (context : parse_context)
  deriving DecidableEq

namespace format_string

def is_opening_bracket (c : Char) : Bool := c == '{'

def is_closing_bracket (c : Char) : Bool := c == '}'

def is_bracket (c : Char) : Bool := is_opening_bracket c || is_closing_bracket c

def is_colon (c : Char) : Bool := c == ':'

/-- The call `std::find_if(first, end, pred)` on the view `s`, as an offset;
the result is `s.length` when no character satisfies `pred`. -/
def find_if (s : string_view) (first : Nat) (pred : Char → Bool) : Nat :=
  first + (s.drop first).findIdx pred

/-- The function `make_string_view(b, e)` for offsets `b`, `e` into the view `s`. -/
def make_string_view (s : string_view) (b e : Nat) : string_view :=
  if b < e then (s.take e).drop b else []

/-- Reading `it[0]` at offset `i` of the view `s`, for a view with a
terminating NUL behind it: a string literal or a whole `std::string`, where the
character one past the end is the NUL.  `char_at_stored` is the read on a view
with any character behind it. -/
def char_at (s : string_view) (i : Nat) : Char := s.getD i (Char.ofNat 0)

/-- The function `parse_int`. -/
def parse_int (txt : string_view) : result Nat :=
  txt.foldlM
    (fun result c =>
      if '0'.toNat ≤ c.toNat ∧ c.toNat ≤ '9'.toNat then
        if result * 10 + (c.toNat - '0'.toNat) ≤ INT_MAX then
          .ok (result * 10 + (c.toNat - '0'.toNat))
        else .error .signed_overflow
      else .error .assertion_failed)
    0

/-- The lambda in `parse` that splits a placeholder body into index and
specifier. -/
def split_argument (arg : string_view) (current_index : Nat) : result (Nat × string_view) :=
  let colon := find_if arg 0 is_colon
  let index_part := make_string_view arg 0 colon
  let fmt_part := make_string_view arg (if colon ≠ arg.length then colon + 1 else colon) arg.length
  match (if !index_part.isEmpty then parse_int index_part else .ok current_index) with
  | .error e => .error e
  | .ok index => .ok (index, fmt_part)

/-- What one pass through the body of the `while` loop of `parse` does. -/
inductive iteration where
  | advance (fmt : string_view) (pushed : List print_action) (arg_index : Nat)
  | raise (e : failure)
  deriving DecidableEq

/-- One pass through the body of the `while` loop of `parse`, entered with a
non-empty `fmt`. -/
def parse_iteration (fmt : string_view) (arg_index : Nat) : iteration :=
  let end_ := fmt.length
  let bracket := find_if fmt 0 is_bracket
  if bracket = end_ then
    .advance (make_string_view fmt bracket end_) [.print_text fmt] arg_index
  else if char_at fmt bracket = char_at fmt (bracket + 1) then
    .advance (make_string_view fmt (bracket + 2) end_)
      [.print_text (make_string_view fmt 0 (bracket + 1))] arg_index
  else if is_opening_bracket (char_at fmt bracket) then
    let closing_bracket := find_if fmt (bracket + 1) is_closing_bracket
    if closing_bracket = end_ then .raise (.format_error "unclosed bracket")
    else
      match split_argument (make_string_view fmt (bracket + 1) closing_bracket) arg_index with
      | .error e => .raise e
      | .ok (actual_index, fmt_specifer) =>
        if arg_index + 1 ≤ INT_MAX then
          .advance (make_string_view fmt (closing_bracket + 1) end_)
            [.print_text (make_string_view fmt 0 bracket),
             .print_argument actual_index { m_specifier := fmt_specifer }]
            (arg_index + 1)
        else .raise .signed_overflow
  else .advance fmt [] arg_index

/-- The loop `while (!fmt.empty()) ...` of `parse`, with an iteration budget. -/
def parse_loop : Nat → string_view → List print_action → Nat → result (List print_action)
  | 0, fmt, result, _ => if fmt.isEmpty then .ok result else .error .fuel_exhausted
  | fuel + 1, fmt, result, arg_index =>
    if fmt.isEmpty then .ok result
    else
      match parse_iteration fmt arg_index with
      | .raise e => .error e
      | .advance fmt1 pushed arg_index1 => parse_loop fuel fmt1 (result ++ pushed) arg_index1

/-- The function `format_string::parse`.  A pass that changes `fmt` removes at
least one character, so `fmt.length + 1` passes are enough whenever the loop
ends at all. -/
def parse (fmt : string_view) : result (List print_action) :=
  parse_loop (fmt.length + 1) fmt [] 0

end format_string

/-- The class `detail::format_string`. -/
structure format_string where
  m_actions : List print_action
  deriving DecidableEq

namespace format_string

/-- The constructor `format_string(fmt)`. -/
def create (fmt : string_view) : result format_string :=
  match parse fmt with
  | .error e => .error e
  | .ok actions => .ok { m_actions := actions }

/-- What `std::visit` does with one action in `format`. -/
def visit (arguments : List arg_ref) (format_ctx : format_context) :
    print_action → result format_context
  | .print_text text => formatter_string_view_format format_ctx text
  | .print_argument index context =>
    match arguments.get? index with
    | none => .error .out_of_range
    | some a => a.print format_ctx context

/-- Member `format(format_ctx, arguments)`. -/
def format_to (self : format_string) (format_ctx : format_context) (arguments : List arg_ref) :
    result format_context :=
  self.m_actions.foldlM (visit arguments) format_ctx

/-- Member `format(arguments)` returning a `std::string`. -/
def format (self : format_string) (arguments : List arg_ref) : result string_view :=
  match self.format_to { m_os := basic_buffer.create_default } arguments with
  | .error e => .error e
  | .ok format_ctx => .ok format_ctx.m_os.content

/-- The stream output of an `int` in decimal. -/
def ostream_int (n : Nat) : List Char := Nat.toDigits 10 n

/-- What `operator<<(std::ostream&, const format_string&)` writes for one
action. -/
def write_action : print_action → List Char
  | .print_text text => text
  | .print_argument index context =>
    if context.specifier.isEmpty then
      ['{'] ++ ostream_int index ++ ['}']
    else
      ['{'] ++ ostream_int index ++ [':'] ++ context.specifier ++ ['}']

/-- The operator `operator<<(std::ostream&, const format_string&)`. -/
def write (os : ostream) (item : format_string) : ostream :=
  item.m_actions.foldl (fun os action => os ++ write_action action) os

/-- The call `core::str(item)`: the characters written to a fresh stream. -/
def str (item : format_string) : List Char := write [] item

end format_string

/-! ## format.hpp: print, println, format -/

/-- The call operator `print_to_fn<NewLine>::impl::operator()`.  Returns the
stream after the call and either the failure that left the call or the local
buffer as it was when the call returned. -/
def print_to_impl (NewLine : Bool) (m_os : ostream) (m_formatter : format_string)
    (args : List arg_ref) : ostream × result buffer :=
  match m_formatter.format_to { m_os := basic_buffer.create_default } args with
  | .error e => (m_os, .error e)
  | .ok format_ctx =>
    match (if NewLine then formatter_char_format format_ctx '\n' else .ok format_ctx) with
    | .error e => (m_os, .error e)
    | .ok format_ctx1 =>
      let flushed := format_ctx1.flush m_os
      (flushed.1, .ok flushed.2.m_os)

/-- The call `print_to_fn<NewLine>{}(os, fmt)(args...)`. -/
def print_to (NewLine : Bool) (os : ostream) (fmt : string_view) (args : List arg_ref) :
    ostream × result buffer :=
  match format_string.create fmt with
  | .error e => (os, .error e)
  | .ok m_formatter => print_to_impl NewLine os m_formatter args

/-- The function object `print`. -/
def print (os : ostream) (fmt : string_view) (args : List arg_ref) : ostream × result buffer :=
  print_to false os fmt args

/-- The function object `println`. -/
def println (os : ostream) (fmt : string_view) (args : List arg_ref) : ostream × result buffer :=
  print_to true os fmt args

/-- The call `format(fmt)(args...)`. -/
def format (fmt : string_view) (args : List arg_ref) : result string_view :=
  match format_string.create fmt with
  | .error e => .error e
  | .ok m_formatter => m_formatter.format args


/-! ## Predicates used in the statements -/

/-- A buffer in a consistent state whose growth function strictly raises every
capacity from the current one on: the array has `m_capacity` cells, the size
does not exceed the capacity. -/
def basic_buffer.sound (b : basic_buffer) : Prop :=
  b.m_data.length = b.m_capacity ∧ b.m_size ≤ b.m_capacity ∧
    ∀ n, b.m_capacity ≤ n → n < b.m_grow_fn n

/-- An argument whose printer, run on a sound buffer, returns and leaves a sound
buffer. -/
def arg_ref.non_failing (a : arg_ref) : Prop :=
  ∀ (ctx : format_context) (pc : parse_context), ctx.m_os.sound →
    ∃ ctx1, a.print ctx pc = .ok ctx1 ∧ ctx1.m_os.sound

/-- A text without `{` and `}`. -/
def brace_free (s : string_view) : Prop := ∀ c ∈ s, format_string.is_bracket c = false

/-- The templates on which the loop of `parse`, entered with counter
`arg_index`, ends normally, together with the actions it pushes: the empty
text; a text without brackets; a text, an escaped bracket and a remainder; a
text, a closed placeholder and a remainder. -/
inductive format_string.compiles : string_view → Nat → List print_action → Prop where
  | done (arg_index : Nat) : compiles [] arg_index []
  | text (fmt : string_view) (arg_index : Nat) :
    fmt ≠ [] → brace_free fmt → compiles fmt arg_index [.print_text fmt]
  | escape (pre rest : string_view) (b : Char) (arg_index : Nat) (actions : List print_action) :
    brace_free pre → format_string.is_bracket b = true → compiles rest arg_index actions →
    compiles (pre ++ b :: b :: rest) arg_index (.print_text (pre ++ [b]) :: actions)
  | placeholder (pre body rest : string_view) (arg_index actual_index : Nat)
      (fmt_specifer : string_view) (actions : List print_action) :
    brace_free pre → body.head? ≠ some '{' →
    (∀ x ∈ body, format_string.is_closing_bracket x = false) →
    format_string.split_argument body arg_index = .ok (actual_index, fmt_specifer) →
    arg_index + 1 ≤ INT_MAX → compiles rest (arg_index + 1) actions →
    compiles (pre ++ '{' :: (body ++ '}' :: rest)) arg_index
      (.print_text pre :: .print_argument actual_index { m_specifier := fmt_specifer } :: actions)

/-- The placeholders of an action sequence, in order: index and specifier. -/
def arguments : List print_action → List (Nat × string_view)
  | [] => []
  | .print_text _ :: rest => arguments rest
  | .print_argument index context :: rest => (index, context.specifier) :: arguments rest

/-- The loop of `parse` entered with the counter at `arg_index` and nothing
pushed yet; `parse fmt` is `parse_with_counter fmt 0`. -/
def format_string.parse_with_counter (fmt : string_view) (arg_index : Nat) :
    result (List print_action) :=
  format_string.parse_loop (fmt.length + 1) fmt [] arg_index

/-- A decimal digit, as in the `assert` of `parse_int`. -/
def is_digit (x : Char) : Prop := '0'.toNat ≤ x.toNat ∧ x.toNat ≤ '9'.toNat

/-- The base-10 value of a string of decimal digits. -/
def decimal_value (N : string_view) : Nat :=
  N.foldl (fun r x => r * 10 + (x.toNat - '0'.toNat)) 0

/-- The text between the brackets of a placeholder with index text `N` and an
optional `:spec` part: `N`, `N:spec` or `:spec`. -/
def placeholder_body (N : string_view) (spec : Option string_view) : string_view :=
  N ++ (match spec with
    | none => []
    | some sp => ':' :: sp)

instance is_digit_decidable : DecidablePred is_digit := fun x => by
  unfold is_digit
  exact inferInstance

instance brace_free_decidable (s : string_view) : Decidable (brace_free s) := by
  unfold brace_free
  exact inferInstance

/-- The template that writes every `{` of `xs` as `{{`, every `}` as `}}` and
leaves the other characters as they are. -/
def escape_brackets : List Char → string_view
  | [] => []
  | x :: xs =>
    if format_string.is_bracket x then x :: x :: escape_brackets xs
    else x :: escape_brackets xs

/-- A decimal number without leading zeros: a non-empty string of digits that
is `0` or does not start with `0`. -/
def canonical_decimal (N : string_view) : Prop :=
  N ≠ [] ∧ (∀ x ∈ N, is_digit x) ∧ (N = ['0'] ∨ N.head? ≠ some '0')

/-- The `:spec` part that `operator<<` writes for a specifier: none when the
specifier is empty. -/
def written_specifier (spec : string_view) : Option string_view :=
  if spec = [] then none else some spec

/-- The template `lit₀ {N₀[:spec₀]} lit₁ {N₁[:spec₁]} ... tail`; a segment is a
literal text, the index text and the specifier of the placeholder after it (an
empty specifier stands for the form `{N}`). -/
def canonical_template : List (string_view × string_view × string_view) → string_view →
    string_view
  | [], tail => tail
  | (lit, N, spec) :: rest, tail =>
    lit ++ '{' :: (placeholder_body N (written_specifier spec) ++
      '}' :: canonical_template rest tail)

/-- A segment of a canonical template whose index fits an `int`: the literal has
no brackets, the index is a decimal number without leading zeros and at most
`INT_MAX`, the specifier has no `}`. -/
def canonical_segment (seg : string_view × string_view × string_view) : Prop :=
  brace_free seg.1 ∧ canonical_decimal seg.2.1 ∧ decimal_value seg.2.1 ≤ INT_MAX ∧
    ∀ x ∈ seg.2.2, x ≠ '}'

instance canonical_decimal_decidable (N : string_view) : Decidable (canonical_decimal N) := by
  unfold canonical_decimal
  exact inferInstance

instance canonical_segment_decidable (seg : string_view × string_view × string_view) :
    Decidable (canonical_segment seg) := by
  unfold canonical_segment
  exact inferInstance

/-- The concatenation, in action order, of the characters of every text action
and, for every placeholder, of the argument at its index. -/
def concat_actions (args : List string_view) : List print_action → List Char
  | [] => []
  | .print_text text :: rest => text ++ concat_actions args rest
  | .print_argument index _ :: rest => args.getD index [] ++ concat_actions args rest

/-- Every placeholder of the action sequence has an index below `n`. -/
def indices_below (n : Nat) (actions : List print_action) : Prop :=
  ∀ index context, print_action.print_argument index context ∈ actions → index < n

/-! ## buffer.hpp: sequences of appends -/

/-- The calls `append(s1); ...; append(sk)` in that order, each with the same
iteration budget for its growth loop. -/
def basic_buffer.append_all (fuel : Nat) (b : basic_buffer) (ss : List (List Char)) :
    result basic_buffer :=
  ss.foldlM (fun b1 s => b1.append fuel s) b

/-! ## format.hpp and std.hpp: formatters of bool, join and std::vector -/

/-- Member `formatter<bool>::format`; `write_to(ctx, "true")` goes through
`formatter<char[5]>`, which appends the four characters of the literal. -/
def formatter_bool_format (ctx : format_context) (item : Bool) : result format_context :=
  if item then formatter_string_view_format ctx "true".toList
  else formatter_string_view_format ctx "false".toList

/-- The constructor `arg_ref{ item }` for a `bool` argument. -/
def arg_ref.of_bool (item : Bool) : arg_ref :=
  { m_printer := fun format_ctx _ => formatter_bool_format format_ctx item }

/-- The call `write_to(ctx, item.m_separator, *it)`: the separator, then the
element. -/
def write_to_separator_item (ctx : format_context) (m_separator item : string_view) :
    result format_context :=
  match formatter_string_view_format ctx m_separator with
  | .error e => .error e
  | .ok ctx1 => formatter_string_view_format ctx1 item

/-- Member `formatter<detail::join_fn::impl<Iter>>::format`; `items` is the range
`[m_begin, m_end)` of strings. -/
def formatter_join_format (ctx : format_context) (items : List string_view)
    (m_separator : string_view) : result format_context :=
  match items with
  | [] => .ok ctx
  | first :: rest =>
    match formatter_string_view_format ctx first with
    | .error e => .error e
    | .ok ctx1 => rest.foldlM (fun c item => write_to_separator_item c m_separator item) ctx1

/-- The constructor `arg_ref{ join(range, separator) }` for a range of strings. -/
def arg_ref.of_join (items : List string_view) (separator : string_view) : arg_ref :=
  { m_printer := fun format_ctx _ => formatter_join_format format_ctx items separator }

/-- The loop of `range_formatter::format`; `at_begin` tells whether `it == b`. -/
def range_formatter_loop : Bool → format_context → List string_view → result format_context
  | _, os, [] => .ok os
  | at_begin, os, item :: rest =>
    match (if !at_begin then formatter_string_view_format os ", ".toList else .ok os) with
    | .error e => .error e
    | .ok os1 =>
      match formatter_string_view_format os1 item with
      | .error e => .error e
      | .ok os2 => range_formatter_loop false os2 rest

/-- Member `range_formatter<std::vector<...>>::format` for a vector of strings. -/
def range_formatter_format (os : format_context) (item : List string_view) :
    result format_context :=
  match formatter_string_view_format os "[".toList with
  | .error e => .error e
  | .ok os1 =>
    match range_formatter_loop true os1 item with
    | .error e => .error e
    | .ok os2 => formatter_string_view_format os2 "]".toList

/-- The constructor `arg_ref{ item }` for a `std::vector` of strings. -/
def arg_ref.of_vector (item : List string_view) : arg_ref :=
  { m_printer := fun format_ctx _ => range_formatter_format format_ctx item }

/-! ## Further predicates used in the statements -/

/-- An argument whose printer, run on a sound buffer with any specifier, returns
and has appended exactly `bytes`. -/
def arg_ref.appends (a : arg_ref) (bytes : List Char) : Prop :=
  ∀ (ctx : format_context) (pc : parse_context), ctx.m_os.sound →
    ∃ ctx1, a.print ctx pc = .ok ctx1 ∧ ctx1.m_os.sound ∧
      ctx1.m_os.content = ctx.m_os.content ++ bytes

/-- The elements in order, each with `sep` in front of it. -/
def separated_after (sep : string_view) : List string_view → List Char
  | [] => []
  | x :: xs => sep ++ x ++ separated_after sep xs

/-- The elements in order with `sep` between consecutive elements:
`x0 ++ sep ++ x1 ++ sep ++ ... ++ x(n-1)`, empty for no elements. -/
def join_text (sep : string_view) : List string_view → List Char
  | [] => []
  | x :: xs => x ++ separated_after sep xs

/-- The text `[x0, x1, ...]` of a vector of strings. -/
def vector_text (xs : List string_view) : List Char :=
  "[".toList ++ join_text ", ".toList xs ++ "]".toList

/-- The text of a boolean. -/
def bool_text (b : Bool) : List Char := if b then "true".toList else "false".toList

/-! ## Character positions read by the parser -/

namespace format_string

/-- Offsets of the view `s` that the call `std::find_if(first, end, pred)`
dereferences: each offset from `first` up to the one it returns, the returned
one included unless it is `end`. -/
def find_if_reads (s : string_view) (first : Nat) (pred : Char → Bool) : List Nat :=
  let found := find_if s first pred
  if found < s.length then List.range' first (found + 1 - first)
  else List.range' first (s.length - first)

/-- Offsets of `txt` that the loop of `parse_int` reads when it reaches offset
`i` with the value `value`: the loop ends at the first character that fails
the `assert` or overflows the `int`. -/
def parse_int_reads : string_view → Nat → Nat → List Nat
  | [], _, _ => []
  | c :: txt, i, value =>
    i :: (if '0'.toNat ≤ c.toNat ∧ c.toNat ≤ '9'.toNat then
        if value * 10 + (c.toNat - '0'.toNat) ≤ INT_MAX then
          parse_int_reads txt (i + 1) (value * 10 + (c.toNat - '0'.toNat))
        else []
      else [])

/-- Offsets of `arg` that the lambda splitting a placeholder body reads: the
search for the colon, then `parse_int` on a non-empty index part. -/
def split_argument_reads (arg : string_view) : List Nat :=
  let colon := find_if arg 0 is_colon
  let index_part := make_string_view arg 0 colon
  find_if_reads arg 0 is_colon ++
    (if !index_part.isEmpty then parse_int_reads index_part 0 0 else [])

/-- Offsets of `fmt` whose character one pass through the body of the `while`
loop of `parse` reads, in the order of the source: the search for the first
bracket, `bracket[0] == bracket[1]`, `is_opening_bracket(bracket[0])`, the
search for the closing bracket and the placeholder body.  Calls of
`make_string_view` and `push_back` copy iterators and views and read no
character. -/
def parse_iteration_reads (fmt : string_view) : List Nat :=
  let end_ := fmt.length
  let bracket := find_if fmt 0 is_bracket
  find_if_reads fmt 0 is_bracket ++
    (if bracket = end_ then []
     else
      [bracket, bracket + 1] ++
        (if char_at fmt bracket = char_at fmt (bracket + 1) then []
         else
          [bracket] ++
            (if is_opening_bracket (char_at fmt bracket) then
              let closing_bracket := find_if fmt (bracket + 1) is_closing_bracket
              find_if_reads fmt (bracket + 1) is_closing_bracket ++
                (if closing_bracket = end_ then []
                 else
                  (split_argument_reads (make_string_view fmt (bracket + 1) closing_bracket)).map
                    (fun i => bracket + 1 + i))
             else [])))

/-- Offsets of the template read by the loop of `parse`, with the iteration
budget of `parse_loop`; `base` is the offset in the template at which the
remaining input `fmt` starts.  Every non-empty `fmt` ends where the template
ends, so the next one starts `fmt.length - fmt1.length` further on. -/
def parse_loop_reads : Nat → Nat → string_view → Nat → List Nat
  | 0, _, _, _ => []
  | fuel + 1, base, fmt, arg_index =>
    if fmt.isEmpty then []
    else
      (parse_iteration_reads fmt).map (fun i => base + i) ++
        (match parse_iteration fmt arg_index with
         | .raise _ => []
         | .advance fmt1 _ arg_index1 =>
           parse_loop_reads fuel (base + (fmt.length - fmt1.length)) fmt1 arg_index1)

/-- Offsets of the template `fmt` read by `format_string::parse`. -/
def parse_reads (fmt : string_view) : List Nat :=
  parse_loop_reads (fmt.length + 1) 0 fmt 0

end format_string

/-! ## The parser on a view into a longer character array -/

namespace format_string

/-- Reading `it[0]` at offset `i` of the view `s` when `behind` is the
character stored right after the last character of the view.  A
`std::string_view` need not end where its character array ends:
`std::string_view("abc{{", 4)` is the view `abc{` with `{` behind it.  The
parser reads no offset beyond `s.length`. -/
def char_at_stored (behind : Char) (s : string_view) (i : Nat) : Char := s.getD i behind

/-- One pass through the body of the `while` loop of `parse`, entered with a
non-empty `fmt` that has the character `behind` stored after it. -/
def parse_iteration_stored (behind : Char) (fmt : string_view) (arg_index : Nat) : iteration :=
  let end_ := fmt.length
  let bracket := find_if fmt 0 is_bracket
  if bracket = end_ then
    .advance (make_string_view fmt bracket end_) [.print_text fmt] arg_index
  else if char_at_stored behind fmt bracket = char_at_stored behind fmt (bracket + 1) then
    .advance (make_string_view fmt (bracket + 2) end_)
      [.print_text (make_string_view fmt 0 (bracket + 1))] arg_index
  else if is_opening_bracket (char_at_stored behind fmt bracket) then
    let closing_bracket := find_if fmt (bracket + 1) is_closing_bracket
    if closing_bracket = end_ then .raise (.format_error "unclosed bracket")
    else
      match split_argument (make_string_view fmt (bracket + 1) closing_bracket) arg_index with
      | .error e => .raise e
      | .ok (actual_index, fmt_specifer) =>
        if arg_index + 1 ≤ INT_MAX then
          .advance (make_string_view fmt (closing_bracket + 1) end_)
            [.print_text (make_string_view fmt 0 bracket),
             .print_argument actual_index { m_specifier := fmt_specifer }]
            (arg_index + 1)
        else .raise .signed_overflow
  else .advance fmt [] arg_index

/-- The loop `while (!fmt.empty()) ...` of `parse`, with an iteration budget, on
a view that has the character `behind` stored after it.  Every non-empty `fmt`
of a later pass ends where the view ends, so `behind` stays the same. -/
def parse_loop_stored (behind : Char) :
    Nat → string_view → List print_action → Nat → result (List print_action)
  | 0, fmt, result, _ => if fmt.isEmpty then .ok result else .error .fuel_exhausted
  | fuel + 1, fmt, result, arg_index =>
    if fmt.isEmpty then .ok result
    else
      match parse_iteration_stored behind fmt arg_index with
      | .raise e => .error e
      | .advance fmt1 pushed arg_index1 =>
        parse_loop_stored behind fuel fmt1 (result ++ pushed) arg_index1

/-- The function `format_string::parse` on a view that has the character
`behind` stored after it; `parse` is the case of a terminating NUL. -/
def parse_stored (behind : Char) (fmt : string_view) : result (List print_action) :=
  parse_loop_stored behind (fmt.length + 1) fmt [] 0

/-- The constructor `format_string(fmt)` on a view that has the character
`behind` stored after it. -/
def create_stored (behind : Char) (fmt : string_view) : result format_string :=
  match parse_stored behind fmt with
  | .error e => .error e
  | .ok actions => .ok { m_actions := actions }

end format_string

end ferrugo.fmt

/-! # Theorems -/

namespace ferrugo.fmt

/-! ## Buffer -/

namespace basic_buffer

theorem create_default_sound : create_default.sound := by
  refine ⟨by simp [create_default, create], by simp [create_default, create], ?_⟩
  intro n hn
  simp only [create_default, create] at hn ⊢
  omega

theorem create_default_content : create_default.content = [] := by
  simp [create_default, create, content, size]

theorem grow_loop_ok (g : Nat → Nat) (req c0 : Nat) (hg : ∀ n, c0 ≤ n → n < g n) :
    ∀ (fuel nc : Nat), c0 ≤ nc → req ≤ nc + fuel →
      ∃ nc1, grow_loop g req fuel nc = .ok nc1 ∧ req ≤ nc1 ∧ nc ≤ nc1 := by
  intro fuel
  induction fuel with
  | zero =>
    intro nc _ h
    refine ⟨nc, ?_, by omega, le_refl _⟩
    simp only [grow_loop]
    rw [if_neg (by omega)]
  | succ fuel ih =>
    intro nc h0 h
    simp only [grow_loop]
    by_cases hlt : nc < req
    · rw [if_pos hlt]
      have hgn := hg nc h0
      obtain ⟨nc1, h1, h2, h3⟩ := ih (g nc) (by omega) (by omega)
      exact ⟨nc1, h1, h2, by omega⟩
    · rw [if_neg hlt]
      exact ⟨nc, rfl, by omega, le_refl _⟩

theorem take_append_length {l r : List Char} {n : Nat} (h : l.length = n) :
    (l ++ r).take n = l := by
  subst h
  exact List.take_left _ _

theorem copy_length (src dst : List Char) (pos : Nat) (h : pos + src.length ≤ dst.length) :
    (copy src dst pos).length = dst.length := by
  simp only [copy, List.length_append, List.length_take, List.length_drop]
  omega

theorem copy_take (src dst : List Char) (pos : Nat) (h : pos ≤ dst.length) :
    (copy src dst pos).take (pos + src.length) = dst.take pos ++ src := by
  have hl : (dst.take pos ++ src).length = pos + src.length := by
    simp only [List.length_append, List.length_take]
    omega
  unfold copy
  rw [← hl, List.take_left]

theorem content_length (b : basic_buffer) (h : b.sound) : b.content.length = b.m_size := by
  obtain ⟨h1, h2, _⟩ := h
  simp only [content, size, List.length_take]
  omega

theorem ensure_capacity_sound (b : basic_buffer) (req fuel : Nat) (h : b.sound)
    (hf : req ≤ b.m_capacity + fuel) :
    ∃ b1, ensure_capacity fuel b req = .ok b1 ∧ b1.sound ∧ b1.content = b.content ∧
      b1.m_size = b.m_size ∧ req ≤ b1.m_capacity := by
  unfold ensure_capacity
  by_cases hle : req ≤ b.m_capacity
  · rw [if_pos hle]
    exact ⟨b, rfl, h, rfl, rfl, hle⟩
  · rw [if_neg hle]
    have hcl := content_length b h
    obtain ⟨h1, h2, h3⟩ := h
    obtain ⟨nc, e1, e2, e3⟩ :=
      grow_loop_ok b.m_grow_fn req b.m_capacity h3 fuel b.m_capacity (le_refl _) hf
    rw [e1]
    refine ⟨_, rfl, ⟨?_, ?_, ?_⟩, ?_, rfl, e2⟩
    · simp only [copy, List.take_zero, List.nil_append, List.length_append, List.length_drop,
        List.length_replicate, Nat.zero_add]
      omega
    · show b.m_size ≤ nc
      omega
    · intro n hn
      exact h3 n (by simp only at hn; omega)
    · simp only [content, size, copy, List.take_zero, List.nil_append, Nat.zero_add]
      exact take_append_length (by simp only [List.length_take]; omega)

theorem append_sound (b : basic_buffer) (bytes : List Char) (fuel : Nat) (h : b.sound)
    (hf : b.m_size + bytes.length ≤ b.m_capacity + fuel) :
    ∃ b1, append fuel b bytes = .ok b1 ∧ b1.sound ∧ b1.content = b.content ++ bytes := by
  unfold append
  obtain ⟨b1, e1, s1, c1, z1, r1⟩ := ensure_capacity_sound b (b.size + bytes.length) fuel h hf
  simp only [e1]
  obtain ⟨h1, h2, h3⟩ := s1
  simp only [size] at r1 z1 ⊢
  refine ⟨_, rfl, ⟨?_, ?_, h3⟩, ?_⟩
  · show (copy bytes b1.m_data b1.m_size).length = b1.m_capacity
    rw [copy_length _ _ _ (by omega)]
    exact h1
  · show b1.m_size + bytes.length ≤ b1.m_capacity
    omega
  · show List.take (b1.m_size + bytes.length) (copy bytes b1.m_data b1.m_size) = _
    rw [copy_take _ _ _ (by omega), ← c1]
    rfl

end basic_buffer

theorem formatter_string_view_format_sound (ctx : format_context) (item : string_view)
    (h : ctx.m_os.sound) :
    ∃ ctx1, formatter_string_view_format ctx item = .ok ctx1 ∧ ctx1.m_os.sound ∧
      ctx1.m_os.content = ctx.m_os.content ++ item := by
  unfold formatter_string_view_format
  obtain ⟨b1, e1, s1, c1⟩ := basic_buffer.append_sound ctx.output item
    (append_budget ctx.output item) h (by simp [append_budget, basic_buffer.size, format_context.output])
  rw [e1]
  exact ⟨_, rfl, s1, c1⟩

theorem formatter_char_format_sound (ctx : format_context) (item : Char)
    (h : ctx.m_os.sound) :
    ∃ ctx1, formatter_char_format ctx item = .ok ctx1 ∧ ctx1.m_os.sound ∧
      ctx1.m_os.content = ctx.m_os.content ++ [item] := by
  unfold formatter_char_format
  obtain ⟨b1, e1, s1, c1⟩ := basic_buffer.append_sound ctx.output [item]
    (append_budget ctx.output [item]) h (by simp [append_budget, basic_buffer.size, format_context.output])
  rw [e1]
  exact ⟨_, rfl, s1, c1⟩

theorem arg_ref.of_string_non_failing (item : string_view) : (arg_ref.of_string item).non_failing := by
  intro ctx pc h
  obtain ⟨c1, e, s, _⟩ := formatter_string_view_format_sound ctx item h
  exact ⟨c1, e, s⟩


/-! ## Rendering driver -/

namespace format_string

theorem foldlM_visit_cons (arguments : List arg_ref) (ctx : format_context) (a : print_action)
    (rest : List print_action) :
    (a :: rest).foldlM (visit arguments) ctx =
      match visit arguments ctx a with
      | .error e => .error e
      | .ok ctx1 => rest.foldlM (visit arguments) ctx1 := by
  rw [List.foldlM_cons]
  cases visit arguments ctx a <;> rfl

/-- With non-failing arguments and all indices in range, the driver returns. -/
theorem foldlM_visit_ok (arguments : List arg_ref) (hargs : ∀ a ∈ arguments, a.non_failing) :
    ∀ (actions : List print_action) (ctx : format_context), ctx.m_os.sound →
      indices_below arguments.length actions →
      ∃ ctx1, actions.foldlM (visit arguments) ctx = .ok ctx1 ∧ ctx1.m_os.sound := by
  intro actions
  induction actions with
  | nil => intro ctx h _; exact ⟨ctx, rfl, h⟩
  | cons a rest ih =>
    intro ctx h hidx
    have hrest : indices_below arguments.length rest :=
      fun i c hm => hidx i c (List.mem_cons_of_mem _ hm)
    rw [foldlM_visit_cons]
    cases a with
    | print_text text =>
      obtain ⟨c1, e1, s1, _⟩ := formatter_string_view_format_sound ctx text h
      simp only [visit, e1]
      exact ih c1 s1 hrest
    | print_argument index context =>
      have hlt : index < arguments.length := hidx index context (List.mem_cons_self _ _)
      have hget : arguments.get? index = some (arguments.get ⟨index, hlt⟩) :=
        List.get?_eq_get hlt
      obtain ⟨c1, e1, s1⟩ :=
        hargs _ (List.get_mem arguments index hlt) ctx context h
      simp only [visit, hget, e1]
      exact ih c1 s1 hrest

/-- With non-failing arguments, a placeholder whose index is out of range makes
the driver throw `std::out_of_range`. -/
theorem foldlM_visit_out_of_range (arguments : List arg_ref)
    (hargs : ∀ a ∈ arguments, a.non_failing) :
    ∀ (actions : List print_action) (ctx : format_context), ctx.m_os.sound →
      ¬ indices_below arguments.length actions →
      actions.foldlM (visit arguments) ctx = .error .out_of_range := by
  intro actions
  induction actions with
  | nil =>
    intro ctx _ hbad
    exact absurd (fun i c hm => absurd hm (List.not_mem_nil _)) hbad
  | cons a rest ih =>
    intro ctx h hbad
    rw [foldlM_visit_cons]
    cases a with
    | print_text text =>
      obtain ⟨c1, e1, s1, _⟩ := formatter_string_view_format_sound ctx text h
      simp only [visit, e1]
      refine ih c1 s1 (fun hrest => hbad ?_)
      intro i c hm
      rcases List.mem_cons.1 hm with heq | hm1
      · cases heq
      · exact hrest i c hm1
    | print_argument index context =>
      by_cases hlt : index < arguments.length
      · have hget : arguments.get? index = some (arguments.get ⟨index, hlt⟩) :=
          List.get?_eq_get hlt
        obtain ⟨c1, e1, s1⟩ :=
          hargs _ (List.get_mem arguments index hlt) ctx context h
        simp only [visit, hget, e1]
        refine ih c1 s1 (fun hrest => hbad ?_)
        intro i c hm
        rcases List.mem_cons.1 hm with heq | hm1
        · cases heq
          exact hlt
        · exact hrest i c hm1
      · have hget : arguments.get? index = none :=
          List.get?_eq_none.2 (Nat.le_of_not_lt hlt)
        simp only [visit, hget]

/-- With string arguments and all indices in range, the driver appends the
concatenation of the actions to the buffer. -/
theorem foldlM_visit_strings (args : List string_view) :
    ∀ (actions : List print_action) (ctx : format_context), ctx.m_os.sound →
      indices_below args.length actions →
      ∃ ctx1, actions.foldlM (visit (wrap_args args)) ctx = .ok ctx1 ∧ ctx1.m_os.sound ∧
        ctx1.m_os.content = ctx.m_os.content ++ concat_actions args actions := by
  intro actions
  induction actions with
  | nil => intro ctx h _; exact ⟨ctx, rfl, h, by simp [concat_actions]⟩
  | cons a rest ih =>
    intro ctx h hidx
    have hrest : indices_below args.length rest :=
      fun i c hm => hidx i c (List.mem_cons_of_mem _ hm)
    rw [foldlM_visit_cons]
    cases a with
    | print_text text =>
      obtain ⟨c1, e1, s1, k1⟩ := formatter_string_view_format_sound ctx text h
      simp only [visit, e1]
      obtain ⟨c2, e2, s2, k2⟩ := ih c1 s1 hrest
      exact ⟨c2, e2, s2, by rw [k2, k1, concat_actions, List.append_assoc]⟩
    | print_argument index context =>
      have hlt : index < args.length := hidx index context (List.mem_cons_self _ _)
      have hget : (wrap_args args).get? index = some (arg_ref.of_string (args.getD index [])) := by
        simp [wrap_args, List.getD_eq_getElem?_getD, List.getElem?_eq_getElem hlt]
      obtain ⟨c1, e1, s1, k1⟩ :=
        formatter_string_view_format_sound ctx (args.getD index []) h
      have e1b : (arg_ref.of_string (args.getD index [])).print ctx context = .ok c1 := e1
      simp only [visit, hget, e1b]
      obtain ⟨c2, e2, s2, k2⟩ := ih c1 s1 hrest
      exact ⟨c2, e2, s2, by rw [k2, k1, concat_actions, List.append_assoc]⟩

end format_string

/-! ## Parser: one pass of the loop -/

namespace format_string

theorem make_string_view_eq (s : string_view) (b e : Nat) :
    make_string_view s b e = (s.take e).drop b := by
  unfold make_string_view
  split
  · rfl
  · symm
    apply List.drop_of_length_le
    simp only [List.length_take]
    omega

theorem findIdx_append_free (p : Char → Bool) (l r : List Char) (h : ∀ c ∈ l, p c = false) :
    (l ++ r).findIdx p = l.length + r.findIdx p := by
  rw [List.findIdx_append]
  have : l.findIdx p = l.length := List.findIdx_eq_length.2 h
  rw [this, if_neg (lt_irrefl _), Nat.add_comm]

theorem find_if_zero (s : string_view) (p : Char → Bool) : find_if s 0 p = s.findIdx p := by
  simp [find_if]

theorem find_if_append (l r : string_view) (n : Nat) (p : Char → Bool) (hn : n = l.length) :
    find_if (l ++ r) n p = l.length + r.findIdx p := by
  subst hn
  simp [find_if]

theorem char_at_append (l r : string_view) (n : Nat) (hn : n = l.length) :
    char_at (l ++ r) n = r.headD (Char.ofNat 0) := by
  subst hn
  unfold char_at
  rw [List.getD_append_right _ _ _ _ (le_refl _), Nat.sub_self]
  cases r <;> rfl

/-- The pass of the loop when the first bracket is `b`, preceded by `pre` and
followed by `rest`. -/
theorem parse_iteration_bracket (pre rest : string_view) (b : Char) (c : Nat)
    (hpre : brace_free pre) (hb : is_bracket b = true) :
    parse_iteration (pre ++ b :: rest) c =
      if b = rest.headD (Char.ofNat 0) then
        .advance (rest.drop 1) [.print_text (pre ++ [b])] c
      else if is_opening_bracket b then
        if rest.findIdx is_closing_bracket = rest.length then
          .raise (.format_error "unclosed bracket")
        else
          match split_argument (rest.take (rest.findIdx is_closing_bracket)) c with
          | .error e => .raise e
          | .ok (actual_index, fmt_specifer) =>
            if c + 1 ≤ INT_MAX then
              .advance (rest.drop (rest.findIdx is_closing_bracket + 1))
                [.print_text pre, .print_argument actual_index { m_specifier := fmt_specifer }]
                (c + 1)
            else .raise .signed_overflow
      else .advance (pre ++ b :: rest) [] c := by
  have hfind : find_if (pre ++ b :: rest) 0 is_bracket = pre.length := by
    rw [find_if_zero, findIdx_append_free _ _ _ hpre, List.findIdx_cons, hb]
    rfl
  have hlen : (pre ++ b :: rest).length = pre.length + 1 + rest.length := by
    simp only [List.length_append, List.length_cons]; omega
  have hc0 : char_at (pre ++ b :: rest) pre.length = b := by
    rw [char_at_append _ _ _ rfl]; rfl
  have hc1 : char_at (pre ++ b :: rest) (pre.length + 1) = rest.headD (Char.ofNat 0) := by
    have : pre ++ b :: rest = (pre ++ [b]) ++ rest := by simp
    rw [this, char_at_append _ _ _ (by simp)]
  have hclose : find_if (pre ++ b :: rest) (pre.length + 1) is_closing_bracket
      = pre.length + 1 + rest.findIdx is_closing_bracket := by
    have : pre ++ b :: rest = (pre ++ [b]) ++ rest := by simp
    rw [this, find_if_append _ _ _ _ (by simp)]
    simp
  have hle : rest.findIdx is_closing_bracket ≤ rest.length := List.findIdx_le_length _
  have t1 : List.drop (pre.length + 2) (List.take (pre.length + 1 + rest.length) (pre ++ b :: rest))
      = rest.drop 1 := by
    rw [← hlen, List.take_length]
    have : pre.length + 2 = pre.length + (1 + 1) := by omega
    rw [this, List.drop_append]
    rfl
  have t2 : List.drop 0 (List.take (pre.length + 1) (pre ++ b :: rest)) = pre ++ [b] := by
    rw [List.drop_zero, List.take_append]
    rfl
  have t3 : List.drop 0 (List.take pre.length (pre ++ b :: rest)) = pre := by
    rw [List.drop_zero, List.take_left]
  have t4 : ∀ k, List.drop (pre.length + 1)
      (List.take (pre.length + 1 + k) (pre ++ b :: rest)) = rest.take k := by
    intro k
    have e : pre.length + 1 + k = pre.length + (k + 1) := by omega
    rw [e, List.take_append, List.take_succ_cons, List.drop_append]
    rfl
  have t5 : ∀ k, List.drop (pre.length + 1 + k + 1)
      (List.take (pre.length + 1 + rest.length) (pre ++ b :: rest)) = rest.drop (k + 1) := by
    intro k
    rw [← hlen, List.take_length]
    have e : pre.length + 1 + k + 1 = pre.length + (k + 1 + 1) := by omega
    rw [e, List.drop_append]
    rfl
  unfold parse_iteration
  simp only [make_string_view_eq, hfind, hclose, hc0, hc1, hlen, t1, t2, t3, t4, t5]
  have hne : ¬ (pre.length = pre.length + 1 + rest.length) := by omega
  rw [if_neg hne]
  have hiff : (pre.length + 1 + List.findIdx is_closing_bracket rest = pre.length + 1 + rest.length)
      ↔ (List.findIdx is_closing_bracket rest = rest.length) := by omega
  simp only [hiff]

end format_string

namespace format_string

theorem is_bracket_cases {b : Char} (hb : is_bracket b = true) : b = '{' ∨ b = '}' := by
  simpa [is_bracket, is_opening_bracket, is_closing_bracket] using hb

theorem exists_split (p : Char → Bool) :
    ∀ l : List Char, (∀ x ∈ l, p x = false) ∨
      ∃ pre b rest, l = pre ++ b :: rest ∧ (∀ x ∈ pre, p x = false) ∧ p b = true := by
  intro l
  induction l with
  | nil => exact Or.inl (fun x hx => absurd hx (List.not_mem_nil _))
  | cons a l ih =>
    by_cases ha : p a = true
    · exact Or.inr ⟨[], a, l, rfl, fun x hx => absurd hx (List.not_mem_nil _), ha⟩
    · have ha1 : p a = false := by simpa using ha
      rcases ih with h | ⟨pre, b, rest, h1, h2, h3⟩
      · left
        intro x hx
        rcases List.mem_cons.1 hx with rfl | hx
        · exact ha1
        · exact h x hx
      · right
        refine ⟨a :: pre, b, rest, by rw [h1]; rfl, ?_, h3⟩
        intro x hx
        rcases List.mem_cons.1 hx with rfl | hx
        · exact ha1
        · exact h2 x hx

/-- A pass over a text without brackets pushes the text and empties `fmt`. -/
theorem parse_iteration_text (fmt : string_view) (c : Nat) (h : brace_free fmt) :
    parse_iteration fmt c = .advance [] [.print_text fmt] c := by
  have hfind : find_if fmt 0 is_bracket = fmt.length := by
    rw [find_if_zero]
    exact List.findIdx_eq_length.2 h
  unfold parse_iteration
  simp only [hfind, if_true, make_string_view, lt_irrefl, if_false]

/-- A pass over an escaped bracket pushes the text up to and including the
first of the two brackets. -/
theorem parse_iteration_escape (pre rest : string_view) (b : Char) (c : Nat)
    (hpre : brace_free pre) (hb : is_bracket b = true) :
    parse_iteration (pre ++ b :: b :: rest) c = .advance rest [.print_text (pre ++ [b])] c := by
  rw [parse_iteration_bracket pre (b :: rest) b c hpre hb]
  simp

theorem headD_ne_of_head (body r : string_view) (x y : Char) (hxy : x ≠ y)
    (h : body.head? ≠ some y) : y ≠ (body ++ x :: r).headD (Char.ofNat 0) := by
  cases body with
  | nil => simpa using hxy.symm
  | cons a l =>
    simp only [List.head?_cons, ne_eq, Option.some.injEq] at h
    simpa using fun e => h e.symm

/-- A pass over a closed placeholder. -/
theorem parse_iteration_placeholder (pre body rest : string_view) (c : Nat)
    (hpre : brace_free pre) (hhead : body.head? ≠ some '{')
    (hbody : ∀ x ∈ body, is_closing_bracket x = false) :
    parse_iteration (pre ++ '{' :: (body ++ '}' :: rest)) c =
      match split_argument body c with
      | .error e => .raise e
      | .ok (actual_index, fmt_specifer) =>
        if c + 1 ≤ INT_MAX then
          .advance rest
            [.print_text pre, .print_argument actual_index { m_specifier := fmt_specifer }]
            (c + 1)
        else .raise .signed_overflow := by
  rw [parse_iteration_bracket pre _ '{' c hpre (by decide)]
  have h1 : '{' ≠ (body ++ '}' :: rest).headD (Char.ofNat 0) :=
    headD_ne_of_head body rest '}' '{' (by decide) hhead
  have h2 : (body ++ '}' :: rest).findIdx is_closing_bracket = body.length := by
    rw [findIdx_append_free _ _ _ hbody, List.findIdx_cons]
    rfl
  have h3 : ¬ (body.length = (body ++ '}' :: rest).length) := by
    simp only [List.length_append, List.length_cons]; omega
  have h4 : List.take body.length (body ++ '}' :: rest) = body := List.take_left _ _
  have h5 : List.drop (body.length + 1) (body ++ '}' :: rest) = rest := by
    rw [List.drop_append]; rfl
  rw [if_neg h1, h2, if_neg h3, h4, h5]
  rfl

/-- A pass over an opening bracket that is never closed throws. -/
theorem parse_iteration_unclosed (pre r : string_view) (c : Nat)
    (hpre : brace_free pre) (hhead : r.head? ≠ some '{')
    (hr : ∀ x ∈ r, is_closing_bracket x = false) :
    parse_iteration (pre ++ '{' :: r) c = .raise (.format_error "unclosed bracket") := by
  rw [parse_iteration_bracket pre _ '{' c hpre (by decide)]
  have h1 : '{' ≠ r.headD (Char.ofNat 0) := by
    cases r with
    | nil => decide
    | cons a l =>
      simp only [List.head?_cons, ne_eq, Option.some.injEq] at hhead
      simpa using fun e => hhead e.symm
  have h2 : r.findIdx is_closing_bracket = r.length := List.findIdx_eq_length.2 hr
  have h3 : is_opening_bracket '{' = true := by decide
  rw [if_neg h1, h2, if_pos h3, if_pos rfl]

/-- A pass over a closing bracket that is not doubled changes nothing. -/
theorem parse_iteration_stuck (pre r : string_view) (c : Nat)
    (hpre : brace_free pre) (hhead : r.head? ≠ some '}') :
    parse_iteration (pre ++ '}' :: r) c = .advance (pre ++ '}' :: r) [] c := by
  rw [parse_iteration_bracket pre _ '}' c hpre (by decide)]
  have h1 : '}' ≠ r.headD (Char.ofNat 0) := by
    cases r with
    | nil => decide
    | cons a l =>
      simp only [List.head?_cons, ne_eq, Option.some.injEq] at hhead
      simpa using fun e => hhead e.symm
  rw [if_neg h1]
  rfl

/-- A pass that changes nothing is repeated until the budget is used up. -/
theorem parse_loop_stuck (fmt : string_view) (c : Nat) (hne : fmt ≠ [])
    (h : parse_iteration fmt c = .advance fmt [] c) :
    ∀ (fuel : Nat) (acc : List print_action), parse_loop fuel fmt acc c = .error .fuel_exhausted := by
  intro fuel
  induction fuel with
  | zero =>
    intro acc
    cases fmt with
    | nil => exact absurd rfl hne
    | cons a l => rfl
  | succ fuel ih =>
    intro acc
    cases fmt with
    | nil => exact absurd rfl hne
    | cons a l =>
      simp only [parse_loop, List.isEmpty_cons, h, List.append_nil]
      exact ih acc

theorem parse_loop_nil (fuel : Nat) (acc : List print_action) (c : Nat) :
    parse_loop fuel [] acc c = .ok acc := by
  cases fuel <;> rfl

theorem parse_loop_succ (fuel : Nat) (fmt : string_view) (acc : List print_action) (c : Nat)
    (hne : fmt ≠ []) :
    parse_loop (fuel + 1) fmt acc c =
      match parse_iteration fmt c with
      | .raise e => .error e
      | .advance fmt1 pushed c1 => parse_loop fuel fmt1 (acc ++ pushed) c1 := by
  cases fmt with
  | nil => exact absurd rfl hne
  | cons a l => rfl

end format_string

/-! ## Parser: the templates that compile -/

namespace format_string

theorem parse_loop_of_compiles {fmt : string_view} {c : Nat} {actions : List print_action}
    (h : compiles fmt c actions) :
    ∀ (fuel : Nat) (acc : List print_action), fmt.length < fuel →
      parse_loop fuel fmt acc c = .ok (acc ++ actions) := by
  induction h with
  | done c =>
    intro fuel acc _
    rw [parse_loop_nil, List.append_nil]
  | text fmt c hne hfree =>
    intro fuel acc hf
    obtain ⟨fuel, rfl⟩ : ∃ k, fuel = k + 1 := ⟨fuel - 1, by omega⟩
    rw [parse_loop_succ _ _ _ _ hne, parse_iteration_text fmt c hfree]
    exact parse_loop_nil _ _ _
  | escape pre rest b c actions hpre hb _ ih =>
    intro fuel acc hf
    obtain ⟨fuel, rfl⟩ : ∃ k, fuel = k + 1 := ⟨fuel - 1, by omega⟩
    rw [parse_loop_succ _ _ _ _ (by simp), parse_iteration_escape pre rest b c hpre hb]
    simp only [List.length_append, List.length_cons] at hf
    have := ih fuel (acc ++ [.print_text (pre ++ [b])]) (by omega)
    simpa using this
  | placeholder pre body rest c idx spec actions hpre hhead hbody hsplit hc _ ih =>
    intro fuel acc hf
    obtain ⟨fuel, rfl⟩ : ∃ k, fuel = k + 1 := ⟨fuel - 1, by omega⟩
    rw [parse_loop_succ _ _ _ _ (by simp),
      parse_iteration_placeholder pre body rest c hpre hhead hbody, hsplit]
    simp only [if_pos hc]
    simp only [List.length_append, List.length_cons] at hf
    have := ih fuel (acc ++ [.print_text pre, .print_argument idx { m_specifier := spec }])
      (by omega)
    simpa using this

theorem compiles_of_parse_loop :
    ∀ (fuel : Nat) (fmt : string_view) (acc : List print_action) (c : Nat)
      (res : List print_action), fmt.length < fuel → parse_loop fuel fmt acc c = .ok res →
      ∃ actions, res = acc ++ actions ∧ compiles fmt c actions := by
  intro fuel
  induction fuel with
  | zero => intro fmt acc c res hf; exact absurd hf (Nat.not_lt_zero _)
  | succ fuel ih =>
    intro fmt acc c res hf h
    by_cases hne : fmt = []
    · subst hne
      rw [parse_loop_nil] at h
      cases h
      exact ⟨[], by simp, compiles.done c⟩
    rw [parse_loop_succ _ _ _ _ hne] at h
    rcases exists_split is_bracket fmt with hfree | ⟨pre, b, rest, rfl, hpre, hb⟩
    · rw [parse_iteration_text fmt c hfree] at h
      simp only [parse_loop_nil] at h
      cases h
      exact ⟨_, rfl, compiles.text fmt c hne hfree⟩
    · simp only [List.length_append, List.length_cons] at hf
      cases rest with
      | nil =>
        rcases is_bracket_cases hb with rfl | rfl
        · rw [parse_iteration_unclosed pre [] c hpre (by simp) (by simp)] at h
          cases h
        · have hs := parse_iteration_stuck pre [] c hpre (by simp)
          rw [hs] at h
          simp only [List.append_nil] at h
          rw [parse_loop_stuck _ c (by simp) hs] at h
          cases h
      | cons d rest =>
        simp only [List.length_cons] at hf
        by_cases hbd : d = b
        · subst hbd
          rw [parse_iteration_escape pre rest d c hpre hb] at h
          obtain ⟨actions, h1, h2⟩ := ih rest _ c res (by omega) h
          refine ⟨.print_text (pre ++ [d]) :: actions, ?_, compiles.escape pre rest d c actions hpre hb h2⟩
          rw [h1]; simp
        · rcases is_bracket_cases hb with rfl | rfl
          · -- an opening bracket: look for the closing one
            have hhead0 : (d :: rest).head? ≠ some '{' := by simpa using hbd
            rcases exists_split is_closing_bracket (d :: rest) with hno | ⟨body, x, r, hsplit, hbody, hx⟩
            · rw [parse_iteration_unclosed pre (d :: rest) c hpre hhead0 hno] at h
              cases h
            · have hx1 : x = '}' := by simpa [is_closing_bracket] using hx
              subst hx1
              have hhead : body.head? ≠ some '{' := by
                cases body with
                | nil => simp
                | cons a l =>
                  simp only [List.cons_append, List.cons.injEq] at hsplit
                  rw [← hsplit.1]
                  simpa using hbd
              have hlen : (d :: rest).length = body.length + 1 + r.length := by
                rw [hsplit]; simp only [List.length_append, List.length_cons]; omega
              simp only [List.length_cons] at hlen
              rw [hsplit, parse_iteration_placeholder pre body r c hpre hhead hbody] at h
              cases hsa : split_argument body c with
              | error e => rw [hsa] at h; cases h
              | ok p =>
                obtain ⟨idx, spec⟩ := p
                rw [hsa] at h
                by_cases hc : c + 1 ≤ INT_MAX
                · simp only [if_pos hc] at h
                  obtain ⟨actions, h1, h2⟩ := ih r _ (c + 1) res (by omega) h
                  refine ⟨.print_text pre :: .print_argument idx { m_specifier := spec } :: actions,
                    ?_, ?_⟩
                  · rw [h1]; simp
                  · rw [hsplit]
                    exact compiles.placeholder pre body r c idx spec actions hpre hhead hbody hsa hc h2
                · simp only [if_neg hc] at h
                  cases h
          · have hs := parse_iteration_stuck pre (d :: rest) c hpre (by simpa using hbd)
            rw [hs] at h
            simp only [List.append_nil] at h
            rw [parse_loop_stuck _ c (by simp) hs] at h
            cases h

/-- The function `parse` returns exactly on the templates of `compiles`. -/
theorem parse_eq_ok_iff (fmt : string_view) (actions : List print_action) :
    parse fmt = .ok actions ↔ compiles fmt 0 actions := by
  constructor
  · intro h
    obtain ⟨a, h1, h2⟩ := compiles_of_parse_loop _ fmt [] 0 actions (Nat.lt_succ_self _) h
    simp only [List.nil_append] at h1
    rw [h1]
    exact h2
  · intro h
    have := parse_loop_of_compiles h (fmt.length + 1) [] (Nat.lt_succ_self _)
    simpa [parse] using this

end format_string

/-! ## Parser: budget and composition -/

namespace format_string

/-- A pass either changes nothing or shortens `fmt`. -/
theorem parse_iteration_advance (fmt : string_view) (c : Nat) (fmt1 : string_view)
    (pushed : List print_action) (c1 : Nat)
    (h : parse_iteration fmt c = .advance fmt1 pushed c1) (hne : fmt ≠ []) :
    parse_iteration fmt c = .advance fmt [] c ∨ fmt1.length < fmt.length := by
  rcases exists_split is_bracket fmt with hfree | ⟨pre, b, rest, rfl, hpre, hb⟩
  · rw [parse_iteration_text fmt c hfree] at h
    cases h
    right
    exact List.length_pos.2 hne
  · rw [parse_iteration_bracket pre rest b c hpre hb] at h ⊢
    split at h
    · cases h
      right
      simp only [List.length_drop, List.length_append, List.length_cons]
      omega
    · rename_i hesc
      rw [if_neg hesc]
      split at h
      · rename_i hopen
        rw [if_pos hopen]
        split at h
        · cases h
        · split at h
          · cases h
          · split at h
            · cases h
              right
              simp only [List.length_drop, List.length_append, List.length_cons]
              omega
            · cases h
      · rename_i hopen
        rw [if_neg hopen]
        left
        rfl

/-- Any budget above the length of `fmt` gives the same outcome. -/
theorem parse_loop_budget :
    ∀ (n : Nat) (fmt : string_view) (acc : List print_action) (c fuel1 fuel2 : Nat),
      fmt.length ≤ n → fmt.length < fuel1 → fmt.length < fuel2 →
      parse_loop fuel1 fmt acc c = parse_loop fuel2 fmt acc c := by
  intro n
  induction n with
  | zero =>
    intro fmt acc c fuel1 fuel2 hn _ _
    have : fmt = [] := List.length_eq_zero.1 (Nat.le_zero.1 hn)
    subst this
    rw [parse_loop_nil, parse_loop_nil]
  | succ n ih =>
    intro fmt acc c fuel1 fuel2 hn h1 h2
    by_cases hne : fmt = []
    · subst hne
      rw [parse_loop_nil, parse_loop_nil]
    obtain ⟨f1, rfl⟩ : ∃ k, fuel1 = k + 1 := ⟨fuel1 - 1, by omega⟩
    obtain ⟨f2, rfl⟩ : ∃ k, fuel2 = k + 1 := ⟨fuel2 - 1, by omega⟩
    rw [parse_loop_succ _ _ _ _ hne, parse_loop_succ _ _ _ _ hne]
    cases hit : parse_iteration fmt c with
    | raise e => rfl
    | advance fmt1 pushed c1 =>
      rcases parse_iteration_advance fmt c fmt1 pushed c1 hit hne with hs | hlt
      · rw [hs] at hit
        cases hit
        simp only
        rw [parse_loop_stuck fmt c hne hs, parse_loop_stuck fmt c hne hs]
      · simp only
        exact ih fmt1 _ c1 f1 f2 (by omega) (by omega) (by omega)

theorem parse_loop_eq_with_counter (fmt : string_view) (c fuel : Nat) (h : fmt.length < fuel) :
    parse_loop fuel fmt [] c = parse_with_counter fmt c :=
  parse_loop_budget fmt.length fmt [] c fuel (fmt.length + 1) (le_refl _) h (Nat.lt_succ_self _)

theorem parse_eq_with_counter (fmt : string_view) : parse fmt = parse_with_counter fmt 0 := rfl

theorem with_counter_eq_ok_iff (fmt : string_view) (c : Nat) (actions : List print_action) :
    parse_with_counter fmt c = .ok actions ↔ compiles fmt c actions := by
  constructor
  · intro h
    obtain ⟨a, h1, h2⟩ := compiles_of_parse_loop _ fmt [] c actions (Nat.lt_succ_self _) h
    simp only [List.nil_append] at h1
    rw [h1]
    exact h2
  · intro h
    have := parse_loop_of_compiles h (fmt.length + 1) [] (Nat.lt_succ_self _)
    simpa [parse_with_counter] using this

/-- The actions already pushed are kept in front of the ones pushed later. -/
theorem parse_loop_acc (fuel : Nat) (fmt : string_view) (acc : List print_action) (c : Nat)
    (h : fmt.length < fuel) :
    parse_loop fuel fmt acc c =
      match parse_with_counter fmt c with
      | .error e => .error e
      | .ok actions => .ok (acc ++ actions) := by
  induction fuel generalizing fmt acc c with
  | zero => exact absurd h (Nat.not_lt_zero _)
  | succ fuel ih =>
    by_cases hne : fmt = []
    · subst hne
      simp [parse_loop_nil, parse_with_counter]
    rw [parse_loop_succ _ _ _ _ hne]
    have hw : parse_with_counter fmt c = parse_loop (fuel + 1) fmt [] c :=
      (parse_loop_eq_with_counter fmt c (fuel + 1) h).symm
    rw [hw, parse_loop_succ _ _ _ _ hne]
    cases hit : parse_iteration fmt c with
    | raise e => rfl
    | advance fmt1 pushed c1 =>
      rcases parse_iteration_advance fmt c fmt1 pushed c1 hit hne with hs | hlt
      · rw [hs] at hit
        cases hit
        simp only
        rw [parse_loop_stuck fmt c hne hs, parse_loop_stuck fmt c hne hs]
      · simp only
        rw [ih fmt1 (acc ++ pushed) c1 (by omega), ih fmt1 ([] ++ pushed) c1 (by omega)]
        cases parse_with_counter fmt1 c1 with
        | error e => rfl
        | ok actions => simp

end format_string

namespace format_string

theorem with_counter_nil (c : Nat) : parse_with_counter [] c = .ok [] := rfl

theorem with_counter_text (fmt : string_view) (c : Nat) (hne : fmt ≠ []) (h : brace_free fmt) :
    parse_with_counter fmt c = .ok [.print_text fmt] :=
  (with_counter_eq_ok_iff fmt c _).2 (compiles.text fmt c hne h)

theorem with_counter_escape (pre rest : string_view) (b : Char) (c : Nat)
    (hpre : brace_free pre) (hb : is_bracket b = true) :
    parse_with_counter (pre ++ b :: b :: rest) c =
      (parse_with_counter rest c).map (fun actions => .print_text (pre ++ [b]) :: actions) := by
  unfold parse_with_counter
  rw [parse_loop_succ _ _ _ _ (by simp), parse_iteration_escape pre rest b c hpre hb]
  simp only
  rw [parse_loop_acc _ _ _ _ (by simp only [List.length_append, List.length_cons]; omega)]
  unfold parse_with_counter
  cases parse_loop (rest.length + 1) rest [] c <;> rfl

theorem with_counter_placeholder (pre body rest : string_view) (c : Nat)
    (hpre : brace_free pre) (hhead : body.head? ≠ some '{')
    (hbody : ∀ x ∈ body, is_closing_bracket x = false) :
    parse_with_counter (pre ++ '{' :: (body ++ '}' :: rest)) c =
      match split_argument body c with
      | .error e => .error e
      | .ok (actual_index, fmt_specifer) =>
        if c + 1 ≤ INT_MAX then
          (parse_with_counter rest (c + 1)).map (fun actions =>
            .print_text pre :: .print_argument actual_index { m_specifier := fmt_specifer }
              :: actions)
        else .error .signed_overflow := by
  unfold parse_with_counter
  rw [parse_loop_succ _ _ _ _ (by simp),
    parse_iteration_placeholder pre body rest c hpre hhead hbody]
  cases split_argument body c with
  | error e => rfl
  | ok p =>
    obtain ⟨idx, spec⟩ := p
    simp only
    by_cases hc : c + 1 ≤ INT_MAX
    · simp only [if_pos hc]
      rw [parse_loop_acc _ _ _ _ (by simp only [List.length_append, List.length_cons]; omega)]
      unfold parse_with_counter
      cases parse_loop (rest.length + 1) rest [] (c + 1) <;> rfl
    · simp only [if_neg hc]

theorem with_counter_unclosed (pre r : string_view) (c : Nat)
    (hpre : brace_free pre) (hhead : r.head? ≠ some '{')
    (hr : ∀ x ∈ r, is_closing_bracket x = false) :
    parse_with_counter (pre ++ '{' :: r) c = .error (.format_error "unclosed bracket") := by
  unfold parse_with_counter
  rw [parse_loop_succ _ _ _ _ (by simp), parse_iteration_unclosed pre r c hpre hhead hr]

theorem arguments_append (a b : List print_action) :
    arguments (a ++ b) = arguments a ++ arguments b := by
  induction a with
  | nil => rfl
  | cons x a ih =>
    cases x with
    | print_text t => simpa [arguments] using ih
    | print_argument i c => simp [arguments, ih]

/-- A template that compiles, followed by more text: the loop pushes the actions
of the template, except that a trailing text `w` stays in `fmt` in front of
what follows. -/
theorem with_counter_append {p : string_view} {c : Nat} {ap : List print_action}
    (h : compiles p c ap) :
    ∃ (front : List print_action) (w : string_view), brace_free w ∧
      arguments front = arguments ap ∧
      ∀ s, parse_with_counter (p ++ s) c =
        (parse_with_counter (w ++ s) (c + (arguments ap).length)).map
          (fun actions => front ++ actions) := by
  induction h with
  | done c =>
    refine ⟨[], [], fun x hx => absurd hx (List.not_mem_nil _), rfl, fun s => ?_⟩
    simp only [arguments, List.length_nil, Nat.add_zero, List.nil_append]
    cases parse_with_counter s c <;> rfl
  | text fmt c hne hfree =>
    refine ⟨[], fmt, hfree, rfl, fun s => ?_⟩
    simp only [arguments, List.length_nil, Nat.add_zero, List.nil_append]
    cases parse_with_counter (fmt ++ s) c <;> rfl
  | escape pre rest b c actions hpre hb _ ih =>
    obtain ⟨front, w, hw, hargs, hs⟩ := ih
    refine ⟨.print_text (pre ++ [b]) :: front, w, hw, by simpa [arguments] using hargs,
      fun s => ?_⟩
    have e : pre ++ b :: b :: rest ++ s = pre ++ b :: b :: (rest ++ s) := by simp
    rw [e, with_counter_escape pre (rest ++ s) b c hpre hb, hs s]
    simp only [arguments]
    cases parse_with_counter (w ++ s) (c + (arguments actions).length) <;> rfl
  | placeholder pre body rest c idx spec actions hpre hhead hbody hsplit hc _ ih =>
    obtain ⟨front, w, hw, hargs, hs⟩ := ih
    refine ⟨.print_text pre :: .print_argument idx { m_specifier := spec } :: front, w, hw,
      by simpa [arguments] using hargs, fun s => ?_⟩
    have e : pre ++ '{' :: (body ++ '}' :: rest) ++ s = pre ++ '{' :: (body ++ '}' :: (rest ++ s)) := by
      simp
    rw [e, with_counter_placeholder pre body (rest ++ s) c hpre hhead hbody, hsplit]
    simp only [if_pos hc, hs s, arguments, List.length_cons]
    have e2 : c + 1 + (arguments actions).length = c + ((arguments actions).length + 1) := by
      omega
    rw [e2]
    cases parse_with_counter (w ++ s) (c + ((arguments actions).length + 1)) <;> rfl

end format_string

/-! ## Parser: index and specifier of a placeholder -/

namespace format_string

theorem foldl_value_le (N : string_view) : ∀ r : Nat,
    r ≤ N.foldl (fun r x => r * 10 + (x.toNat - '0'.toNat)) r := by
  induction N with
  | nil => intro r; exact le_refl _
  | cons x N ih =>
    intro r
    simp only [List.foldl_cons]
    exact le_trans (by omega) (ih _)

theorem parse_int_foldlM (N : string_view) (hN : ∀ x ∈ N, is_digit x) : ∀ r : Nat,
    N.foldl (fun r x => r * 10 + (x.toNat - '0'.toNat)) r ≤ INT_MAX →
    N.foldlM
      (fun acc c =>
        if '0'.toNat ≤ c.toNat ∧ c.toNat ≤ '9'.toNat then
          if acc * 10 + (c.toNat - '0'.toNat) ≤ INT_MAX then
            (.ok (acc * 10 + (c.toNat - '0'.toNat)) : result Nat)
          else .error .signed_overflow
        else .error .assertion_failed) r
      = .ok (N.foldl (fun r x => r * 10 + (x.toNat - '0'.toNat)) r) := by
  induction N with
  | nil => intro r _; rfl
  | cons x N ih =>
    intro r hle
    have hx : '0'.toNat ≤ x.toNat ∧ x.toNat ≤ '9'.toNat := hN x (List.mem_cons_self _ _)
    have hN1 : ∀ y ∈ N, is_digit y := fun y hy => hN y (List.mem_cons_of_mem _ hy)
    simp only [List.foldl_cons] at hle ⊢
    have hstep : r * 10 + (x.toNat - '0'.toNat) ≤ INT_MAX :=
      le_trans (foldl_value_le N _) hle
    rw [List.foldlM_cons, if_pos hx, if_pos hstep]
    exact ih hN1 _ hle

/-- On a string of digits whose value fits an `int`, `parse_int` returns the
value. -/
theorem parse_int_digits (N : string_view) (hN : ∀ x ∈ N, is_digit x)
    (hval : decimal_value N ≤ INT_MAX) : parse_int N = .ok (decimal_value N) :=
  parse_int_foldlM N hN 0 hval

theorem parse_int_foldlM_le (N : string_view) : ∀ r v : Nat, r ≤ INT_MAX →
    N.foldlM
      (fun acc c =>
        if '0'.toNat ≤ c.toNat ∧ c.toNat ≤ '9'.toNat then
          if acc * 10 + (c.toNat - '0'.toNat) ≤ INT_MAX then
            (.ok (acc * 10 + (c.toNat - '0'.toNat)) : result Nat)
          else .error .signed_overflow
        else .error .assertion_failed) r = .ok v → v ≤ INT_MAX := by
  induction N with
  | nil =>
    intro r v hr h
    cases h
    exact hr
  | cons x N ih =>
    intro r v hr h
    rw [List.foldlM_cons] at h
    split at h
    · split at h
      · rename_i hle
        exact ih _ v hle h
      · cases h
    · cases h

/-- A value returned by `parse_int` fits an `int`. -/
theorem parse_int_le (N : string_view) (v : Nat) (h : parse_int N = .ok v) : v ≤ INT_MAX :=
  parse_int_foldlM_le N 0 v (by decide) h

theorem is_digit_not_colon {x : Char} (h : is_digit x) : is_colon x = false := by
  unfold is_colon
  rw [beq_eq_false_iff_ne]
  rintro rfl
  exact absurd h.2 (by decide)

theorem is_digit_not_closing {x : Char} (h : is_digit x) : is_closing_bracket x = false := by
  unfold is_closing_bracket
  rw [beq_eq_false_iff_ne]
  rintro rfl
  exact absurd h.2 (by decide)

theorem is_digit_ne_opening {x : Char} (h : is_digit x) : x ≠ '{' := by
  rintro rfl
  exact absurd h.2 (by decide)

theorem split_argument_no_colon (N : string_view) (c : Nat)
    (hN : ∀ x ∈ N, is_colon x = false) :
    split_argument N c =
      match (if !N.isEmpty then parse_int N else .ok c) with
      | .error e => .error e
      | .ok index => .ok (index, []) := by
  have hfind : find_if N 0 is_colon = N.length := by
    rw [find_if_zero]
    exact List.findIdx_eq_length.2 hN
  unfold split_argument
  simp only [hfind, make_string_view_eq, List.take_length, List.drop_zero, ne_eq,
    not_true_eq_false, if_false, List.drop_length]

theorem split_argument_colon (N spec : string_view) (c : Nat)
    (hN : ∀ x ∈ N, is_colon x = false) :
    split_argument (N ++ ':' :: spec) c =
      match (if !N.isEmpty then parse_int N else .ok c) with
      | .error e => .error e
      | .ok index => .ok (index, spec) := by
  have hfind : find_if (N ++ ':' :: spec) 0 is_colon = N.length := by
    rw [find_if_zero, findIdx_append_free _ _ _ hN, List.findIdx_cons]
    rfl
  have hne : N.length ≠ (N ++ ':' :: spec).length := by
    simp only [List.length_append, List.length_cons]; omega
  have t1 : List.drop 0 (List.take N.length (N ++ ':' :: spec)) = N := by
    rw [List.drop_zero, List.take_left]
  have t2 : List.drop (N.length + 1) (List.take (N ++ ':' :: spec).length (N ++ ':' :: spec))
      = spec := by
    rw [List.take_length, List.drop_append]
    rfl
  unfold split_argument
  simp only [hfind, make_string_view_eq, ne_eq, hne, not_false_eq_true, if_true, t1, t2]

/-- Index and specifier of a placeholder body `N`, `N:spec` or `:spec`. -/
theorem split_argument_body (N : string_view) (spec : Option string_view) (c : Nat)
    (hN : ∀ x ∈ N, is_colon x = false) :
    split_argument (placeholder_body N spec) c =
      match (if !N.isEmpty then parse_int N else .ok c) with
      | .error e => .error e
      | .ok index => .ok (index, spec.getD []) := by
  cases spec with
  | none =>
    simp only [placeholder_body, List.append_nil, Option.getD_none]
    exact split_argument_no_colon N c hN
  | some sp =>
    simp only [placeholder_body, Option.getD_some]
    exact split_argument_colon N sp c hN

theorem placeholder_body_head (N : string_view) (spec : Option string_view)
    (hN : ∀ x ∈ N, is_digit x) : (placeholder_body N spec).head? ≠ some '{' := by
  cases N with
  | nil =>
    cases spec with
    | none => simp [placeholder_body]
    | some sp => simp [placeholder_body]
  | cons x N =>
    have := is_digit_ne_opening (hN x (List.mem_cons_self _ _))
    simpa [placeholder_body] using this

theorem placeholder_body_closing (N : string_view) (spec : Option string_view)
    (hN : ∀ x ∈ N, is_digit x) (hspec : ∀ sp ∈ spec, ∀ x ∈ sp, x ≠ '}') :
    ∀ x ∈ placeholder_body N spec, is_closing_bracket x = false := by
  intro x hx
  simp only [placeholder_body, List.mem_append] at hx
  rcases hx with hx | hx
  · exact is_digit_not_closing (hN x hx)
  · cases spec with
    | none => exact absurd hx (List.not_mem_nil _)
    | some sp =>
      simp only [List.mem_cons] at hx
      unfold is_closing_bracket
      rw [beq_eq_false_iff_ne]
      rcases hx with rfl | hx
      · decide
      · exact hspec sp rfl x hx

end format_string

/-! ## Rendering: format, print and println -/

theorem format_of_create {fmt : string_view} {actions : List print_action}
    (h : format_string.parse fmt = .ok actions) (arguments : List arg_ref) :
    format fmt arguments =
      match List.foldlM (format_string.visit arguments)
        ({ m_os := basic_buffer.create_default } : format_context) actions with
      | .error e => .error e
      | .ok format_ctx => .ok format_ctx.m_os.content := by
  simp only [format, format_string.create, h, format_string.format, format_string.format_to]

theorem print_to_of_create {fmt : string_view} {actions : List print_action}
    (h : format_string.parse fmt = .ok actions) (NewLine : Bool) (os : ostream)
    (arguments : List arg_ref) :
    print_to NewLine os fmt arguments = print_to_impl NewLine os { m_actions := actions } arguments := by
  simp only [print_to, format_string.create, h]

/-- C1: for a template that compiles and string arguments with every
placeholder index below the number of arguments, `format(template)(args)`
returns the concatenation, in action order, of the text of each text action and
of the argument at the index of each placeholder; the specifier plays no role. -/
theorem format_returns_concatenation (fmt : string_view) (actions : List print_action)
    (args : List string_view) (hc : format_string.parse fmt = .ok actions)
    (hidx : indices_below args.length actions) :
    format fmt (wrap_args args) = .ok (concat_actions args actions) := by
  rw [format_of_create hc]
  obtain ⟨ctx1, e1, _, k1⟩ := format_string.foldlM_visit_strings args actions
    { m_os := basic_buffer.create_default } basic_buffer.create_default_sound hidx
  rw [e1]
  simp only [k1, basic_buffer.create_default_content, List.nil_append]

/-- Witness of C1: `format("{} has {}.")("Alice", "a cat")` is `"Alice has a cat."`. -/
theorem format_returns_concatenation_witness :
    format_string.parse "\x7b\x7d has \x7b\x7d.".toList =
        .ok [.print_text [], .print_argument 0 { m_specifier := [] },
          .print_text " has ".toList, .print_argument 1 { m_specifier := [] },
          .print_text ".".toList] ∧
      format "\x7b\x7d has \x7b\x7d.".toList (wrap_args ["Alice".toList, "a cat".toList]) =
        .ok "Alice has a cat.".toList :=
  ⟨by decide,
   format_returns_concatenation "\x7b\x7d has \x7b\x7d.".toList
     [.print_text [], .print_argument 0 { m_specifier := [] },
      .print_text " has ".toList, .print_argument 1 { m_specifier := [] },
      .print_text ".".toList]
     ["Alice".toList, "a cat".toList] (by decide)
     (by
       intro i c hm
       simp only [List.mem_cons, print_action.print_argument.injEq, List.mem_singleton,
         reduceCtorEq, false_or, or_false, List.not_mem_nil] at hm
       rcases hm with ⟨rfl, _⟩ | ⟨rfl, _⟩ <;> decide)⟩

/-- C6: for a compiled template and `n` non-failing arguments, rendering fails
if and only if some placeholder has an index that is not below `n`; the failure
is `std::out_of_range`. -/
theorem format_fails_iff_index_out_of_range (fmt : string_view) (actions : List print_action)
    (arguments : List arg_ref) (hc : format_string.parse fmt = .ok actions)
    (hargs : ∀ a ∈ arguments, a.non_failing) :
    ((∃ e, format fmt arguments = .error e) ↔
        ∃ index context, print_action.print_argument index context ∈ actions ∧
          arguments.length ≤ index) ∧
      ((∃ e, format fmt arguments = .error e) → format fmt arguments = .error .out_of_range) := by
  rw [format_of_create hc]
  by_cases hidx : indices_below arguments.length actions
  · obtain ⟨ctx1, e1, _⟩ := format_string.foldlM_visit_ok arguments hargs actions
      { m_os := basic_buffer.create_default } basic_buffer.create_default_sound hidx
    rw [e1]
    have hno : ¬ ∃ e, (Except.ok ctx1.m_os.content : result string_view) = .error e := by
      rintro ⟨e, he⟩
      cases he
    refine ⟨⟨fun h => absurd h hno, ?_⟩, fun h => absurd h hno⟩
    rintro ⟨i, c, hm, hle⟩
    exact absurd (hidx i c hm) (Nat.not_lt.2 hle)
  · have e1 := format_string.foldlM_visit_out_of_range arguments hargs actions
      { m_os := basic_buffer.create_default } basic_buffer.create_default_sound hidx
    rw [e1]
    refine ⟨⟨fun _ => ?_, fun _ => ⟨_, rfl⟩⟩, fun _ => rfl⟩
    by_contra hno
    apply hidx
    intro i c hm
    by_contra hlt
    exact hno ⟨i, c, hm, Nat.le_of_not_lt hlt⟩


/-- Witness of C6: with two arguments, index 2 fails although index 0 is in
range and argument 1 is never referenced. -/
theorem format_fails_iff_index_out_of_range_witness :
    format_string.parse "\x7b0\x7d\x7b2\x7d".toList =
        .ok [.print_text [], .print_argument 0 { m_specifier := [] },
          .print_text [], .print_argument 2 { m_specifier := [] }] ∧
      format "\x7b0\x7d\x7b2\x7d".toList (wrap_args ["a".toList, "b".toList]) =
        .error .out_of_range :=
  have h := format_fails_iff_index_out_of_range "\x7b0\x7d\x7b2\x7d".toList
    [.print_text [], .print_argument 0 { m_specifier := [] },
      .print_text [], .print_argument 2 { m_specifier := [] }]
    (wrap_args ["a".toList, "b".toList]) (by decide)
    (by
      intro a ha
      simp only [wrap_args, List.map_cons, List.map_nil, List.mem_cons, List.mem_singleton,
        List.not_mem_nil, or_false] at ha
      rcases ha with rfl | rfl <;> exact arg_ref.of_string_non_failing _)
  ⟨by decide,
   h.2 (h.1.2 ⟨2, { m_specifier := [] }, by simp, by simp [wrap_args]⟩)⟩

/-- With an out-of-range placeholder the driver fails, whatever the printers of
the arguments do. -/
theorem format_string.foldlM_visit_fails (arguments : List arg_ref) :
    ∀ (actions : List print_action) (ctx : format_context),
      ¬ indices_below arguments.length actions →
      ∃ e, actions.foldlM (format_string.visit arguments) ctx = .error e := by
  intro actions
  induction actions with
  | nil =>
    intro ctx hbad
    exact absurd (fun i c hm => absurd hm (List.not_mem_nil _)) hbad
  | cons a rest ih =>
    intro ctx hbad
    rw [format_string.foldlM_visit_cons]
    cases hv : format_string.visit arguments ctx a with
    | error e => exact ⟨e, rfl⟩
    | ok ctx1 =>
      refine ih ctx1 (fun hrest => hbad ?_)
      intro i c hm
      rcases List.mem_cons.1 hm with heq | hm1
      · subst heq
        by_contra hlt
        have hget : arguments.get? i = none := List.get?_eq_none.2 (Nat.le_of_not_lt hlt)
        simp only [format_string.visit, hget, reduceCtorEq] at hv
      · exact hrest i c hm1

/-- C9: for a template that compiles and non-failing arguments with every
placeholder index in range, `print` appends to the stream exactly the characters
that `format` returns, `println` appends the same characters and one newline,
and the buffer has size 0 after the flush. -/
theorem print_appends_format_output (os : ostream) (fmt : string_view)
    (actions : List print_action) (arguments : List arg_ref)
    (hc : format_string.parse fmt = .ok actions)
    (hargs : ∀ a ∈ arguments, a.non_failing)
    (hidx : indices_below arguments.length actions) :
    ∃ bytes buf0 buf1, format fmt arguments = .ok bytes ∧
      print os fmt arguments = (os ++ bytes, .ok buf0) ∧ buf0.size = 0 ∧
      println os fmt arguments = (os ++ bytes ++ ['\n'], .ok buf1) ∧ buf1.size = 0 := by
  obtain ⟨ctx1, e1, s1⟩ := format_string.foldlM_visit_ok arguments hargs actions
    { m_os := basic_buffer.create_default } basic_buffer.create_default_sound hidx
  obtain ⟨ctx2, e2, _, k2⟩ := formatter_char_format_sound ctx1 '\n' s1
  refine ⟨ctx1.m_os.content, ctx1.m_os.reset, ctx2.m_os.reset, ?_, ?_, rfl, ?_, rfl⟩
  · rw [format_of_create hc, e1]
  · simp only [print, print_to_of_create hc, print_to_impl, format_string.format_to, e1,
      format_context.flush, Bool.false_eq_true, if_false]
  · simp only [println, print_to_of_create hc, print_to_impl, format_string.format_to, e1,
      format_context.flush, if_true, e2, k2, List.append_assoc]

/-- Witness of C9: `println(ss, "{} has {}.")("Alice", "a cat")` leaves
`"Alice has a cat.\n"` in the stream. -/
theorem print_appends_format_output_witness :
    format "\x7b\x7d has \x7b\x7d.".toList (wrap_args ["Alice".toList, "a cat".toList]) =
        .ok "Alice has a cat.".toList ∧
      (println [] "\x7b\x7d has \x7b\x7d.".toList
        (wrap_args ["Alice".toList, "a cat".toList])).1 = "Alice has a cat.\n".toList :=
  have h := print_appends_format_output [] "\x7b\x7d has \x7b\x7d.".toList
    [.print_text [], .print_argument 0 { m_specifier := [] },
      .print_text " has ".toList, .print_argument 1 { m_specifier := [] },
      .print_text ".".toList]
    (wrap_args ["Alice".toList, "a cat".toList]) (by decide)
    (by
      intro a ha
      simp only [wrap_args, List.map_cons, List.map_nil, List.mem_cons, List.mem_singleton,
        List.not_mem_nil, or_false] at ha
      rcases ha with rfl | rfl <;> exact arg_ref.of_string_non_failing _)
    (by
      intro i c hm
      simp only [List.mem_cons, print_action.print_argument.injEq, List.mem_singleton,
        reduceCtorEq, false_or, or_false, List.not_mem_nil] at hm
      rcases hm with ⟨rfl, _⟩ | ⟨rfl, _⟩ <;> decide)
  ⟨by decide,
   by
    obtain ⟨bytes, buf0, buf1, hf, _, _, hp, _⟩ := h
    have hb : bytes = "Alice has a cat.".toList := by
      have hd : format "\x7b\x7d has \x7b\x7d.".toList
          (wrap_args ["Alice".toList, "a cat".toList]) = .ok "Alice has a cat.".toList := by
        decide
      rw [hd] at hf
      cases hf
      rfl
    rw [hp, hb]
    rfl⟩

/-- C10: when some placeholder index is out of range, `print` and `println`
fail and leave the stream exactly as it was before the call. -/
theorem print_failure_leaves_stream (os : ostream) (fmt : string_view)
    (actions : List print_action) (arguments : List arg_ref)
    (hc : format_string.parse fmt = .ok actions)
    (hbad : ¬ indices_below arguments.length actions) :
    (∃ e, print os fmt arguments = (os, .error e)) ∧
      (∃ e, println os fmt arguments = (os, .error e)) := by
  obtain ⟨e, he⟩ := format_string.foldlM_visit_fails arguments actions
    { m_os := basic_buffer.create_default } hbad
  constructor
  · exact ⟨e, by simp only [print, print_to_of_create hc, print_to_impl,
      format_string.format_to, he]⟩
  · exact ⟨e, by simp only [println, print_to_of_create hc, print_to_impl,
      format_string.format_to, he]⟩

/-- Witness of C10: text and an in-range placeholder precede the failing
placeholder, and the stream still holds only what it held before. -/
theorem print_failure_leaves_stream_witness :
    format_string.parse "x\x7b0\x7dy\x7b2\x7d".toList =
        .ok [.print_text "x".toList, .print_argument 0 { m_specifier := [] },
          .print_text "y".toList, .print_argument 2 { m_specifier := [] }] ∧
      (print "old".toList "x\x7b0\x7dy\x7b2\x7d".toList
        (wrap_args ["a".toList, "b".toList])).1 = "old".toList ∧
      (println "old".toList "x\x7b0\x7dy\x7b2\x7d".toList
        (wrap_args ["a".toList, "b".toList])).1 = "old".toList :=
  have h := print_failure_leaves_stream "old".toList "x\x7b0\x7dy\x7b2\x7d".toList
    [.print_text "x".toList, .print_argument 0 { m_specifier := [] },
      .print_text "y".toList, .print_argument 2 { m_specifier := [] }]
    (wrap_args ["a".toList, "b".toList]) (by decide)
    (fun hall => absurd (hall 2 { m_specifier := [] } (by simp)) (by simp [wrap_args]))
  ⟨by decide,
   by obtain ⟨e, he⟩ := h.1; rw [he],
   by obtain ⟨e, he⟩ := h.2; rw [he]⟩


/-! ## Parser: placeholders in a template -/

theorem format_string.closing_free_iff (s : string_view) :
    (∀ x ∈ s, format_string.is_closing_bracket x = false) ↔ ∀ x ∈ s, x ≠ '}' := by
  simp [format_string.is_closing_bracket]

/-- What `parse` returns on a template `p` that compiles followed by a closed
placeholder and a remainder. -/
theorem format_string.parse_after {p : string_view} {ap : List print_action}
    (hp : format_string.parse p = .ok ap) (body r : string_view)
    (hhead : body.head? ≠ some '{')
    (hbody : ∀ x ∈ body, format_string.is_closing_bracket x = false) :
    ∃ (front : List print_action) (w : string_view),
      arguments front = arguments ap ∧
      format_string.parse (p ++ '{' :: (body ++ '}' :: r)) =
        match format_string.split_argument body (arguments ap).length with
        | .error e => .error e
        | .ok (actual_index, fmt_specifer) =>
          if (arguments ap).length + 1 ≤ INT_MAX then
            (format_string.parse_with_counter r ((arguments ap).length + 1)).map
              (fun actions => front ++ .print_text w ::
                .print_argument actual_index { m_specifier := fmt_specifer } :: actions)
          else .error .signed_overflow := by
  obtain ⟨front, w, hw, hargs, hs⟩ :=
    format_string.with_counter_append ((format_string.parse_eq_ok_iff p ap).1 hp)
  refine ⟨front, w, hargs, ?_⟩
  rw [format_string.parse_eq_with_counter, hs, Nat.zero_add,
    format_string.with_counter_placeholder w body r _ hw hhead hbody]
  cases format_string.split_argument body (arguments ap).length with
  | error e => rfl
  | ok q =>
    obtain ⟨idx, spec⟩ := q
    simp only
    by_cases hc : (arguments ap).length + 1 ≤ INT_MAX
    · simp only [if_pos hc]
      cases format_string.parse_with_counter r ((arguments ap).length + 1) <;> rfl
    · simp only [if_neg hc]
      rfl

/-- With a terminating NUL behind the view: a template that compiles, followed
by `{` and a remainder that does not start with `{` and contains no `}`, makes
`parse` throw `format_error("unclosed bracket")`; no action sequence is
returned.  `unclosed_bracket_stored` is the statement for any character behind
the view. -/
theorem unclosed_bracket_is_format_error (p r : string_view) (ap : List print_action)
    (hp : format_string.parse p = .ok ap) (hhead : r.head? ≠ some '{')
    (hr : ∀ x ∈ r, x ≠ '}') :
    format_string.parse (p ++ '{' :: r) = .error (.format_error "unclosed bracket") ∧
      (∀ actions, format_string.parse (p ++ '{' :: r) ≠ .ok actions) ∧
      format_string.create (p ++ '{' :: r) = .error (.format_error "unclosed bracket") := by
  obtain ⟨front, w, hw, _, hs⟩ :=
    format_string.with_counter_append ((format_string.parse_eq_ok_iff p ap).1 hp)
  have h : format_string.parse (p ++ '{' :: r) = .error (.format_error "unclosed bracket") := by
    rw [format_string.parse_eq_with_counter, hs,
      format_string.with_counter_unclosed w r _ hw hhead
        ((format_string.closing_free_iff r).2 hr)]
    rfl
  refine ⟨h, ?_, ?_⟩
  · intro actions hok
    rw [h] at hok
    cases hok
  · simp only [format_string.create, h]

/-- The template `"{} has {cat"` has a complete placeholder and then an opening
bracket that is never closed. -/
theorem unclosed_bracket_is_format_error_witness :
    format_string.parse "\x7b\x7d has ".toList =
        .ok [.print_text [], .print_argument 0 { m_specifier := [] },
          .print_text " has ".toList] ∧
      format_string.parse ("\x7b\x7d has ".toList ++ '{' :: "cat".toList) =
        .error (.format_error "unclosed bracket") :=
  ⟨by decide,
   (unclosed_bracket_is_format_error "\x7b\x7d has ".toList "cat".toList
     [.print_text [], .print_argument 0 { m_specifier := [] }, .print_text " has ".toList]
     (by decide) (by decide) (by decide)).1⟩


/-- C3 as the code has it: a placeholder with body `N`, `N:spec` or `:spec`,
where `N` consists of decimal digits with a value of at most `INT_MAX`, `spec`
contains no `}`, the template `p` in front compiles with fewer than `INT_MAX`
placeholders and the remainder compiles, yields a placeholder whose index is
the base-10 value of `N` (the number of placeholders in front when `N` is
empty) and whose specifier is `spec` (empty without a `:spec` part). -/
theorem explicit_index_and_specifier (p N r : string_view) (spec : Option string_view)
    (ap ar : List print_action)
    (hp : format_string.parse p = .ok ap)
    (hN : ∀ x ∈ N, is_digit x) (hval : decimal_value N ≤ INT_MAX)
    (hspec : ∀ sp ∈ spec, ∀ x ∈ sp, x ≠ '}')
    (hk : (arguments ap).length < INT_MAX)
    (hr : format_string.parse_with_counter r ((arguments ap).length + 1) = .ok ar) :
    ∃ actions,
      format_string.parse (p ++ '{' :: (placeholder_body N spec ++ '}' :: r)) = .ok actions ∧
      arguments actions =
        arguments ap ++
          ((if N = [] then (arguments ap).length else decimal_value N), spec.getD []) ::
            arguments ar := by
  obtain ⟨front, w, hargs, hs⟩ := format_string.parse_after hp (placeholder_body N spec) r
    (format_string.placeholder_body_head N spec hN)
    (format_string.placeholder_body_closing N spec hN hspec)
  have hsplit : format_string.split_argument (placeholder_body N spec) (arguments ap).length =
      .ok ((if N = [] then (arguments ap).length else decimal_value N), spec.getD []) := by
    rw [format_string.split_argument_body N spec _
      (fun x hx => format_string.is_digit_not_colon (hN x hx))]
    by_cases hne : N = []
    · subst hne
      simp
    · have he : N.isEmpty = false := by
        cases N with
        | nil => exact absurd rfl hne
        | cons a l => rfl
      simp only [he, Bool.not_false, if_true, format_string.parse_int_digits N hN hval, if_neg hne]
  rw [hsplit] at hs
  simp only [if_pos (Nat.succ_le_of_lt hk), hr, Except.map] at hs
  refine ⟨_, hs, ?_⟩
  rw [format_string.arguments_append, hargs]
  simp only [arguments, parse_context.specifier]

/-- Witness of C3: in `"{1:abc} has {0:def}."` the second placeholder keeps
index 0 and specifier `def`. -/
theorem explicit_index_and_specifier_witness :
    format_string.parse "\x7b1:abc\x7d has ".toList =
        .ok [.print_text [], .print_argument 1 { m_specifier := "abc".toList },
          .print_text " has ".toList] ∧
      format_string.parse_with_counter ".".toList 2 = .ok [.print_text ".".toList] ∧
      arguments [.print_text [], .print_argument 1 { m_specifier := "abc".toList },
          .print_text " has ".toList, .print_argument 0 { m_specifier := "def".toList },
          .print_text ".".toList] =
        [(1, "abc".toList), (0, "def".toList)] :=
  ⟨by decide, by decide,
   by
    obtain ⟨actions, h1, h2⟩ := explicit_index_and_specifier "\x7b1:abc\x7d has ".toList
      "0".toList ".".toList (some "def".toList)
      [.print_text [], .print_argument 1 { m_specifier := "abc".toList },
        .print_text " has ".toList]
      [.print_text ".".toList] (by decide) (by decide) (by decide) (by decide) (by decide)
      (by decide)
    have hd : format_string.parse ("\x7b1:abc\x7d has ".toList ++
        '{' :: (placeholder_body "0".toList (some "def".toList) ++ '}' :: ".".toList)) =
        .ok [.print_text [], .print_argument 1 { m_specifier := "abc".toList },
          .print_text " has ".toList, .print_argument 0 { m_specifier := "def".toList },
          .print_text ".".toList] := by decide
    rw [hd] at h1
    cases h1
    rw [h2]
    decide⟩

/-- Counterexample to C3 as stated: the index text `2147483648` consists of
decimal digits, but its value does not fit an `int`; the accumulation in
`parse_int` overflows and no placeholder with that index is produced. -/
theorem explicit_index_overflow :
    decimal_value "2147483648".toList = 2147483648 ∧
      format_string.parse "\x7b2147483648\x7d".toList = .error .signed_overflow ∧
      format_string.parse "\x7b2147483648\x7d".toList ≠
        .ok [.print_text [], .print_argument 2147483648 { m_specifier := [] }] :=
  ⟨by decide, by decide, by decide⟩


/-! ## Escaped brackets -/

theorem escape_brackets_brace_free (xs : List Char) (h : brace_free xs) :
    escape_brackets xs = xs := by
  induction xs with
  | nil => rfl
  | cons x xs ih =>
    have hx : format_string.is_bracket x = false := h x (List.mem_cons_self _ _)
    simp only [escape_brackets, hx, Bool.false_eq_true, if_false]
    rw [ih (fun y hy => h y (List.mem_cons_of_mem _ hy))]

theorem escape_brackets_split (pre rest : List Char) (b : Char) (hpre : brace_free pre)
    (hb : format_string.is_bracket b = true) :
    escape_brackets (pre ++ b :: rest) = pre ++ b :: b :: escape_brackets rest := by
  induction pre with
  | nil => simp only [List.nil_append, escape_brackets, hb, if_true]
  | cons x pre ih =>
    have hx : format_string.is_bracket x = false := hpre x (List.mem_cons_self _ _)
    have e := ih (fun y hy => hpre y (List.mem_cons_of_mem _ hy))
    show escape_brackets (x :: (pre ++ b :: rest)) = x :: (pre ++ b :: b :: escape_brackets rest)
    simp only [escape_brackets, hx, Bool.false_eq_true, if_false, e]

/-- The escaped form of any text compiles to text actions only, whose
concatenation is the text. -/
theorem escape_brackets_compiles :
    ∀ (n : Nat) (xs : List Char) (c : Nat), xs.length ≤ n →
      ∃ actions, format_string.compiles (escape_brackets xs) c actions ∧
        arguments actions = [] ∧ concat_actions [] actions = xs := by
  intro n
  induction n with
  | zero =>
    intro xs c hn
    have : xs = [] := List.length_eq_zero.1 (Nat.le_zero.1 hn)
    subst this
    exact ⟨[], format_string.compiles.done c, rfl, rfl⟩
  | succ n ih =>
    intro xs c hn
    rcases format_string.exists_split format_string.is_bracket xs with
      hfree | ⟨pre, b, rest, rfl, hpre, hb⟩
    · rw [escape_brackets_brace_free xs hfree]
      by_cases hne : xs = []
      · subst hne
        exact ⟨[], format_string.compiles.done c, rfl, rfl⟩
      · exact ⟨_, format_string.compiles.text xs c hne hfree, rfl, by simp [concat_actions]⟩
    · simp only [List.length_append, List.length_cons] at hn
      obtain ⟨actions, h1, h2, h3⟩ := ih rest c (by omega)
      rw [escape_brackets_split pre rest b hpre hb]
      refine ⟨_, format_string.compiles.escape pre (escape_brackets rest) b c actions hpre hb h1,
        ?_, ?_⟩
      · simpa [arguments] using h2
      · simp [concat_actions, h3]

/-- Without placeholders the driver appends the texts, whatever the arguments
are. -/
theorem format_string.foldlM_visit_texts (args : List arg_ref) :
    ∀ (actions : List print_action) (ctx : format_context), ctx.m_os.sound →
      arguments actions = [] →
      ∃ ctx1, actions.foldlM (format_string.visit args) ctx = .ok ctx1 ∧ ctx1.m_os.sound ∧
        ctx1.m_os.content = ctx.m_os.content ++ concat_actions [] actions := by
  intro actions
  induction actions with
  | nil => intro ctx h _; exact ⟨ctx, rfl, h, by simp [concat_actions]⟩
  | cons a rest ih =>
    intro ctx h hno
    rw [format_string.foldlM_visit_cons]
    cases a with
    | print_text text =>
      obtain ⟨c1, e1, s1, k1⟩ := formatter_string_view_format_sound ctx text h
      simp only [format_string.visit, e1]
      obtain ⟨c2, e2, s2, k2⟩ := ih c1 s1 (by simpa [arguments] using hno)
      exact ⟨c2, e2, s2, by rw [k2, k1, concat_actions, List.append_assoc]⟩
    | print_argument index context =>
      simp [arguments] at hno

/-- C4: a template made of characters other than brackets and of the escapes
`{{` and `}}` compiles, and `format` returns, for any argument list, the
template with every `{{` replaced by `{` and every `}}` by `}`. -/
theorem escapes_render_as_single_brackets (xs : List Char) (args : List arg_ref) :
    (∃ actions, format_string.parse (escape_brackets xs) = .ok actions ∧
        arguments actions = []) ∧
      format (escape_brackets xs) args = .ok xs := by
  obtain ⟨actions, h1, h2, h3⟩ := escape_brackets_compiles xs.length xs 0 (le_refl _)
  have hp := (format_string.parse_eq_ok_iff _ _).2 h1
  refine ⟨⟨actions, hp, h2⟩, ?_⟩
  rw [format_of_create hp]
  obtain ⟨ctx1, e1, _, k1⟩ := format_string.foldlM_visit_texts args actions
    { m_os := basic_buffer.create_default } basic_buffer.create_default_sound h2
  rw [e1]
  simp only [k1, basic_buffer.create_default_content, List.nil_append, h3]

/-- The template `"a{{b}}c"` is the escaped form of `"a{b}c"`. -/
theorem escape_brackets_example :
    escape_brackets "a\x7bb\x7dc".toList = "a\x7b\x7bb\x7d\x7dc".toList := by
  decide


/-! ## Decimal numerals -/

theorem digitChar_is_digit (k : Nat) (hk : k < 10) :
    is_digit (Nat.digitChar k) ∧ (Nat.digitChar k).toNat - '0'.toNat = k := by
  interval_cases k <;> decide

theorem digitChar_of_is_digit (x : Char) (h : is_digit x) :
    Nat.digitChar (x.toNat - '0'.toNat) = x ∧ x.toNat - '0'.toNat < 10 := by
  have hx : x = Char.ofNat x.toNat := (Char.ofNat_toNat x).symm
  obtain ⟨h1, h2⟩ := h
  have h1b : 48 ≤ x.toNat := h1
  have h2b : x.toNat ≤ 57 := h2
  rw [hx]
  generalize x.toNat = n at h1b h2b
  interval_cases n <;> decide

theorem toDigitsCore_eq : ∀ (fuel n : Nat) (ds : List Char), n < fuel →
    Nat.toDigitsCore 10 fuel n ds = Nat.toDigits 10 n ++ ds := by
  intro fuel
  induction fuel using Nat.strong_induction_on with
  | _ fuel ih =>
    intro n ds hn
    obtain ⟨f, rfl⟩ : ∃ k, fuel = k + 1 := ⟨fuel - 1, by omega⟩
    unfold Nat.toDigits
    simp only [Nat.toDigitsCore]
    by_cases h0 : n / 10 = 0
    · simp only [h0, if_true, List.singleton_append]
    · simp only [h0, if_false]
      have hlt : n / 10 < n := Nat.div_lt_self (by omega) (by decide)
      rw [ih f (Nat.lt_succ_self _) (n / 10) _ (by omega),
        ih n (by omega) (n / 10) _ hlt]
      simp

theorem toDigits_small (n : Nat) (h : n < 10) : Nat.toDigits 10 n = [Nat.digitChar n] := by
  unfold Nat.toDigits
  simp only [Nat.toDigitsCore]
  have h0 : n / 10 = 0 := Nat.div_eq_of_lt h
  simp only [h0, if_true, Nat.mod_eq_of_lt h]

theorem toDigits_large (n : Nat) (h : 10 ≤ n) :
    Nat.toDigits 10 n = Nat.toDigits 10 (n / 10) ++ [Nat.digitChar (n % 10)] := by
  have h0 : ¬ n / 10 = 0 := by
    intro h0
    have := (Nat.div_eq_zero_iff (by decide : 0 < 10)).1 h0
    omega
  have hlt : n / 10 < n := Nat.div_lt_self (by omega) (by decide)
  conv_lhs => unfold Nat.toDigits
  simp only [Nat.toDigitsCore, h0, if_false]
  exact toDigitsCore_eq n (n / 10) _ hlt

theorem decimal_value_snoc (M : string_view) (d : Char) :
    decimal_value (M ++ [d]) = decimal_value M * 10 + (d.toNat - '0'.toNat) := by
  simp only [decimal_value, List.foldl_append, List.foldl_cons, List.foldl_nil]

/-- The decimal numeral of `n` consists of digits and has the value `n`. -/
theorem toDigits_spec (n : Nat) :
    (∀ x ∈ Nat.toDigits 10 n, is_digit x) ∧ decimal_value (Nat.toDigits 10 n) = n ∧
      Nat.toDigits 10 n ≠ [] := by
  induction n using Nat.strong_induction_on with
  | _ n ih =>
    by_cases h : n < 10
    · rw [toDigits_small n h]
      obtain ⟨h1, h2⟩ := digitChar_is_digit n h
      refine ⟨?_, ?_, by simp⟩
      · intro x hx
        rw [List.mem_singleton.1 hx]
        exact h1
      · simpa [decimal_value] using h2
    · have hge : 10 ≤ n := Nat.le_of_not_lt h
      rw [toDigits_large n hge]
      obtain ⟨i1, i2, _⟩ := ih (n / 10) (Nat.div_lt_self (by omega) (by decide))
      obtain ⟨h1, h2⟩ := digitChar_is_digit (n % 10) (Nat.mod_lt _ (by decide))
      refine ⟨?_, ?_, by simp⟩
      · intro x hx
        rcases List.mem_append.1 hx with hx | hx
        · exact i1 x hx
        · rw [List.mem_singleton.1 hx]
          exact h1
      · rw [decimal_value_snoc, i2, h2]
        exact Nat.div_add_mod' n 10

/-- A decimal number without leading zeros is the decimal numeral of its
value. -/
theorem toDigits_decimal_value (N : string_view) (h : canonical_decimal N) :
    Nat.toDigits 10 (decimal_value N) = N := by
  induction N using List.reverseRecOn with
  | nil => exact absurd rfl h.1
  | append_singleton M d ih =>
    obtain ⟨_, hdig, hlead⟩ := h
    have hd : is_digit d := hdig d (by simp)
    obtain ⟨e1, e2⟩ := digitChar_of_is_digit d hd
    rw [decimal_value_snoc]
    by_cases hM : M = []
    · subst hM
      have : decimal_value [] = 0 := rfl
      rw [this, Nat.zero_mul, Nat.zero_add, toDigits_small _ e2, e1]
      rfl
    · have hMhead : M.head? ≠ some '0' := by
        rcases hlead with hl | hl
        · exfalso
          have hlen := congrArg List.length hl
          simp only [List.length_append, List.length_cons, List.length_nil] at hlen
          have : M.length = 0 := by omega
          exact hM (List.length_eq_zero.1 this)
        · cases M with
          | nil => exact absurd rfl hM
          | cons a l => simpa using hl
      have hMc : canonical_decimal M :=
        ⟨hM, fun x hx => hdig x (List.mem_append_left _ hx), Or.inr hMhead⟩
      have ihM := ih hMc
      have hpos : decimal_value M ≠ 0 := by
        intro h0
        rw [h0] at ihM
        rw [← ihM] at hMhead
        exact hMhead (by decide)
      have hge : 10 ≤ decimal_value M * 10 + (d.toNat - '0'.toNat) := by omega
      rw [toDigits_large _ hge]
      have hdiv : (decimal_value M * 10 + (d.toNat - '0'.toNat)) / 10 = decimal_value M := by
        omega
      have hmod : (decimal_value M * 10 + (d.toNat - '0'.toNat)) % 10 = d.toNat - '0'.toNat := by
        omega
      rw [hdiv, hmod, ihM, e1]


/-! ## Re-serialization -/

namespace format_string

theorem write_eq_append (actions : List print_action) : ∀ os : ostream,
    write os { m_actions := actions } = os ++ str { m_actions := actions } := by
  induction actions with
  | nil => intro os; simp [write, str]
  | cons a rest ih =>
    intro os
    have h1 : write os { m_actions := a :: rest } =
        write (os ++ write_action a) { m_actions := rest } := rfl
    have h2 : str { m_actions := a :: rest } =
        write ([] ++ write_action a) { m_actions := rest } := rfl
    rw [h1, h2, ih, ih]
    simp

theorem str_nil : str { m_actions := [] } = [] := rfl

theorem str_cons (a : print_action) (rest : List print_action) :
    str { m_actions := a :: rest } = write_action a ++ str { m_actions := rest } := by
  have h2 : str { m_actions := a :: rest } =
      write ([] ++ write_action a) { m_actions := rest } := rfl
  rw [h2, write_eq_append]
  simp

theorem write_action_argument (index : Nat) (spec : string_view) :
    write_action (.print_argument index { m_specifier := spec }) =
      '{' :: (placeholder_body (Nat.toDigits 10 index) (written_specifier spec) ++ ['}']) := by
  unfold write_action written_specifier placeholder_body ostream_int
  cases spec with
  | nil => simp [parse_context.specifier]
  | cons a l => simp [parse_context.specifier]

theorem written_specifier_getD (spec : string_view) : (written_specifier spec).getD [] = spec := by
  unfold written_specifier
  split
  · rename_i h
    rw [h]
    rfl
  · rfl

theorem written_specifier_mem (spec sp : string_view) (h : sp ∈ written_specifier spec) :
    sp = spec := by
  unfold written_specifier at h
  split at h
  · cases h
  · simpa using h.symm

/-- The body that `operator<<` writes for a placeholder is split back into the
index and the specifier. -/
theorem split_argument_written (index : Nat) (spec : string_view) (c : Nat)
    (h : index ≤ INT_MAX) :
    split_argument (placeholder_body (Nat.toDigits 10 index) (written_specifier spec)) c =
      .ok (index, spec) := by
  obtain ⟨h1, h2, h3⟩ := toDigits_spec index
  rw [split_argument_body _ _ _ (fun x hx => is_digit_not_colon (h1 x hx))]
  have he : (Nat.toDigits 10 index).isEmpty = false := by
    cases hd : Nat.toDigits 10 index with
    | nil => exact absurd hd h3
    | cons a l => rfl
  simp only [he, Bool.not_false, if_true, parse_int_digits _ h1 (by rw [h2]; exact h), h2,
    written_specifier_getD]

/-- The index returned by the split fits an `int` and the specifier is part of
the body. -/
theorem split_argument_result (body : string_view) (c index : Nat) (spec : string_view)
    (h : split_argument body c = .ok (index, spec)) (hc : c ≤ INT_MAX) :
    index ≤ INT_MAX ∧ ∀ x ∈ spec, x ∈ body := by
  unfold split_argument at h
  simp only [make_string_view_eq, List.take_length] at h
  split at h
  · cases h
  · rename_i idx hidx
    cases h
    constructor
    · split at hidx
      · exact parse_int_le _ _ hidx
      · cases hidx
        exact hc
    · intro x hx
      exact List.mem_of_mem_drop hx

/-- A template that compiles without escaped brackets is written back as a
template that compiles to the same actions. -/
theorem compiles_str {t : string_view} {c : Nat} {actions : List print_action}
    (h : compiles t c actions) :
    (∀ s, print_action.print_text s ∈ actions → brace_free s) →
      compiles (str { m_actions := actions }) c actions := by
  induction h with
  | done c => intro _; exact compiles.done c
  | text fmt c hne hfree =>
    intro _
    rw [str_cons, str_nil, List.append_nil]
    exact compiles.text fmt c hne hfree
  | escape pre rest b c actions hpre hb _ _ =>
    intro htext
    have := htext (pre ++ [b]) (List.mem_cons_self _ _) b (by simp)
    rw [hb] at this
    cases this
  | placeholder pre body rest c idx spec actions hpre hhead hbody hsplit hc _ ih =>
    intro htext
    have ih1 := ih (fun s hs => htext s (List.mem_cons_of_mem _ (List.mem_cons_of_mem _ hs)))
    obtain ⟨hidx, hsub⟩ := split_argument_result body c idx spec hsplit (by omega)
    obtain ⟨d1, _, _⟩ := toDigits_spec idx
    have e : str { m_actions := .print_text pre ::
          .print_argument idx { m_specifier := spec } :: actions } =
        pre ++ '{' :: (placeholder_body (Nat.toDigits 10 idx) (written_specifier spec) ++
          '}' :: str { m_actions := actions }) := by
      rw [str_cons, str_cons, write_action_argument]
      simp [write_action]
    rw [e]
    refine compiles.placeholder pre _ _ c idx spec actions hpre
      (placeholder_body_head _ _ d1) (placeholder_body_closing _ _ d1 ?_)
      (split_argument_written idx spec c hidx) hc ih1
    intro sp hsp x hx
    rw [written_specifier_mem spec sp hsp] at hx
    have := hbody x (hsub x hx)
    simpa [is_closing_bracket] using this

end format_string

/-- C7 as the code has it: for a template that compiles and whose text actions
contain no bracket (no `{{` or `}}` in the template), the text written by
`operator<<` compiles, to the same action sequence, so that rendering it and
rendering the template agree for every argument list. -/
theorem reserialized_template_compiles (t : string_view) (actions : List print_action)
    (hc : format_string.parse t = .ok actions)
    (htext : ∀ s, print_action.print_text s ∈ actions → brace_free s) :
    format_string.parse (format_string.str { m_actions := actions }) = .ok actions ∧
      ∀ args : List arg_ref,
        format (format_string.str { m_actions := actions }) args = format t args := by
  have h := (format_string.parse_eq_ok_iff _ _).2
    (format_string.compiles_str ((format_string.parse_eq_ok_iff _ _).1 hc) htext)
  refine ⟨h, fun args => ?_⟩
  rw [format_of_create h, format_of_create hc]

/-- Witness of C7: `"{} has {:x}."` is written back as `"{0} has {1:x}."`, which
compiles to the same actions. -/
theorem reserialized_template_compiles_witness :
    format_string.parse "\x7b\x7d has \x7b:x\x7d.".toList =
        .ok [.print_text [], .print_argument 0 { m_specifier := [] },
          .print_text " has ".toList, .print_argument 1 { m_specifier := "x".toList },
          .print_text ".".toList] ∧
      format_string.str { m_actions := [.print_text [], .print_argument 0 { m_specifier := [] },
          .print_text " has ".toList, .print_argument 1 { m_specifier := "x".toList },
          .print_text ".".toList] } = "\x7b0\x7d has \x7b1:x\x7d.".toList ∧
      format_string.parse (format_string.str { m_actions :=
          [.print_text [], .print_argument 0 { m_specifier := [] },
          .print_text " has ".toList, .print_argument 1 { m_specifier := "x".toList },
          .print_text ".".toList] }) =
        .ok [.print_text [], .print_argument 0 { m_specifier := [] },
          .print_text " has ".toList, .print_argument 1 { m_specifier := "x".toList },
          .print_text ".".toList] :=
  ⟨by decide, by decide,
   (reserialized_template_compiles "\x7b\x7d has \x7b:x\x7d.".toList
     [.print_text [], .print_argument 0 { m_specifier := [] },
      .print_text " has ".toList, .print_argument 1 { m_specifier := "x".toList },
      .print_text ".".toList] (by decide)
     (by
       intro s hs
       simp only [List.mem_cons, print_action.print_text.injEq, reduceCtorEq, false_or,
         List.mem_singleton, List.not_mem_nil, or_false] at hs
       rcases hs with rfl | rfl | rfl <;> decide)).1⟩

/-- Counterexample to C7 as stated: `"a{{b"` compiles, `operator<<` writes it
back as `"a{b"`, and that text does not compile. -/
theorem reserialized_escape_does_not_compile :
    format_string.parse "a\x7b\x7bb".toList =
        .ok [.print_text "a\x7b".toList, .print_text "b".toList] ∧
      format_string.str { m_actions := [.print_text "a\x7b".toList, .print_text "b".toList] } =
        "a\x7bb".toList ∧
      format_string.parse "a\x7bb".toList = .error (.format_error "unclosed bracket") :=
  ⟨by decide, by decide, by decide⟩


/-- A canonical template compiles, from any counter value that leaves room for
its placeholders, to actions that `operator<<` writes back unchanged. -/
theorem format_string.canonical_template_compiles (tail : string_view) (htail : brace_free tail) :
    ∀ (segs : List (string_view × string_view × string_view)) (c : Nat),
      (∀ seg ∈ segs, canonical_segment seg) → c + segs.length ≤ INT_MAX →
      ∃ actions, format_string.compiles (canonical_template segs tail) c actions ∧
        format_string.str { m_actions := actions } = canonical_template segs tail := by
  intro segs
  induction segs with
  | nil =>
    intro c _ _
    by_cases hne : tail = []
    · subst hne
      exact ⟨[], format_string.compiles.done c, rfl⟩
    · refine ⟨_, format_string.compiles.text tail c hne htail, ?_⟩
      rw [format_string.str_cons, format_string.str_nil, List.append_nil]
      rfl
  | cons seg rest ih =>
    intro c hsegs hlen
    obtain ⟨lit, N, spec⟩ := seg
    obtain ⟨hlit, hN, hval, hspec⟩ := hsegs (lit, N, spec) (List.mem_cons_self _ _)
    simp only at hlit hN hval hspec
    simp only [List.length_cons] at hlen
    obtain ⟨actions, h1, h2⟩ :=
      ih (c + 1) (fun s hs => hsegs s (List.mem_cons_of_mem _ hs)) (by omega)
    obtain ⟨hne, hdig, _⟩ := hN
    have hempty : N.isEmpty = false := by
      cases N with
      | nil => exact absurd rfl hne
      | cons a l => rfl
    have hsplit : format_string.split_argument (placeholder_body N (written_specifier spec)) c =
        .ok (decimal_value N, spec) := by
      rw [format_string.split_argument_body _ _ _
        (fun x hx => format_string.is_digit_not_colon (hdig x hx))]
      simp only [hempty, Bool.not_false, if_true, format_string.parse_int_digits N hdig hval,
        format_string.written_specifier_getD]
    refine ⟨.print_text lit :: .print_argument (decimal_value N) { m_specifier := spec } :: actions,
      ?_, ?_⟩
    · refine format_string.compiles.placeholder lit _ _ c (decimal_value N) spec actions hlit
        (format_string.placeholder_body_head _ _ hdig)
        (format_string.placeholder_body_closing _ _ hdig ?_) hsplit (by omega) h1
      intro sp hsp x hx
      rw [format_string.written_specifier_mem spec sp hsp] at hx
      exact hspec x hx
    · rw [format_string.str_cons, format_string.str_cons, format_string.write_action_argument,
        toDigits_decimal_value N ⟨hne, hdig, by assumption⟩, h2]
      simp [format_string.write_action, canonical_template]

/-- C8 as the code has it: a template built from literal text without brackets
and placeholders `{N}` or `{N:spec}`, with `N` a decimal number without leading
zeros and at most `INT_MAX`, `spec` free of `}`, and at most `INT_MAX`
placeholders, compiles, and `operator<<` writes the compiled template back
character for character; a placeholder with an empty specifier is written as
`{N}` without a colon. -/
theorem canonical_template_is_fixed_point
    (segs : List (string_view × string_view × string_view)) (tail : string_view)
    (hsegs : ∀ seg ∈ segs, canonical_segment seg) (htail : brace_free tail)
    (hlen : segs.length ≤ INT_MAX) :
    (∃ actions, format_string.parse (canonical_template segs tail) = .ok actions ∧
        format_string.str { m_actions := actions } = canonical_template segs tail) ∧
      ∀ index : Nat,
        format_string.write_action (.print_argument index { m_specifier := [] }) =
          ['{'] ++ format_string.ostream_int index ++ ['}'] := by
  constructor
  · obtain ⟨actions, h1, h2⟩ :=
      format_string.canonical_template_compiles tail htail segs 0 hsegs (by omega)
    exact ⟨actions, (format_string.parse_eq_ok_iff _ _).2 h1, h2⟩
  · intro index
    rfl

/-- Witness of C8: `"{1:abc} has {0:def}."` is written back unchanged. -/
theorem canonical_template_is_fixed_point_witness :
    canonical_template [([], "1".toList, "abc".toList), (" has ".toList, "0".toList, "def".toList)]
        ".".toList = "\x7b1:abc\x7d has \x7b0:def\x7d.".toList ∧
      format_string.parse "\x7b1:abc\x7d has \x7b0:def\x7d.".toList =
        .ok [.print_text [], .print_argument 1 { m_specifier := "abc".toList },
          .print_text " has ".toList, .print_argument 0 { m_specifier := "def".toList },
          .print_text ".".toList] ∧
      format_string.str { m_actions :=
          [.print_text [], .print_argument 1 { m_specifier := "abc".toList },
          .print_text " has ".toList, .print_argument 0 { m_specifier := "def".toList },
          .print_text ".".toList] } = "\x7b1:abc\x7d has \x7b0:def\x7d.".toList :=
  ⟨by decide, by decide,
   by
    obtain ⟨actions, h1, h2⟩ := (canonical_template_is_fixed_point
      [([], "1".toList, "abc".toList), (" has ".toList, "0".toList, "def".toList)] ".".toList
      (by decide) (by decide) (by decide)).1
    have hd : format_string.parse (canonical_template
        [([], "1".toList, "abc".toList), (" has ".toList, "0".toList, "def".toList)]
        ".".toList) =
        .ok [.print_text [], .print_argument 1 { m_specifier := "abc".toList },
          .print_text " has ".toList, .print_argument 0 { m_specifier := "def".toList },
          .print_text ".".toList] := by decide
    rw [hd] at h1
    cases h1
    rw [h2]
    decide⟩

/-- Counterexample to C8 as stated: `"{4294967296}"` is a placeholder `{N}` with
`N` a decimal number without leading zeros, but the value of `N` does not fit an
`int`, `parse_int` overflows and nothing is compiled that could be written
back. -/
theorem canonical_template_overflow :
    canonical_decimal "4294967296".toList ∧
      canonical_template [([], "4294967296".toList, [])] [] = "\x7b4294967296\x7d".toList ∧
      format_string.parse "\x7b4294967296\x7d".toList = .error .signed_overflow :=
  ⟨by decide, by decide, by decide⟩


/-! ## Parser: templates on which `parse` does not return -/

/-- C11 does not hold of the code: on `"a}b"` the first bracket found is a `}`
that is not followed by `}`; no branch of the loop body handles it, the pass
removes no character and pushes nothing, and the loop returns for no iteration
budget. -/
theorem parse_never_returns_on_lone_closing_bracket :
    format_string.parse_iteration "a\x7db".toList 0 = .advance "a\x7db".toList [] 0 ∧
      (∀ (fuel : Nat) (acc : List print_action),
        format_string.parse_loop fuel "a\x7db".toList acc 0 = .error .fuel_exhausted) ∧
      format_string.parse "a\x7db".toList = .error .fuel_exhausted := by
  have hs : format_string.parse_iteration "a\x7db".toList 0 = .advance "a\x7db".toList [] 0 := by
    decide
  exact ⟨hs, fun fuel acc => format_string.parse_loop_stuck _ 0 (by decide) hs fuel acc,
    format_string.parse_loop_stuck _ 0 (by decide) hs _ _⟩

namespace format_string

/-- On digits, `parse_int` returns the value when it fits an `int` and overflows
otherwise. -/
theorem parse_int_foldlM_digits (N : string_view) (hN : ∀ x ∈ N, is_digit x) : ∀ r : Nat,
    N.foldlM
      (fun acc c =>
        if '0'.toNat ≤ c.toNat ∧ c.toNat ≤ '9'.toNat then
          if acc * 10 + (c.toNat - '0'.toNat) ≤ INT_MAX then
            (.ok (acc * 10 + (c.toNat - '0'.toNat)) : result Nat)
          else .error .signed_overflow
        else .error .assertion_failed) r
      = if N.foldl (fun r x => r * 10 + (x.toNat - '0'.toNat)) r ≤ INT_MAX ∨ N = [] then
          .ok (N.foldl (fun r x => r * 10 + (x.toNat - '0'.toNat)) r)
        else .error .signed_overflow := by
  induction N with
  | nil =>
    intro r
    simp only [List.foldl_nil, or_true, if_true]
    rfl
  | cons x N ih =>
    intro r
    have hx : '0'.toNat ≤ x.toNat ∧ x.toNat ≤ '9'.toNat := hN x (List.mem_cons_self _ _)
    have hN1 : ∀ y ∈ N, is_digit y := fun y hy => hN y (List.mem_cons_of_mem _ hy)
    rw [List.foldlM_cons, if_pos hx]
    simp only [List.foldl_cons, reduceCtorEq, or_false]
    by_cases hstep : r * 10 + (x.toNat - '0'.toNat) ≤ INT_MAX
    · rw [if_pos hstep]
      have := ih hN1 (r * 10 + (x.toNat - '0'.toNat))
      by_cases hnil : N = []
      · subst hnil
        simp only [List.foldl_nil, if_pos hstep]
        rfl
      · simp only [hnil, or_false] at this
        exact this
    · rw [if_neg hstep]
      have hge := foldl_value_le N (r * 10 + (x.toNat - '0'.toNat))
      rw [if_neg (by omega)]
      rfl

/-- An index text with a character that is no digit: `parse_int` stops at the
failed `assert`, or before it in the overflow of the digits in front. -/
theorem parse_int_non_digit (idx : string_view) (x : Char) (hx : x ∈ idx) (hnd : ¬ is_digit x) :
    parse_int idx = .error .assertion_failed ∨ parse_int idx = .error .signed_overflow := by
  rcases exists_split (fun c => !decide (is_digit c)) idx with hall | ⟨ds, y, rest, rfl, hds, hy⟩
  · have := hall x hx
    simp only [Bool.not_eq_false', decide_eq_true_eq] at this
    exact absurd this hnd
  · have hdig : ∀ c ∈ ds, is_digit c := by
      intro c hc
      simpa using hds c hc
    have hy1 : ¬ ('0'.toNat ≤ y.toNat ∧ y.toNat ≤ '9'.toNat) := by
      have : ¬ is_digit y := by simpa using hy
      exact this
    unfold parse_int
    rw [List.foldlM_append, parse_int_foldlM_digits ds hdig 0]
    split
    · left
      simp only [bind, Except.bind, List.foldlM_cons, if_neg hy1]
    · right
      rfl

end format_string

/-- C12 as the code has it: a closed placeholder after a template that
compiles, whose index part (the text up to the first `:`) contains a character
that is no decimal digit, makes `parse` stop at the failed `assert` of
`parse_int`, or before it in the `int` overflow of the digits in front; no action
sequence is returned and no `format_error` is thrown. -/
theorem non_digit_index_fails_assertion (p idx r : string_view) (spec : Option string_view)
    (ap : List print_action) (x : Char)
    (hp : format_string.parse p = .ok ap)
    (hx : x ∈ idx) (hnd : ¬ is_digit x)
    (hhead : idx.head? ≠ some '{')
    (hidx : ∀ y ∈ idx, y ≠ ':' ∧ y ≠ '}')
    (hspec : ∀ sp ∈ spec, ∀ y ∈ sp, y ≠ '}') :
    (format_string.parse (p ++ '{' :: (placeholder_body idx spec ++ '}' :: r)) =
          .error .assertion_failed ∨
        format_string.parse (p ++ '{' :: (placeholder_body idx spec ++ '}' :: r)) =
          .error .signed_overflow) ∧
      (∀ actions,
        format_string.parse (p ++ '{' :: (placeholder_body idx spec ++ '}' :: r)) ≠
          .ok actions) ∧
      ∀ message,
        format_string.parse (p ++ '{' :: (placeholder_body idx spec ++ '}' :: r)) ≠
          .error (.format_error message) := by
  have hne : idx ≠ [] := by
    rintro rfl
    exact absurd hx (List.not_mem_nil _)
  have hbhead : (placeholder_body idx spec).head? ≠ some '{' := by
    cases idx with
    | nil => exact absurd rfl hne
    | cons a l => simpa [placeholder_body] using hhead
  have hbclose : ∀ y ∈ placeholder_body idx spec, format_string.is_closing_bracket y = false := by
    intro y hy
    unfold format_string.is_closing_bracket
    rw [beq_eq_false_iff_ne]
    simp only [placeholder_body, List.mem_append] at hy
    rcases hy with hy | hy
    · exact (hidx y hy).2
    · cases spec with
      | none => exact absurd hy (List.not_mem_nil _)
      | some sp =>
        rcases List.mem_cons.1 hy with rfl | hy
        · decide
        · exact hspec sp rfl y hy
  have hcolon : ∀ y ∈ idx, format_string.is_colon y = false := by
    intro y hy
    unfold format_string.is_colon
    rw [beq_eq_false_iff_ne]
    exact (hidx y hy).1
  have hempty : idx.isEmpty = false := by
    cases idx with
    | nil => exact absurd rfl hne
    | cons a l => rfl
  obtain ⟨front, w, _, hs⟩ :=
    format_string.parse_after hp (placeholder_body idx spec) r hbhead hbclose
  rw [format_string.split_argument_body idx spec _ hcolon] at hs
  simp only [hempty, Bool.not_false, if_true] at hs
  rcases format_string.parse_int_non_digit idx x hx hnd with h | h
  · rw [h] at hs
    refine ⟨Or.inl hs, fun a ha => ?_, fun m hm => ?_⟩
    · rw [hs] at ha; cases ha
    · rw [hs] at hm; cases hm
  · rw [h] at hs
    refine ⟨Or.inr hs, fun a ha => ?_, fun m hm => ?_⟩
    · rw [hs] at ha; cases ha
    · rw [hs] at hm; cases hm

/-- Witness of C12: `"{} {1a:spec}"` stops at the failed `assert`. -/
theorem non_digit_index_fails_assertion_witness :
    format_string.parse "\x7b\x7d ".toList =
        .ok [.print_text [], .print_argument 0 { m_specifier := [] }, .print_text " ".toList] ∧
      (format_string.parse ("\x7b\x7d ".toList ++
            '{' :: (placeholder_body "1a".toList (some "spec".toList) ++ '}' :: [])) =
          .error .assertion_failed ∨
        format_string.parse ("\x7b\x7d ".toList ++
            '{' :: (placeholder_body "1a".toList (some "spec".toList) ++ '}' :: [])) =
          .error .signed_overflow) :=
  ⟨by decide,
   (non_digit_index_fails_assertion "\x7b\x7d ".toList "1a".toList [] (some "spec".toList)
     [.print_text [], .print_argument 0 { m_specifier := [] }, .print_text " ".toList] 'a'
     (by decide) (by decide) (by decide) (by decide) (by decide) (by decide)).1⟩

/-- Counterexample to C12 as stated: on `"{x}"`, `"{-1}"` and `"{1a:spec}"` the
`assert` of `parse_int` fails; no `format_error` is thrown. -/
theorem non_digit_index_is_no_format_error :
    format_string.parse "\x7bx\x7d".toList = .error .assertion_failed ∧
      format_string.parse "\x7b-1\x7d".toList = .error .assertion_failed ∧
      format_string.parse "\x7b1a:spec\x7d".toList = .error .assertion_failed ∧
      format_string.parse "\x7bx\x7d".toList ≠ .error (.format_error "unclosed bracket") :=
  ⟨by decide, by decide, by decide, by decide⟩

/-! ## Buffer: growth, invariant and reuse -/

namespace basic_buffer

/-- When the growth loop returns, it has applied the growth function `k` times,
for the least `k` that reaches the required capacity. -/
theorem grow_loop_returns (g : Nat → Nat) (req : Nat) :
    ∀ (fuel nc nc1 : Nat), grow_loop g req fuel nc = .ok nc1 →
      ∃ k, nc1 = g^[k] nc ∧ req ≤ nc1 ∧ ∀ j, j < k → g^[j] nc < req := by
  intro fuel
  induction fuel with
  | zero =>
    intro nc nc1 h
    simp only [grow_loop] at h
    split at h
    · cases h
    · cases h
      exact ⟨0, rfl, by omega, fun j hj => absurd hj (Nat.not_lt_zero _)⟩
  | succ fuel ih =>
    intro nc nc1 h
    simp only [grow_loop] at h
    split at h
    · rename_i hlt
      obtain ⟨k, h1, h2, h3⟩ := ih (g nc) nc1 h
      refine ⟨k + 1, by rw [Function.iterate_succ_apply]; exact h1, h2, ?_⟩
      intro j hj
      cases j with
      | zero => exact hlt
      | succ j =>
        rw [Function.iterate_succ_apply]
        exact h3 j (by omega)
    · cases h
      exact ⟨0, rfl, by omega, fun j hj => absurd hj (Nat.not_lt_zero _)⟩

/-- What holds of the buffer that `ensure_capacity` returns. -/
theorem ensure_capacity_returns (fuel : Nat) (b : basic_buffer) (req : Nat) (b1 : basic_buffer)
    (h : ensure_capacity fuel b req = .ok b1) :
    b1.m_size = b.m_size ∧ b1.m_grow_fn = b.m_grow_fn ∧ req ≤ b1.m_capacity ∧
      ((req ≤ b.m_capacity ∧ b1 = b) ∨
        (b.m_capacity < req ∧ ∃ k, 1 ≤ k ∧ b1.m_capacity = b.m_grow_fn^[k] b.m_capacity ∧
          ∀ j, j < k → b.m_grow_fn^[j] b.m_capacity < req)) := by
  unfold ensure_capacity at h
  split at h
  · rename_i hle
    cases h
    exact ⟨rfl, rfl, hle, Or.inl ⟨hle, rfl⟩⟩
  · rename_i hlt
    split at h
    · cases h
    · rename_i nc hg
      cases h
      obtain ⟨k, h1, h2, h3⟩ := grow_loop_returns _ _ _ _ _ hg
      refine ⟨rfl, rfl, h2, Or.inr ⟨by omega, k, ?_, h1, h3⟩⟩
      cases k with
      | zero =>
        simp only [Function.iterate_zero, id_eq] at h1
        omega
      | succ k => omega

/-- What holds of the buffer that `append` returns. -/
theorem append_returns (fuel : Nat) (b : basic_buffer) (bytes : List Char) (b1 : basic_buffer)
    (h : append fuel b bytes = .ok b1) :
    b1.m_size = b.m_size + bytes.length ∧ b1.m_grow_fn = b.m_grow_fn ∧
      b.m_size + bytes.length ≤ b1.m_capacity ∧
      ((b.m_size + bytes.length ≤ b.m_capacity ∧ b1.m_capacity = b.m_capacity) ∨
        (b.m_capacity < b.m_size + bytes.length ∧
          ∃ k, 1 ≤ k ∧ b1.m_capacity = b.m_grow_fn^[k] b.m_capacity ∧
            ∀ j, j < k → b.m_grow_fn^[j] b.m_capacity < b.m_size + bytes.length)) := by
  unfold append at h
  simp only at h
  split at h
  · cases h
  · rename_i b2 he
    cases h
    obtain ⟨h1, h2, h3, h4⟩ := ensure_capacity_returns _ _ _ _ he
    simp only [size] at h3 h4
    refine ⟨by simp only [h1], h2, h3, ?_⟩
    rcases h4 with ⟨h5, h6⟩ | h5
    · left
      exact ⟨h5, by rw [h6]⟩
    · right
      exact h5

theorem create_sound (c : Nat) (g : Nat → Nat) (hg : ∀ n, c ≤ n → n < g n) :
    (create c g).sound :=
  ⟨by simp [create], by simp [create], hg⟩

/-- A sequence of appends to a sound buffer returns, with a budget that covers
the longest of the strings, and appends the strings in order. -/
theorem append_all_sound (fuel : Nat) :
    ∀ (ss : List (List Char)) (b : basic_buffer), b.sound → (∀ s ∈ ss, s.length ≤ fuel) →
      ∃ b1, append_all fuel b ss = .ok b1 ∧ b1.sound ∧ b1.content = b.content ++ ss.flatten := by
  intro ss
  induction ss with
  | nil =>
    intro b h _
    exact ⟨b, rfl, h, by simp⟩
  | cons s ss ih =>
    intro b h hf
    have hs := hf s (List.mem_cons_self _ _)
    obtain ⟨b1, e1, s1, c1⟩ := append_sound b s fuel h (by have := h.2.1; omega)
    obtain ⟨b2, e2, s2, c2⟩ := ih b1 s1 (fun t ht => hf t (List.mem_cons_of_mem _ ht))
    refine ⟨b2, ?_, s2, by rw [c2, c1, List.flatten_cons, List.append_assoc]⟩
    unfold append_all at e2 ⊢
    rw [List.foldlM_cons, e1]
    exact e2

theorem iterate_double (k c : Nat) : (fun n => 2 * n)^[k] c = 2 ^ k * c := by
  induction k generalizing c with
  | zero => simp
  | succ k ih =>
    rw [Function.iterate_succ_apply, ih]
    ring

/-- A strictly increasing function that raises `c` raises everything from `c`
on. -/
theorem raises_from (g : Nat → Nat) (c : Nat) (hmono : ∀ m n, m < n → g m < g n)
    (hc : c < g c) : ∀ n, c ≤ n → n < g n := by
  intro n hn
  induction n, hn using Nat.le_induction with
  | base => exact hc
  | succ n _ ih =>
    have := hmono n (n + 1) (Nat.lt_succ_self n)
    omega

/-- With capacity 0 and doubling the growth loop never reaches a positive
required capacity. -/
theorem grow_loop_zero_doubling (req : Nat) (hreq : 0 < req) :
    ∀ fuel, grow_loop (fun n => 2 * n) req fuel 0 = .error .fuel_exhausted := by
  intro fuel
  induction fuel with
  | zero => simp only [grow_loop, if_pos hreq]
  | succ fuel ih =>
    simp only [grow_loop, if_pos hreq, Nat.mul_zero]
    exact ih

end basic_buffer

/-- C13: appending strings `s1, ..., sk` in that order to a default-constructed
buffer (with a budget for the growth loop that covers the longest string)
returns a buffer whose live range is `s1 ++ ... ++ sk` and whose size is the sum
of the lengths; an append that reallocates keeps every character appended
before. -/
theorem appended_bytes_are_kept (ss : List (List Char)) (fuel : Nat)
    (hfuel : ∀ s ∈ ss, s.length ≤ fuel) :
    (∃ b, basic_buffer.append_all fuel basic_buffer.create_default ss = .ok b ∧
        b.content = ss.flatten ∧ b.size = (ss.map List.length).sum) ∧
      ∀ (b : basic_buffer) (bytes : List Char), b.sound → bytes.length ≤ fuel →
        b.m_capacity < b.size + bytes.length →
        ∃ b1, b.append fuel bytes = .ok b1 ∧ b.m_capacity < b1.m_capacity ∧
          b1.content = b.content ++ bytes := by
  constructor
  · obtain ⟨b, e, s, c⟩ := basic_buffer.append_all_sound fuel ss basic_buffer.create_default
      basic_buffer.create_default_sound hfuel
    rw [basic_buffer.create_default_content, List.nil_append] at c
    refine ⟨b, e, c, ?_⟩
    have := basic_buffer.content_length b s
    rw [c, List.length_flatten] at this
    exact this.symm
  · intro b bytes hs hlen hgrow
    obtain ⟨b1, e1, _, c1⟩ := basic_buffer.append_sound b bytes fuel hs
      (by have := hs.2.1; omega)
    have := (basic_buffer.append_returns fuel b bytes b1 e1).2.2.1
    simp only [basic_buffer.size] at hgrow
    exact ⟨b1, e1, by omega, c1⟩

/-- Witness of C13: 60 characters and then 10 more, which do not fit the 64
cells of the default buffer. -/
theorem appended_bytes_are_kept_witness :
    ∃ b, basic_buffer.append_all 60 basic_buffer.create_default
          [List.replicate 60 'a', List.replicate 10 'b'] = .ok b ∧
        b.content = List.replicate 60 'a' ++ List.replicate 10 'b' ∧ b.size = 70 := by
  obtain ⟨b, h1, h2, h3⟩ := (appended_bytes_are_kept
    [List.replicate 60 'a', List.replicate 10 'b'] 60 (by decide)).1
  refine ⟨b, h1, ?_, ?_⟩
  · rw [h2]
    simp
  · rw [h3]
    simp

/-- C14: `size <= capacity` holds after construction, for any initial capacity
and growth function, and every call of `ensure_capacity`, `append` and `reset`
that returns preserves it. -/
theorem size_le_capacity_invariant :
    (∀ (c : Nat) (g : Nat → Nat),
        (basic_buffer.create c g).m_size ≤ (basic_buffer.create c g).m_capacity) ∧
      (∀ (fuel : Nat) (b : basic_buffer) (required_capacity : Nat) (b1 : basic_buffer),
        b.m_size ≤ b.m_capacity → b.ensure_capacity fuel required_capacity = .ok b1 →
        b1.m_size ≤ b1.m_capacity) ∧
      (∀ (fuel : Nat) (b : basic_buffer) (bytes : List Char) (b1 : basic_buffer),
        b.m_size ≤ b.m_capacity → b.append fuel bytes = .ok b1 →
        b1.m_size ≤ b1.m_capacity) ∧
      ∀ b : basic_buffer, b.m_size ≤ b.m_capacity → b.reset.m_size ≤ b.reset.m_capacity := by
  refine ⟨fun c g => Nat.zero_le _, ?_, ?_, fun b _ => Nat.zero_le _⟩
  · intro fuel b req b1 hinv h
    obtain ⟨h1, _, h3, h4⟩ := basic_buffer.ensure_capacity_returns fuel b req b1 h
    rcases h4 with ⟨_, rfl⟩ | ⟨hlt, _⟩
    · exact hinv
    · omega
  · intro fuel b bytes b1 _ h
    obtain ⟨h1, _, h3, _⟩ := basic_buffer.append_returns fuel b bytes b1 h
    omega

/-- Witness of C14: a buffer of capacity 0 with the growth function `n + 7`;
appending three characters returns, and the size is within the capacity. -/
theorem size_le_capacity_invariant_witness :
    ∃ b1, (basic_buffer.create 0 (fun n => n + 7)).append 3 "abc".toList = .ok b1 ∧
      b1.m_size = 3 ∧ b1.m_size ≤ b1.m_capacity := by
  obtain ⟨b1, e1, _, _⟩ := basic_buffer.append_sound (basic_buffer.create 0 (fun n => n + 7))
    "abc".toList 3 (basic_buffer.create_sound 0 _ (fun n _ => by omega)) (by decide)
  exact ⟨b1, e1, (basic_buffer.append_returns _ _ _ _ e1).1,
    size_le_capacity_invariant.2.2.1 3 _ _ b1 (Nat.zero_le _) e1⟩

/-- C15: `reset` sets the size to 0 and leaves capacity and growth function as
they are; a following append of at most `capacity` characters does not
reallocate (`ensure_capacity` returns at once), leaves the capacity unchanged and
makes the live range exactly the appended characters. -/
theorem reset_keeps_capacity (b : basic_buffer) :
    (b.reset.m_size = 0 ∧ b.reset.m_capacity = b.m_capacity ∧
        b.reset.m_grow_fn = b.m_grow_fn) ∧
      ∀ (s : List Char) (fuel : Nat), s.length ≤ b.m_capacity →
        b.reset.ensure_capacity fuel (b.reset.size + s.length) = .ok b.reset ∧
          ∃ b1, b.reset.append fuel s = .ok b1 ∧ b1.content = s ∧
            b1.m_capacity = b.m_capacity ∧ b1.size = s.length := by
  refine ⟨⟨rfl, rfl, rfl⟩, fun s fuel hs => ?_⟩
  have he : b.reset.ensure_capacity fuel (b.reset.size + s.length) = .ok b.reset := by
    unfold basic_buffer.ensure_capacity
    rw [if_pos (by simp only [basic_buffer.reset, basic_buffer.size]; omega)]
  refine ⟨he, ?_⟩
  unfold basic_buffer.append
  simp only [he]
  refine ⟨_, rfl, ?_, rfl, ?_⟩
  · simp only [basic_buffer.content, basic_buffer.size, basic_buffer.reset, basic_buffer.copy,
      List.take_zero, List.nil_append, Nat.zero_add]
    exact basic_buffer.take_append_length rfl
  · simp only [basic_buffer.size, basic_buffer.reset, Nat.zero_add]

/-- Witness of C15: a default buffer holding 70 characters is reset and reused
for 100 characters within its capacity of 128. -/
theorem reset_keeps_capacity_witness :
    ∃ b, basic_buffer.create_default.append 70 (List.replicate 70 'a') = .ok b ∧
      b.m_capacity = 128 ∧
      ∃ b1, b.reset.append 0 (List.replicate 100 'z') = .ok b1 ∧
        b1.content = List.replicate 100 'z' ∧ b1.m_capacity = 128 := by
  obtain ⟨b, e, _, _⟩ := basic_buffer.append_sound basic_buffer.create_default
    (List.replicate 70 'a') 70 basic_buffer.create_default_sound (by decide)
  have hcap : (basic_buffer.create_default.append 70 (List.replicate 70 'a')).map
      (fun b => b.m_capacity) = .ok 128 := by decide
  rw [e] at hcap
  have hc : b.m_capacity = 128 := by
    simpa [Except.map] using hcap
  refine ⟨b, e, hc, ?_⟩
  obtain ⟨b1, h1, h2, h3, _⟩ := ((reset_keeps_capacity b).2 (List.replicate 100 'z') 0
    (by rw [hc]; decide)).2
  exact ⟨b1, h1, h2, by rw [h3, hc]⟩

namespace basic_buffer

/-- An append returns when the growth function raises every capacity from the
current one on and the budget covers the missing capacity. -/
theorem append_exists (fuel : Nat) (b : basic_buffer) (bytes : List Char)
    (hg : ∀ n, b.m_capacity ≤ n → n < b.m_grow_fn n)
    (hf : b.m_size + bytes.length ≤ b.m_capacity + fuel) :
    ∃ b1, b.append fuel bytes = .ok b1 := by
  unfold append ensure_capacity
  simp only [size]
  by_cases hle : b.m_size + bytes.length ≤ b.m_capacity
  · simp only [if_pos hle]
    exact ⟨_, rfl⟩
  · simp only [if_neg hle]
    obtain ⟨nc, e, _, _⟩ := grow_loop_ok b.m_grow_fn (b.m_size + bytes.length) b.m_capacity hg
      fuel b.m_capacity (le_refl _) hf
    simp only [e]
    exact ⟨_, rfl⟩

/-- Appends to a buffer with doubling growth and a capacity `64 * 2^i` return
buffers of the same kind. -/
theorem append_all_doubling (fuel : Nat) :
    ∀ (ss : List (List Char)) (b : basic_buffer), b.m_size ≤ b.m_capacity →
      b.m_grow_fn = (fun n => 2 * n) → (∃ i, b.m_capacity = 64 * 2 ^ i) →
      (∀ s ∈ ss, s.length ≤ fuel) →
      ∃ b1 j, append_all fuel b ss = .ok b1 ∧ b1.m_capacity = 64 * 2 ^ j := by
  intro ss
  induction ss with
  | nil =>
    intro b _ _ hcap _
    obtain ⟨i, hi⟩ := hcap
    exact ⟨b, i, rfl, hi⟩
  | cons s ss ih =>
    intro b hinv hg hcap hf
    obtain ⟨i, hi⟩ := hcap
    have hs := hf s (List.mem_cons_self _ _)
    have hpos : 0 < b.m_capacity := by rw [hi]; positivity
    obtain ⟨b1, e1⟩ := append_exists fuel b s
      (fun n hn => by rw [hg]; show n < 2 * n; omega) (by omega)
    obtain ⟨r1, r2, r3, r4⟩ := append_returns fuel b s b1 e1
    have hcap1 : ∃ i1, b1.m_capacity = 64 * 2 ^ i1 := by
      rcases r4 with ⟨_, h⟩ | ⟨_, k, _, h, _⟩
      · exact ⟨i, by rw [h, hi]⟩
      · refine ⟨i + k, ?_⟩
        rw [h, hg, iterate_double, hi, pow_add]
        ring
    obtain ⟨b2, j, e2, h2⟩ := ih b1 (by omega) (by rw [r2, hg]) hcap1
      (fun t ht => hf t (List.mem_cons_of_mem _ ht))
    refine ⟨b2, j, ?_, h2⟩
    unfold append_all at e2 ⊢
    rw [List.foldlM_cons, e1]
    exact e2

end basic_buffer

/-- C19: with a growth function that raises every capacity from the current
one on, an append of `m` characters at size `s` and capacity `c` leaves the
capacity unchanged when `s + m <= c`, and otherwise makes it `g` applied `k`
times to `c` for the least `k >= 1` with `g^k(c) >= s + m`.  Hence the capacity
of a default-constructed buffer is always `64 * 2^j`, and after an append that
grows it is the least such value that is at least the new size. -/
theorem capacity_after_append :
    (∀ (b : basic_buffer) (bytes : List Char) (fuel : Nat),
        (∀ n, b.m_capacity ≤ n → n < b.m_grow_fn n) →
        b.m_size + bytes.length ≤ b.m_capacity + fuel →
        ∃ b1, b.append fuel bytes = .ok b1 ∧
          (b.m_size + bytes.length ≤ b.m_capacity → b1.m_capacity = b.m_capacity) ∧
          (b.m_capacity < b.m_size + bytes.length →
            ∃ k, 1 ≤ k ∧ b1.m_capacity = b.m_grow_fn^[k] b.m_capacity ∧
              b.m_size + bytes.length ≤ b.m_grow_fn^[k] b.m_capacity ∧
              ∀ j, j < k → b.m_grow_fn^[j] b.m_capacity < b.m_size + bytes.length)) ∧
      (∀ (ss : List (List Char)) (fuel : Nat), (∀ s ∈ ss, s.length ≤ fuel) →
        ∃ b j, basic_buffer.append_all fuel basic_buffer.create_default ss = .ok b ∧
          b.m_capacity = 64 * 2 ^ j) ∧
      ∀ (b : basic_buffer) (i : Nat) (bytes : List Char) (fuel : Nat),
        b.m_grow_fn = (fun n => 2 * n) → b.m_capacity = 64 * 2 ^ i →
        b.m_capacity < b.m_size + bytes.length →
        b.m_size + bytes.length ≤ b.m_capacity + fuel →
        ∃ b1 j, b.append fuel bytes = .ok b1 ∧ b1.m_capacity = 64 * 2 ^ j ∧
          b1.m_size ≤ 64 * 2 ^ j ∧ ∀ j1, b1.m_size ≤ 64 * 2 ^ j1 → 64 * 2 ^ j ≤ 64 * 2 ^ j1 := by
  have part1 : ∀ (b : basic_buffer) (bytes : List Char) (fuel : Nat),
      (∀ n, b.m_capacity ≤ n → n < b.m_grow_fn n) →
      b.m_size + bytes.length ≤ b.m_capacity + fuel →
      ∃ b1, b.append fuel bytes = .ok b1 ∧
        (b.m_size + bytes.length ≤ b.m_capacity → b1.m_capacity = b.m_capacity) ∧
        (b.m_capacity < b.m_size + bytes.length →
          ∃ k, 1 ≤ k ∧ b1.m_capacity = b.m_grow_fn^[k] b.m_capacity ∧
            b.m_size + bytes.length ≤ b.m_grow_fn^[k] b.m_capacity ∧
            ∀ j, j < k → b.m_grow_fn^[j] b.m_capacity < b.m_size + bytes.length) := by
    intro b bytes fuel hg hf
    obtain ⟨b1, e1⟩ := basic_buffer.append_exists fuel b bytes hg hf
    obtain ⟨_, _, r3, r4⟩ := basic_buffer.append_returns fuel b bytes b1 e1
    refine ⟨b1, e1, ?_, ?_⟩
    · intro hle
      rcases r4 with ⟨_, h⟩ | ⟨hlt, _⟩
      · exact h
      · omega
    · intro hlt
      rcases r4 with ⟨hle, _⟩ | ⟨_, k, hk, h, hmin⟩
      · omega
      · exact ⟨k, hk, h, by rw [← h]; exact r3, hmin⟩
  refine ⟨part1, ?_, ?_⟩
  · intro ss fuel hf
    exact basic_buffer.append_all_doubling fuel ss basic_buffer.create_default
      (by simp [basic_buffer.create_default, basic_buffer.create]) rfl ⟨0, rfl⟩ hf
  · intro b i bytes fuel hg hi hlt hf
    obtain ⟨b1, e1, _, h2⟩ := part1 b bytes fuel
      (fun n hn => by
        have : 0 < b.m_capacity := by rw [hi]; positivity
        rw [hg]; show n < 2 * n; omega) hf
    obtain ⟨k, _, hk, hreq, hmin⟩ := h2 hlt
    obtain ⟨r1, _, _, _⟩ := basic_buffer.append_returns fuel b bytes b1 e1
    have hcap : b1.m_capacity = 64 * 2 ^ (i + k) := by
      rw [hk, hg, basic_buffer.iterate_double, hi, pow_add]
      ring
    refine ⟨b1, i + k, e1, hcap, by rw [r1, ← hcap, hk]; exact hreq, ?_⟩
    intro j1 hj1
    rw [r1] at hj1
    apply Nat.mul_le_mul_left
    apply Nat.pow_le_pow_right (by decide)
    by_contra hcon
    have hj : j1 < i + k := Nat.lt_of_not_le hcon
    by_cases hji : j1 < i
    · have : 64 * 2 ^ j1 ≤ 64 * 2 ^ i :=
        Nat.mul_le_mul_left _ (Nat.pow_le_pow_right (by decide) (Nat.le_of_lt hji))
      omega
    · have hm := hmin (j1 - i) (by omega)
      rw [hg, basic_buffer.iterate_double, hi] at hm
      have e : 2 ^ (j1 - i) * (64 * 2 ^ i) = 64 * 2 ^ j1 := by
        have : j1 = (j1 - i) + i := by omega
        conv_rhs => rw [this, pow_add]
        ring
      rw [e] at hm
      omega

/-- Witness of C19: 70 characters appended to the default buffer make the
capacity 128, one doubling of 64 and the least `64 * 2^j` that holds them. -/
theorem capacity_after_append_witness :
    (basic_buffer.create_default.append 70 (List.replicate 70 'a')).map
        (fun b => (b.m_size, b.m_capacity)) = .ok (70, 128) ∧
      ∃ b1 j, basic_buffer.create_default.append 70 (List.replicate 70 'a') = .ok b1 ∧
        b1.m_capacity = 64 * 2 ^ j ∧ b1.m_size ≤ 64 * 2 ^ j ∧
        ∀ j1, b1.m_size ≤ 64 * 2 ^ j1 → 64 * 2 ^ j ≤ 64 * 2 ^ j1 :=
  ⟨by decide,
   capacity_after_append.2.2 basic_buffer.create_default 0 (List.replicate 70 'a') 70 rfl rfl
     (by decide) (by decide)⟩

/-- Counterexample to C20 as stated: doubling is strictly increasing, but on a
buffer constructed with capacity 0 the growth loop stays at 0, and the append
of one character returns for no iteration budget. -/
theorem append_never_returns_at_capacity_zero :
    (∀ m n : Nat, m < n → 2 * m < 2 * n) ∧
      ¬ ∃ fuel b1, (basic_buffer.create 0 (fun n => 2 * n)).append fuel ['a'] = .ok b1 := by
  refine ⟨fun m n h => by omega, ?_⟩
  rintro ⟨fuel, b1, h⟩
  have hg := basic_buffer.grow_loop_zero_doubling 1 (by decide) fuel
  simp only [basic_buffer.append, basic_buffer.ensure_capacity, basic_buffer.create,
    basic_buffer.size, List.length_singleton, Nat.zero_add, Nat.le_zero_eq, Nat.one_ne_zero,
    if_false, hg] at h
  cases h

/-- C20 as the code has it: on a buffer constructed with capacity `c` and a
strictly increasing growth function `g` with `g(c) > c`, every append of a
sequence of appends returns (with a budget for the growth loop that covers the
longest string) and leaves `size <= capacity`. -/
theorem appends_return_when_growth_raises_capacity (c : Nat) (g : Nat → Nat)
    (ss : List (List Char)) (fuel : Nat)
    (hmono : ∀ m n, m < n → g m < g n) (hc : c < g c)
    (hfuel : ∀ s ∈ ss, s.length ≤ fuel) :
    ∃ b, basic_buffer.append_all fuel (basic_buffer.create c g) ss = .ok b ∧
      b.size ≤ b.m_capacity ∧ b.content = ss.flatten := by
  obtain ⟨b, e, s, k⟩ := basic_buffer.append_all_sound fuel ss (basic_buffer.create c g)
    (basic_buffer.create_sound c g (basic_buffer.raises_from g c hmono hc)) hfuel
  refine ⟨b, e, s.2.1, ?_⟩
  rw [k]
  simp [basic_buffer.content, basic_buffer.create, basic_buffer.size]

/-- Witness of C20: capacity 1 with doubling; two appends of three characters
each. -/
theorem appends_return_when_growth_raises_capacity_witness :
    ∃ b, basic_buffer.append_all 3 (basic_buffer.create 1 (fun n => 2 * n))
          ["abc".toList, "def".toList] = .ok b ∧
        b.size ≤ b.m_capacity ∧ b.content = "abcdef".toList := by
  obtain ⟨b, h1, h2, h3⟩ := appends_return_when_growth_raises_capacity 1 (fun n => 2 * n)
    ["abc".toList, "def".toList] 3 (fun m n h => by show 2 * m < 2 * n; omega) (by decide)
    (by decide)
  exact ⟨b, h1, h2, by rw [h3]; decide⟩

/-! ## Formatters of bool, join and std::vector -/

theorem arg_ref.of_string_appends (item : string_view) : (arg_ref.of_string item).appends item :=
  fun ctx _ h => formatter_string_view_format_sound ctx item h

theorem write_to_separator_item_sound (ctx : format_context) (sep item : string_view)
    (h : ctx.m_os.sound) :
    ∃ ctx1, write_to_separator_item ctx sep item = .ok ctx1 ∧ ctx1.m_os.sound ∧
      ctx1.m_os.content = ctx.m_os.content ++ (sep ++ item) := by
  obtain ⟨c1, e1, s1, k1⟩ := formatter_string_view_format_sound ctx sep h
  obtain ⟨c2, e2, s2, k2⟩ := formatter_string_view_format_sound c1 item s1
  refine ⟨c2, ?_, s2, by rw [k2, k1, List.append_assoc]⟩
  simp only [write_to_separator_item, e1, e2]

theorem foldlM_separator_item_sound (sep : string_view) :
    ∀ (xs : List string_view) (ctx : format_context), ctx.m_os.sound →
      ∃ ctx1, xs.foldlM (fun c item => write_to_separator_item c sep item) ctx = .ok ctx1 ∧
        ctx1.m_os.sound ∧ ctx1.m_os.content = ctx.m_os.content ++ separated_after sep xs := by
  intro xs
  induction xs with
  | nil => intro ctx h; exact ⟨ctx, rfl, h, by simp [separated_after]⟩
  | cons x xs ih =>
    intro ctx h
    obtain ⟨c1, e1, s1, k1⟩ := write_to_separator_item_sound ctx sep x h
    obtain ⟨c2, e2, s2, k2⟩ := ih c1 s1
    refine ⟨c2, ?_, s2, by rw [k2, k1, separated_after]; simp⟩
    rw [List.foldlM_cons, e1]
    exact e2

theorem formatter_join_format_sound (ctx : format_context) (xs : List string_view)
    (sep : string_view) (h : ctx.m_os.sound) :
    ∃ ctx1, formatter_join_format ctx xs sep = .ok ctx1 ∧ ctx1.m_os.sound ∧
      ctx1.m_os.content = ctx.m_os.content ++ join_text sep xs := by
  cases xs with
  | nil => exact ⟨ctx, rfl, h, by simp [join_text]⟩
  | cons x xs =>
    obtain ⟨c1, e1, s1, k1⟩ := formatter_string_view_format_sound ctx x h
    obtain ⟨c2, e2, s2, k2⟩ := foldlM_separator_item_sound sep xs c1 s1
    refine ⟨c2, ?_, s2, by rw [k2, k1, join_text, List.append_assoc]⟩
    simp only [formatter_join_format, e1]
    exact e2

theorem range_formatter_loop_sound :
    ∀ (xs : List string_view) (os : format_context), os.m_os.sound →
      ∃ os1, range_formatter_loop false os xs = .ok os1 ∧ os1.m_os.sound ∧
        os1.m_os.content = os.m_os.content ++ separated_after ", ".toList xs := by
  intro xs
  induction xs with
  | nil => intro os h; exact ⟨os, rfl, h, by simp [separated_after]⟩
  | cons x xs ih =>
    intro os h
    obtain ⟨c1, e1, s1, k1⟩ := formatter_string_view_format_sound os ", ".toList h
    obtain ⟨c2, e2, s2, k2⟩ := formatter_string_view_format_sound c1 x s1
    obtain ⟨c3, e3, s3, k3⟩ := ih c2 s2
    refine ⟨c3, ?_, s3, by rw [k3, k2, k1, separated_after]; simp⟩
    simp only [range_formatter_loop, Bool.not_false, if_true, e1, e2]
    exact e3

theorem range_formatter_format_sound (os : format_context) (xs : List string_view)
    (h : os.m_os.sound) :
    ∃ os1, range_formatter_format os xs = .ok os1 ∧ os1.m_os.sound ∧
      os1.m_os.content = os.m_os.content ++ vector_text xs := by
  obtain ⟨c1, e1, s1, k1⟩ := formatter_string_view_format_sound os "[".toList h
  cases xs with
  | nil =>
    obtain ⟨c2, e2, s2, k2⟩ := formatter_string_view_format_sound c1 "]".toList s1
    refine ⟨c2, ?_, s2, by rw [k2, k1, vector_text, join_text]; simp⟩
    simp only [range_formatter_format, e1, range_formatter_loop]
    exact e2
  | cons x xs =>
    obtain ⟨c2, e2, s2, k2⟩ := formatter_string_view_format_sound c1 x s1
    obtain ⟨c3, e3, s3, k3⟩ := range_formatter_loop_sound xs c2 s2
    obtain ⟨c4, e4, s4, k4⟩ := formatter_string_view_format_sound c3 "]".toList s3
    refine ⟨c4, ?_, s4, by rw [k4, k3, k2, k1, vector_text, join_text]; simp⟩
    simp only [range_formatter_format, e1, range_formatter_loop, Bool.not_true,
      Bool.false_eq_true, if_false, e2, e3]
    exact e4

theorem formatter_bool_format_sound (ctx : format_context) (item : Bool)
    (h : ctx.m_os.sound) :
    ∃ ctx1, formatter_bool_format ctx item = .ok ctx1 ∧ ctx1.m_os.sound ∧
      ctx1.m_os.content = ctx.m_os.content ++ bool_text item := by
  cases item with
  | true => exact formatter_string_view_format_sound ctx "true".toList h
  | false => exact formatter_string_view_format_sound ctx "false".toList h

/-- With arguments that append given texts and all indices in range, the driver
appends the concatenation of the actions over those texts. -/
theorem format_string.foldlM_visit_appends (arguments : List arg_ref)
    (texts : List string_view)
    (happ : ∀ (i : Nat) (hi : i < arguments.length),
      (arguments.get ⟨i, hi⟩).appends (texts.getD i [])) :
    ∀ (actions : List print_action) (ctx : format_context), ctx.m_os.sound →
      indices_below arguments.length actions →
      ∃ ctx1, actions.foldlM (format_string.visit arguments) ctx = .ok ctx1 ∧
        ctx1.m_os.sound ∧
        ctx1.m_os.content = ctx.m_os.content ++ concat_actions texts actions := by
  intro actions
  induction actions with
  | nil => intro ctx h _; exact ⟨ctx, rfl, h, by simp [concat_actions]⟩
  | cons a rest ih =>
    intro ctx h hidx
    have hrest : indices_below arguments.length rest :=
      fun i c hm => hidx i c (List.mem_cons_of_mem _ hm)
    rw [format_string.foldlM_visit_cons]
    cases a with
    | print_text text =>
      obtain ⟨c1, e1, s1, k1⟩ := formatter_string_view_format_sound ctx text h
      simp only [format_string.visit, e1]
      obtain ⟨c2, e2, s2, k2⟩ := ih c1 s1 hrest
      exact ⟨c2, e2, s2, by rw [k2, k1, concat_actions, List.append_assoc]⟩
    | print_argument index context =>
      have hlt : index < arguments.length := hidx index context (List.mem_cons_self _ _)
      have hget : arguments.get? index = some (arguments.get ⟨index, hlt⟩) :=
        List.get?_eq_get hlt
      obtain ⟨c1, e1, s1, k1⟩ := happ index hlt ctx context h
      simp only [format_string.visit, hget, e1]
      obtain ⟨c2, e2, s2, k2⟩ := ih c1 s1 hrest
      exact ⟨c2, e2, s2, by rw [k2, k1, concat_actions, List.append_assoc]⟩

/-- The call `format(fmt)(args...)` with arguments that append given texts. -/
theorem format_appends (fmt : string_view) (actions : List print_action)
    (arguments : List arg_ref) (texts : List string_view)
    (hc : format_string.parse fmt = .ok actions)
    (happ : ∀ (i : Nat) (hi : i < arguments.length),
      (arguments.get ⟨i, hi⟩).appends (texts.getD i []))
    (hidx : indices_below arguments.length actions) :
    format fmt arguments = .ok (concat_actions texts actions) := by
  rw [format_of_create hc]
  obtain ⟨ctx1, e1, _, k1⟩ := format_string.foldlM_visit_appends arguments texts happ actions
    { m_os := basic_buffer.create_default } basic_buffer.create_default_sound hidx
  rw [e1]
  simp only [k1, basic_buffer.create_default_content, List.nil_append]

/-- The call `format("{}")(arg)` with an argument that appends `bytes`. -/
theorem format_single (a : arg_ref) (bytes : List Char) (h : a.appends bytes) :
    format "\x7b\x7d".toList [a] = .ok bytes := by
  have := format_appends "\x7b\x7d".toList
    [.print_text [], .print_argument 0 { m_specifier := [] }] [a] [bytes] (by decide)
    (fun i hi => by
      have hi0 : i = 0 := by simpa using hi
      subst hi0
      exact h)
    (fun i c hm => by
      simp only [List.mem_cons, reduceCtorEq, print_action.print_argument.injEq,
        List.not_mem_nil, or_false, false_or] at hm
      rw [hm.1]
      exact Nat.zero_lt_one)
  simpa [concat_actions] using this

theorem separated_after_eq (sep : string_view) (x : string_view) (xs : List string_view) :
    x ++ separated_after sep xs = (List.intersperse sep (x :: xs)).flatten := by
  induction xs generalizing x with
  | nil => simp [separated_after, List.intersperse]
  | cons y ys ih =>
    have := ih y
    simp only [separated_after, List.intersperse, List.flatten_cons, List.append_assoc]
      at this ⊢
    rw [this]

/-- The text of a join is the library's `List.intercalate`. -/
theorem join_text_eq_intercalate (sep : string_view) (xs : List string_view) :
    join_text sep xs = List.intercalate sep xs := by
  cases xs with
  | nil => rfl
  | cons x xs =>
    simp only [join_text, List.intercalate]
    exact separated_after_eq sep x xs

theorem arg_ref.of_join_appends (xs : List string_view) (sep : string_view) :
    (arg_ref.of_join xs sep).appends (join_text sep xs) :=
  fun ctx _ hs => formatter_join_format_sound ctx xs sep hs

theorem arg_ref.of_vector_appends (xs : List string_view) :
    (arg_ref.of_vector xs).appends (vector_text xs) :=
  fun ctx _ hs => range_formatter_format_sound ctx xs hs

theorem arg_ref.of_bool_appends (b : Bool) : (arg_ref.of_bool b).appends (bool_text b) :=
  fun ctx _ hs => formatter_bool_format_sound ctx b hs

/-- C16: rendering `join(xs, sep)` as an argument, on any buffer in a sound
state and with any specifier, appends `x0 ++ sep ++ x1 ++ ... ++ x(n-1)`: the
elements in order with `sep` between consecutive elements only; the empty
sequence renders as the empty text. -/
theorem join_renders_elements_with_separator (xs : List string_view) (sep : string_view) :
    (arg_ref.of_join xs sep).appends (List.intercalate sep xs) ∧
      format "\x7b\x7d".toList [arg_ref.of_join xs sep] = .ok (List.intercalate sep xs) ∧
      format "\x7b\x7d".toList [arg_ref.of_join [] sep] = .ok [] ∧
      List.intercalate sep xs = join_text sep xs := by
  rw [← join_text_eq_intercalate]
  exact ⟨arg_ref.of_join_appends xs sep, format_single _ _ (arg_ref.of_join_appends xs sep),
    format_single _ _ (arg_ref.of_join_appends [] sep), rfl⟩

/-- Witness of C16: `format("{} has {}.")("Alice", join(["a cat", "a dog", "a
turtle"], ", "))` is `"Alice has a cat, a dog, a turtle."`. -/
theorem join_renders_elements_with_separator_witness :
    format "\x7b\x7d has \x7b\x7d.".toList
        [arg_ref.of_string "Alice".toList,
          arg_ref.of_join ["a cat".toList, "a dog".toList, "a turtle".toList] ", ".toList] =
      .ok "Alice has a cat, a dog, a turtle.".toList := by
  have h := format_appends "\x7b\x7d has \x7b\x7d.".toList
    [.print_text [], .print_argument 0 { m_specifier := [] },
      .print_text " has ".toList, .print_argument 1 { m_specifier := [] },
      .print_text ".".toList]
    [arg_ref.of_string "Alice".toList,
      arg_ref.of_join ["a cat".toList, "a dog".toList, "a turtle".toList] ", ".toList]
    ["Alice".toList,
      List.intercalate ", ".toList ["a cat".toList, "a dog".toList, "a turtle".toList]]
    (by decide)
    (fun i hi => by
      have hi2 : i < 2 := hi
      interval_cases i
      · exact arg_ref.of_string_appends _
      · exact (join_renders_elements_with_separator
          ["a cat".toList, "a dog".toList, "a turtle".toList] ", ".toList).1)
    (fun i c hm => by
      simp only [List.mem_cons, print_action.print_argument.injEq, List.mem_singleton,
        reduceCtorEq, false_or, or_false, List.not_mem_nil] at hm
      rcases hm with ⟨rfl, _⟩ | ⟨rfl, _⟩ <;> decide)
  rw [h]
  decide

/-- C17: rendering a vector of strings as an argument, on any buffer in a sound
state and with any specifier, appends `[`, the elements in order separated by
`, `, and `]`; the empty vector renders as `[]` and a vector of one element
without separator. -/
theorem vector_renders_in_brackets (xs : List string_view) :
    (arg_ref.of_vector xs).appends
        ("[".toList ++ List.intercalate ", ".toList xs ++ "]".toList) ∧
      format "\x7b\x7d".toList [arg_ref.of_vector xs] =
        .ok ("[".toList ++ List.intercalate ", ".toList xs ++ "]".toList) ∧
      format "\x7b\x7d".toList [arg_ref.of_vector []] = .ok "[]".toList ∧
      ∀ x : string_view,
        format "\x7b\x7d".toList [arg_ref.of_vector [x]] =
          .ok ("[".toList ++ x ++ "]".toList) := by
  have e : "[".toList ++ List.intercalate ", ".toList xs ++ "]".toList = vector_text xs := by
    rw [vector_text, join_text_eq_intercalate]
  rw [e]
  refine ⟨arg_ref.of_vector_appends xs, format_single _ _ (arg_ref.of_vector_appends xs),
    format_single _ _ (arg_ref.of_vector_appends []), fun x => ?_⟩
  rw [format_single _ _ (arg_ref.of_vector_appends [x])]
  simp [vector_text, join_text, separated_after]

/-- Witness of C17: `format("{} has the following animals: {}.")("Alice", ["a
cat", "a dog"])` is `"Alice has the following animals: [a cat, a dog]."`. -/
theorem vector_renders_in_brackets_witness :
    format "\x7b\x7d has the following animals: \x7b\x7d.".toList
        [arg_ref.of_string "Alice".toList,
          arg_ref.of_vector ["a cat".toList, "a dog".toList]] =
      .ok "Alice has the following animals: [a cat, a dog].".toList := by
  have h := format_appends "\x7b\x7d has the following animals: \x7b\x7d.".toList
    [.print_text [], .print_argument 0 { m_specifier := [] },
      .print_text " has the following animals: ".toList,
      .print_argument 1 { m_specifier := [] }, .print_text ".".toList]
    [arg_ref.of_string "Alice".toList, arg_ref.of_vector ["a cat".toList, "a dog".toList]]
    ["Alice".toList,
      "[".toList ++ List.intercalate ", ".toList ["a cat".toList, "a dog".toList] ++ "]".toList]
    (by decide)
    (fun i hi => by
      have hi2 : i < 2 := hi
      interval_cases i
      · exact arg_ref.of_string_appends _
      · exact (vector_renders_in_brackets ["a cat".toList, "a dog".toList]).1)
    (fun i c hm => by
      simp only [List.mem_cons, print_action.print_argument.injEq, List.mem_singleton,
        reduceCtorEq, false_or, or_false, List.not_mem_nil] at hm
      rcases hm with ⟨rfl, _⟩ | ⟨rfl, _⟩ <;> decide)
  rw [h]
  decide

/-- C18: rendering a boolean as an argument, on any buffer in a sound state and
with any specifier, appends `true` for true and `false` for false; hence
`format("{}-{}")(a, b)` is the text of `a`, `-` and the text of `b`. -/
theorem bool_renders_as_true_or_false (a b : Bool) :
    (arg_ref.of_bool a).appends (if a then "true".toList else "false".toList) ∧
      format "\x7b\x7d-\x7b\x7d".toList [arg_ref.of_bool a, arg_ref.of_bool b] =
        .ok ((if a then "true".toList else "false".toList) ++ "-".toList ++
          (if b then "true".toList else "false".toList)) := by
  refine ⟨arg_ref.of_bool_appends a, ?_⟩
  have h := format_appends "\x7b\x7d-\x7b\x7d".toList
    [.print_text [], .print_argument 0 { m_specifier := [] },
      .print_text "-".toList, .print_argument 1 { m_specifier := [] }]
    [arg_ref.of_bool a, arg_ref.of_bool b] [bool_text a, bool_text b] (by decide)
    (fun i hi => by
      have hi2 : i < 2 := hi
      interval_cases i
      · exact arg_ref.of_bool_appends a
      · exact arg_ref.of_bool_appends b)
    (fun i c hm => by
      simp only [List.mem_cons, print_action.print_argument.injEq, List.mem_singleton,
        reduceCtorEq, false_or, or_false, List.not_mem_nil] at hm
      rcases hm with ⟨rfl, _⟩ | ⟨rfl, _⟩ <;> simp)
  rw [h]
  simp [concat_actions, bool_text]

/-- Witness of C18: `format("{}-{}")(true, false)` is `"true-false"`. -/
theorem bool_renders_as_true_or_false_witness :
    format "\x7b\x7d-\x7b\x7d".toList [arg_ref.of_bool true, arg_ref.of_bool false] =
      .ok "true-false".toList :=
  (bool_renders_as_true_or_false true false).2

/-! ## Character positions read by the parser -/

namespace format_string

theorem find_if_le (s : string_view) (first : Nat) (p : Char → Bool) (h : first ≤ s.length) :
    find_if s first p ≤ s.length := by
  unfold find_if
  have hle : (s.drop first).findIdx p ≤ (s.drop first).length := List.findIdx_le_length p
  simp only [List.length_drop] at hle
  omega

theorem find_if_ge (s : string_view) (first : Nat) (p : Char → Bool) :
    first ≤ find_if s first p := by
  unfold find_if
  omega

/-- A search never reads at or after the end of the view it searches. -/
theorem find_if_reads_lt (s : string_view) (first : Nat) (p : Char → Bool) :
    ∀ i ∈ find_if_reads s first p, i < s.length := by
  intro i hi
  have hge := find_if_ge s first p
  unfold find_if_reads at hi
  simp only at hi
  split at hi
  · rw [List.mem_range'_1] at hi
    omega
  · rw [List.mem_range'_1] at hi
    omega

theorem parse_int_reads_bounds : ∀ (txt : string_view) (i v j : Nat),
    j ∈ parse_int_reads txt i v → i ≤ j ∧ j < i + txt.length
  | [], _, _, _, h => by simp [parse_int_reads] at h
  | c :: txt, i, v, j, h => by
    simp only [parse_int_reads, List.mem_cons] at h
    simp only [List.length_cons]
    rcases h with rfl | h
    · omega
    · split at h
      · split at h
        · have ih := parse_int_reads_bounds txt _ _ j h
          omega
        · simp at h
      · simp at h

theorem make_string_view_length_le (s : string_view) (b e : Nat) :
    (make_string_view s b e).length ≤ e - b ∧ (make_string_view s b e).length ≤ s.length := by
  rw [make_string_view_eq]
  simp only [List.length_drop, List.length_take]
  omega

/-- Splitting a placeholder body reads inside the body only. -/
theorem split_argument_reads_lt (arg : string_view) :
    ∀ j ∈ split_argument_reads arg, j < arg.length := by
  intro j hj
  unfold split_argument_reads at hj
  simp only [List.mem_append] at hj
  rcases hj with hj | hj
  · exact find_if_reads_lt _ _ _ j hj
  · split at hj
    · have h1 := (parse_int_reads_bounds _ 0 0 j hj).2
      have h2 := (make_string_view_length_le arg 0 (find_if arg 0 is_colon)).2
      omega
    · simp at hj

/-- Whenever a pass finds a bracket, it reads the character after it. -/
theorem lookahead_mem_reads (fmt : string_view)
    (h : find_if fmt 0 is_bracket ≠ fmt.length) :
    find_if fmt 0 is_bracket + 1 ∈ parse_iteration_reads fmt := by
  unfold parse_iteration_reads
  simp only [if_neg h, List.mem_append, List.mem_cons]
  right
  left
  right
  left
  trivial

/-- Every offset a pass reads is inside the remaining input, except the offset
right after a first bracket that is the last character. -/
theorem parse_iteration_reads_cases (fmt : string_view) :
    ∀ i ∈ parse_iteration_reads fmt,
      i < fmt.length ∨ (i = fmt.length ∧ find_if fmt 0 is_bracket + 1 = fmt.length) := by
  intro i hi
  have hb : find_if fmt 0 is_bracket ≤ fmt.length := find_if_le _ _ _ (Nat.zero_le _)
  unfold parse_iteration_reads at hi
  simp only [List.mem_append] at hi
  rcases hi with hi | hi
  · left
    exact find_if_reads_lt _ _ _ i hi
  · split at hi
    · simp at hi
    · rename_i hne
      have hlt : find_if fmt 0 is_bracket < fmt.length := lt_of_le_of_ne hb hne
      simp only [List.mem_append, List.mem_cons, List.mem_singleton, List.not_mem_nil,
        or_false] at hi
      rcases hi with (rfl | rfl) | hi
      · left
        exact hlt
      · rcases Nat.lt_or_ge (find_if fmt 0 is_bracket + 1) fmt.length with h1 | h1
        · left
          exact h1
        · right
          constructor <;> omega
      · split at hi
        · simp at hi
        · simp only [List.mem_append, List.mem_singleton] at hi
          rcases hi with rfl | hi
          · left
            exact hlt
          · split at hi
            · simp only [List.mem_append, List.mem_map] at hi
              rcases hi with hi | hi
              · left
                exact find_if_reads_lt _ _ _ i hi
              · split at hi
                · simp at hi
                · rw [List.mem_map] at hi
                  obtain ⟨j, hj, rfl⟩ := hi
                  have h1 := split_argument_reads_lt _ j hj
                  have h2 := (make_string_view_length_le fmt (find_if fmt 0 is_bracket + 1)
                    (find_if fmt (find_if fmt 0 is_bracket + 1) is_closing_bracket)).1
                  have h3 := find_if_le fmt (find_if fmt 0 is_bracket + 1) is_closing_bracket hlt
                  left
                  omega
            · simp at hi

theorem parse_iteration_reads_le (fmt : string_view) :
    ∀ i ∈ parse_iteration_reads fmt, i ≤ fmt.length := by
  intro i hi
  rcases parse_iteration_reads_cases fmt i hi with h | ⟨h, _⟩ <;> omega

/-- A pass stays inside the remaining input exactly when the first bracket it
finds is not the last character. -/
theorem parse_iteration_reads_inside_iff (fmt : string_view) :
    (∀ i ∈ parse_iteration_reads fmt, i < fmt.length) ↔
      find_if fmt 0 is_bracket + 1 ≠ fmt.length := by
  constructor
  · intro h heq
    have hmem := lookahead_mem_reads fmt (by omega)
    have := h _ hmem
    omega
  · intro h i hi
    rcases parse_iteration_reads_cases fmt i hi with h1 | ⟨_, h2⟩
    · exact h1
    · exact absurd h2 h

theorem parse_loop_reads_le : ∀ (fuel base : Nat) (fmt : string_view) (c : Nat),
    ∀ i ∈ parse_loop_reads fuel base fmt c, i ≤ base + fmt.length := by
  intro fuel
  induction fuel with
  | zero =>
    intro base fmt c i hi
    simp [parse_loop_reads] at hi
  | succ n ih =>
    intro base fmt c i hi
    unfold parse_loop_reads at hi
    split at hi
    · simp at hi
    · rename_i hne
      have hne1 : fmt ≠ [] := by
        intro h
        subst h
        exact hne rfl
      simp only [List.mem_append, List.mem_map] at hi
      rcases hi with ⟨j, hj, rfl⟩ | hi
      · have := parse_iteration_reads_le fmt j hj
        omega
      · cases hit : parse_iteration fmt c with
        | raise e =>
          rw [hit] at hi
          simp at hi
        | advance fmt1 pushed c1 =>
          rw [hit] at hi
          simp only at hi
          have hlen : fmt1.length ≤ fmt.length := by
            rcases parse_iteration_advance fmt c fmt1 pushed c1 hit hne1 with hs | hlt
            · rw [hs] at hit
              cases hit
              exact le_refl _
            · omega
          have := ih _ fmt1 c1 i hi
          omega

/-- No read of `parse` lies further out than the offset right after the last
character of the template. -/
theorem parse_reads_le (fmt : string_view) : ∀ i ∈ parse_reads fmt, i ≤ fmt.length := by
  intro i hi
  have := parse_loop_reads_le _ _ _ _ i hi
  omega

/-- A template whose only bracket is its last character: `parse` reads the
offset after that character. -/
theorem parse_reads_trailing_bracket (pre : string_view) (b : Char)
    (hpre : brace_free pre) (hb : is_bracket b = true) :
    (pre ++ [b]).length ∈ parse_reads (pre ++ [b]) := by
  have hfind : find_if (pre ++ [b]) 0 is_bracket = pre.length := by
    rw [find_if_zero, findIdx_append_free _ _ _ hpre]
    simp [List.findIdx_cons, hb]
  have hmem := lookahead_mem_reads (pre ++ [b]) (by rw [hfind]; simp)
  rw [hfind] at hmem
  unfold parse_reads
  rw [parse_loop_reads]
  have hne : (pre ++ [b]).isEmpty = false := by cases pre <;> rfl
  simp only [hne, Bool.false_eq_true, if_false, List.mem_append, List.mem_map]
  left
  exact ⟨pre.length + 1, hmem, by simp⟩

end format_string

/-- C21: the template `abc{` has four characters, at offsets 0 to 3.  The first
pass of `parse` finds the bracket at offset 3 and evaluates
`bracket[0] == bracket[1]`, which reads offset 4, the length of the template,
before the call ends in the `format_error` for an unclosed bracket; the same
read happens on `abc}`.  So it is not true that every offset read lies inside
the template. -/
theorem lookahead_reads_past_end_of_template :
    "abc\x7b".toList.length = 4 ∧
      format_string.find_if "abc\x7b".toList 0 format_string.is_bracket + 1 = 4 ∧
      format_string.parse_iteration_reads "abc\x7b".toList = [0, 1, 2, 3, 3, 4, 3] ∧
      4 ∈ format_string.parse_reads "abc\x7b".toList ∧
      format_string.parse "abc\x7b".toList = .error (.format_error "unclosed bracket") ∧
      "abc\x7d".toList.length = 4 ∧
      4 ∈ format_string.parse_reads "abc\x7d".toList ∧
      ¬ ∀ t : string_view, ∀ i ∈ format_string.parse_reads t, i < t.length := by
  refine ⟨by decide, by decide, by decide, by decide, by decide, by decide, by decide, ?_⟩
  intro h
  exact absurd (h "abc\x7b".toList 4 (by decide)) (by decide)

/-! ## The parser on a view into a longer character array -/

namespace format_string

theorem parse_loop_stored_nil (behind : Char) (fuel : Nat) (acc : List print_action) (c : Nat) :
    parse_loop_stored behind fuel [] acc c = .ok acc := by
  cases fuel <;> rfl

theorem parse_loop_stored_succ (behind : Char) (fuel : Nat) (fmt : string_view)
    (acc : List print_action) (c : Nat) (hne : fmt ≠ []) :
    parse_loop_stored behind (fuel + 1) fmt acc c =
      match parse_iteration_stored behind fmt c with
      | .raise e => .error e
      | .advance fmt1 pushed c1 => parse_loop_stored behind fuel fmt1 (acc ++ pushed) c1 := by
  cases fmt with
  | nil => exact absurd rfl hne
  | cons a l => rfl

/-- With a NUL behind the view, a pass is the pass of `parse_iteration`. -/
theorem parse_iteration_stored_nul (fmt : string_view) (c : Nat) :
    parse_iteration_stored (Char.ofNat 0) fmt c = parse_iteration fmt c := rfl

theorem parse_loop_stored_nul : ∀ (fuel : Nat) (fmt : string_view) (acc : List print_action)
    (c : Nat), parse_loop_stored (Char.ofNat 0) fuel fmt acc c = parse_loop fuel fmt acc c := by
  intro fuel
  induction fuel with
  | zero =>
    intro fmt acc c
    rfl
  | succ n ih =>
    intro fmt acc c
    by_cases hne : fmt = []
    · subst hne
      rfl
    rw [parse_loop_stored_succ _ _ _ _ _ hne, parse_loop_succ _ _ _ _ hne,
      parse_iteration_stored_nul]
    cases parse_iteration fmt c with
    | raise e => rfl
    | advance fmt1 pushed c1 => exact ih _ _ _

/-- With a NUL behind the view, `parse_stored` is `parse`. -/
theorem parse_stored_nul (fmt : string_view) : parse_stored (Char.ofNat 0) fmt = parse fmt :=
  parse_loop_stored_nul _ _ _ _

theorem first_bracket_is_bracket (fmt : string_view)
    (h : find_if fmt 0 is_bracket < fmt.length) :
    is_bracket (char_at fmt (find_if fmt 0 is_bracket)) = true := by
  rw [find_if_zero] at h ⊢
  unfold char_at
  rw [List.getD_eq_getElem _ _ h]
  exact List.findIdx_getElem

/-- A pass does not depend on the character behind the view, unless the first
bracket is the last character of `fmt` and the same character is behind it. -/
theorem parse_iteration_stored_eq (behind : Char) (fmt : string_view) (c : Nat)
    (h : find_if fmt 0 is_bracket + 1 = fmt.length →
      char_at fmt (find_if fmt 0 is_bracket) ≠ behind) :
    parse_iteration_stored behind fmt c = parse_iteration fmt c := by
  have hle := find_if_le fmt 0 is_bracket (Nat.zero_le _)
  unfold parse_iteration_stored parse_iteration
  simp only
  by_cases hend : find_if fmt 0 is_bracket = fmt.length
  · rw [if_pos hend, if_pos hend]
  · rw [if_neg hend, if_neg hend]
    have hlt : find_if fmt 0 is_bracket < fmt.length := lt_of_le_of_ne hle hend
    have h0 : char_at_stored behind fmt (find_if fmt 0 is_bracket) =
        char_at fmt (find_if fmt 0 is_bracket) := by
      unfold char_at_stored char_at
      rw [List.getD_eq_getElem _ _ hlt, List.getD_eq_getElem _ _ hlt]
    rw [h0]
    by_cases h1 : find_if fmt 0 is_bracket + 1 < fmt.length
    · have e1 : char_at_stored behind fmt (find_if fmt 0 is_bracket + 1) =
          char_at fmt (find_if fmt 0 is_bracket + 1) := by
        unfold char_at_stored char_at
        rw [List.getD_eq_getElem _ _ h1, List.getD_eq_getElem _ _ h1]
      rw [e1]
    · have hk : find_if fmt 0 is_bracket + 1 = fmt.length := by omega
      have hb := first_bracket_is_bracket fmt hlt
      have e1 : char_at_stored behind fmt (find_if fmt 0 is_bracket + 1) = behind := by
        unfold char_at_stored
        exact List.getD_eq_default _ _ (by omega)
      have e2 : char_at fmt (find_if fmt 0 is_bracket + 1) = Char.ofNat 0 := by
        unfold char_at
        exact List.getD_eq_default _ _ (by omega)
      have n1 : ¬ char_at fmt (find_if fmt 0 is_bracket) = behind := h hk
      have n2 : ¬ char_at fmt (find_if fmt 0 is_bracket) = Char.ofNat 0 := by
        intro e
        rw [e] at hb
        exact absurd hb (by decide)
      rw [e1, e2, if_neg n1, if_neg n2]

theorem find_if_first_bracket (pre rest : string_view) (b : Char)
    (hpre : brace_free pre) (hb : is_bracket b = true) :
    find_if (pre ++ b :: rest) 0 is_bracket = pre.length := by
  rw [find_if_zero, findIdx_append_free _ _ _ hpre]
  simp [List.findIdx_cons, hb]

/-- A pass whose first bracket has a character of `fmt` after it does not
depend on what is stored behind the view. -/
theorem parse_iteration_stored_inside (behind : Char) (pre tail : string_view) (b : Char)
    (c : Nat) (hpre : brace_free pre) (hb : is_bracket b = true) (ht : tail ≠ []) :
    parse_iteration_stored behind (pre ++ b :: tail) c = parse_iteration (pre ++ b :: tail) c := by
  apply parse_iteration_stored_eq
  intro h
  rw [find_if_first_bracket pre tail b hpre hb] at h
  have : 0 < tail.length := List.length_pos.2 ht
  simp only [List.length_append, List.length_cons] at h
  omega

/-- A pass over a text without brackets does not depend on what is stored
behind the view. -/
theorem parse_iteration_stored_text (behind : Char) (fmt : string_view) (c : Nat)
    (h : brace_free fmt) :
    parse_iteration_stored behind fmt c = parse_iteration fmt c := by
  apply parse_iteration_stored_eq
  intro hk
  have hfind : find_if fmt 0 is_bracket = fmt.length := by
    rw [find_if_zero]
    exact List.findIdx_eq_length.2 h
  omega

/-- When the character behind the view is no bracket, every pass is the pass
of `parse_iteration`. -/
theorem parse_iteration_stored_of_not_bracket (behind : Char) (hb : is_bracket behind = false)
    (fmt : string_view) (c : Nat) :
    parse_iteration_stored behind fmt c = parse_iteration fmt c := by
  apply parse_iteration_stored_eq
  intro hk e
  have hbr := first_bracket_is_bracket fmt (by omega)
  rw [e, hb] at hbr
  cases hbr

theorem parse_loop_stored_of_not_bracket (behind : Char) (hb : is_bracket behind = false) :
    ∀ (fuel : Nat) (fmt : string_view) (acc : List print_action) (c : Nat),
      parse_loop_stored behind fuel fmt acc c = parse_loop fuel fmt acc c := by
  intro fuel
  induction fuel with
  | zero =>
    intro fmt acc c
    rfl
  | succ n ih =>
    intro fmt acc c
    by_cases hne : fmt = []
    · subst hne
      rfl
    rw [parse_loop_stored_succ _ _ _ _ _ hne, parse_loop_succ _ _ _ _ hne,
      parse_iteration_stored_of_not_bracket behind hb]
    cases parse_iteration fmt c with
    | raise e => rfl
    | advance fmt1 pushed c1 => exact ih _ _ _

/-- When the character stored behind the view is no bracket, `parse_stored`
is `parse`. -/
theorem parse_stored_of_not_bracket (behind : Char) (hb : is_bracket behind = false)
    (fmt : string_view) : parse_stored behind fmt = parse fmt :=
  parse_loop_stored_of_not_bracket behind hb _ _ _ _

/-- The loop on a text without brackets does not depend on what is stored
behind the view. -/
theorem parse_loop_stored_text (behind : Char) (fuel : Nat) (w : string_view)
    (acc : List print_action) (c : Nat) (hw : brace_free w) :
    parse_loop_stored behind fuel w acc c = parse_loop fuel w acc c := by
  cases fuel with
  | zero => rfl
  | succ f =>
    by_cases hne : w = []
    · subst hne
      rfl
    rw [parse_loop_stored_succ _ _ _ _ _ hne, parse_loop_succ _ _ _ _ hne,
      parse_iteration_stored_text behind w c hw, parse_iteration_text w c hw]
    simp only
    rw [parse_loop_stored_nil, parse_loop_nil]

/-- The passes over a template that compiles do not depend on the character
stored behind the view, whatever follows the template: they push `front` and
leave a trailing text `w` in front of what follows. -/
theorem parse_loop_stored_after {p : string_view} {c : Nat} {ap : List print_action}
    (h : compiles p c ap) :
    ∃ (front : List print_action) (w : string_view), brace_free w ∧
      ∀ (fuel : Nat) (acc : List print_action) (s : string_view), (p ++ s).length < fuel →
        ∃ fuel1, (w ++ s).length < fuel1 ∧ ∀ behind : Char,
          parse_loop_stored behind fuel (p ++ s) acc c =
            parse_loop_stored behind fuel1 (w ++ s) (acc ++ front)
              (c + (arguments ap).length) := by
  induction h with
  | done c =>
    refine ⟨[], [], fun x hx => absurd hx (List.not_mem_nil _), fun fuel acc s hf =>
      ⟨fuel, hf, fun behind => ?_⟩⟩
    simp [arguments]
  | text fmt c hne hfree =>
    refine ⟨[], fmt, hfree, fun fuel acc s hf => ⟨fuel, hf, fun behind => ?_⟩⟩
    simp [arguments]
  | escape pre rest b c actions hpre hb _ ih =>
    obtain ⟨front, w, hw, hs⟩ := ih
    refine ⟨.print_text (pre ++ [b]) :: front, w, hw, fun fuel acc s hf => ?_⟩
    have e : pre ++ b :: b :: rest ++ s = pre ++ b :: b :: (rest ++ s) := by simp
    rw [e] at hf ⊢
    simp only [List.length_append, List.length_cons] at hf
    obtain ⟨f, rfl⟩ : ∃ k, fuel = k + 1 := ⟨fuel - 1, by omega⟩
    obtain ⟨fuel1, hlt, heq⟩ := hs f (acc ++ [.print_text (pre ++ [b])]) s
      (by simp only [List.length_append]; omega)
    refine ⟨fuel1, hlt, fun behind => ?_⟩
    rw [parse_loop_stored_succ _ _ _ _ _ (by simp),
      parse_iteration_stored_inside behind pre _ b c hpre hb (by simp),
      parse_iteration_escape pre (rest ++ s) b c hpre hb]
    simp only
    rw [heq behind]
    simp [arguments]
  | placeholder pre body rest c idx spec actions hpre hhead hbody hsplit hc _ ih =>
    obtain ⟨front, w, hw, hs⟩ := ih
    refine ⟨.print_text pre :: .print_argument idx { m_specifier := spec } :: front, w, hw,
      fun fuel acc s hf => ?_⟩
    have e : pre ++ '{' :: (body ++ '}' :: rest) ++ s =
        pre ++ '{' :: (body ++ '}' :: (rest ++ s)) := by simp
    rw [e] at hf ⊢
    simp only [List.length_append, List.length_cons] at hf
    obtain ⟨f, rfl⟩ : ∃ k, fuel = k + 1 := ⟨fuel - 1, by omega⟩
    obtain ⟨fuel1, hlt, heq⟩ := hs f
      (acc ++ [.print_text pre, .print_argument idx { m_specifier := spec }]) s
      (by simp only [List.length_append]; omega)
    refine ⟨fuel1, hlt, fun behind => ?_⟩
    rw [parse_loop_stored_succ _ _ _ _ _ (by simp),
      parse_iteration_stored_inside behind pre _ '{' c hpre (by decide) (by simp),
      parse_iteration_placeholder pre body (rest ++ s) c hpre hhead hbody, hsplit]
    simp only [if_pos hc]
    rw [heq behind]
    have e2 : c + 1 + (arguments actions).length = c + ((arguments actions).length + 1) := by
      omega
    simp [arguments, e2]

/-- A template that compiles with a NUL behind it compiles to the same
actions whatever is stored behind it. -/
theorem parse_stored_of_parse_ok (behind : Char) (p : string_view) (ap : List print_action)
    (hp : parse p = .ok ap) : parse_stored behind p = .ok ap := by
  obtain ⟨front, w, hw, hs⟩ := parse_loop_stored_after ((parse_eq_ok_iff p ap).1 hp)
  obtain ⟨fuel1, _, heq⟩ := hs (p.length + 1) [] [] (by simp)
  have h1 := heq behind
  have h0 := heq (Char.ofNat 0)
  simp only [List.append_nil] at h1 h0
  have hp0 : parse_loop_stored (Char.ofNat 0) (p.length + 1) p [] 0 = .ok ap := by
    rw [parse_loop_stored_nul]
    exact hp
  unfold parse_stored
  rw [h1, parse_loop_stored_text behind _ w _ _ hw, ← parse_loop_stored_nul, ← h0, hp0]

/-- An opening bracket that is never closed, after a template that compiles:
`parse` throws `format_error("unclosed bracket")` whatever is stored behind the
view, unless the bracket is the last character of the view and a `{` is stored
behind it. -/
theorem unclosed_bracket_stored (behind : Char) (p r : string_view) (ap : List print_action)
    (hp : parse p = .ok ap) (hhead : r.head? ≠ some '{') (hr : ∀ x ∈ r, x ≠ '}')
    (hsafe : r ≠ [] ∨ behind ≠ '{') :
    parse_stored behind (p ++ '{' :: r) = .error (.format_error "unclosed bracket") := by
  obtain ⟨front, w, hw, hs⟩ := parse_loop_stored_after ((parse_eq_ok_iff p ap).1 hp)
  obtain ⟨fuel1, hlt, heq⟩ := hs ((p ++ '{' :: r).length + 1) [] ('{' :: r) (by omega)
  obtain ⟨f, rfl⟩ : ∃ k, fuel1 = k + 1 := ⟨fuel1 - 1, by omega⟩
  unfold parse_stored
  rw [heq behind, parse_loop_stored_succ _ _ _ _ _ (by simp)]
  have hit : parse_iteration_stored behind (w ++ '{' :: r) (0 + (arguments ap).length) =
      parse_iteration (w ++ '{' :: r) (0 + (arguments ap).length) := by
    apply parse_iteration_stored_eq
    intro hk
    rw [find_if_first_bracket w r '{' hw (by decide)] at hk ⊢
    rw [char_at_append _ _ _ rfl]
    simp only [List.length_append, List.length_cons] at hk
    have hnil : r = [] := List.length_eq_zero.1 (by omega)
    rcases hsafe with h | h
    · exact absurd hnil h
    · simpa using fun e => h e.symm
  rw [hit, parse_iteration_unclosed w r _ hw hhead ((closing_free_iff r).2 hr)]

/-- A view whose only bracket is its last character, with the same bracket
stored behind it: the pass takes the two for an escaped bracket, and `parse`
returns the whole view as one text. -/
theorem parse_stored_trailing_bracket (pre : string_view) (b : Char)
    (hpre : brace_free pre) (hb : is_bracket b = true) :
    parse_stored b (pre ++ [b]) = .ok [.print_text (pre ++ [b])] := by
  have hfind := find_if_first_bracket pre [] b hpre hb
  have h0 : char_at_stored b (pre ++ [b]) pre.length = b := by
    unfold char_at_stored
    rw [List.getD_append_right _ _ _ _ (le_refl _), Nat.sub_self]
    rfl
  have h1 : char_at_stored b (pre ++ [b]) (pre.length + 1) = b := by
    unfold char_at_stored
    exact List.getD_eq_default _ _ (by simp)
  have hit : parse_iteration_stored b (pre ++ [b]) 0 =
      .advance [] [.print_text (pre ++ [b])] 0 := by
    unfold parse_iteration_stored
    simp only [hfind, h0, h1, List.length_append, List.length_cons, List.length_nil,
      if_true, make_string_view]
    have hne : ¬ pre.length = pre.length + (0 + 1) := by omega
    have hlt : ¬ pre.length + 2 < pre.length + (0 + 1) := by omega
    rw [if_neg hne, if_neg hlt, if_pos (by omega)]
    simp
  unfold parse_stored
  rw [parse_loop_stored_succ _ _ _ _ _ (by simp), hit]
  simp only
  rw [parse_loop_stored_nil]
  rfl

theorem parse_loop_stored_of_reads_inside (behind : Char) :
    ∀ (fuel base : Nat) (fmt : string_view) (acc : List print_action) (c : Nat),
      base + fmt.length ∉ parse_loop_reads fuel base fmt c →
      parse_loop_stored behind fuel fmt acc c = parse_loop fuel fmt acc c := by
  intro fuel
  induction fuel with
  | zero =>
    intro base fmt acc c _
    rfl
  | succ n ih =>
    intro base fmt acc c h
    by_cases hne : fmt = []
    · subst hne
      rfl
    have hemp : fmt.isEmpty = false := by
      cases fmt with
      | nil => exact absurd rfl hne
      | cons a l => rfl
    rw [parse_loop_reads] at h
    simp only [hemp, Bool.false_eq_true, if_false, List.mem_append, List.mem_map, not_or] at h
    obtain ⟨h1, h2⟩ := h
    have hit : parse_iteration_stored behind fmt c = parse_iteration fmt c := by
      apply parse_iteration_stored_eq
      intro hk
      exfalso
      apply h1
      refine ⟨fmt.length, ?_, rfl⟩
      have hmem := lookahead_mem_reads fmt (by omega)
      rw [hk] at hmem
      exact hmem
    rw [parse_loop_stored_succ _ _ _ _ _ hne, parse_loop_succ _ _ _ _ hne, hit]
    cases hp : parse_iteration fmt c with
    | raise e => rfl
    | advance fmt1 pushed c1 =>
      simp only
      rw [hp] at h2
      simp only at h2
      have hlen : fmt1.length ≤ fmt.length := by
        rcases parse_iteration_advance fmt c fmt1 pushed c1 hp hne with hs | hlt
        · rw [hs] at hp
          cases hp
          exact le_refl _
        · omega
      apply ih (base + (fmt.length - fmt1.length))
      have e : base + (fmt.length - fmt1.length) + fmt1.length = base + fmt.length := by omega
      rw [e]
      exact h2

/-- When `parse` never reads the offset after the last character of the view,
what it returns does not depend on the character stored there. -/
theorem parse_stored_of_reads_inside (behind : Char) (fmt : string_view)
    (h : fmt.length ∉ parse_reads fmt) : parse_stored behind fmt = parse fmt := by
  apply parse_loop_stored_of_reads_inside behind _ 0
  rw [Nat.zero_add]
  exact h

end format_string

/-- C5: the view `abc{` is a template that compiles (`abc`, a text without
brackets) followed by `{` and an empty remainder.  When `{` is the character
stored behind the view, as in `std::string_view("abc{{", 4)`, the first pass
compares the bracket at offset 3 with the character behind the view, takes the
two for an escaped bracket, pushes the text `abc{` and empties `fmt`: `parse`
returns one text action and the constructor a `format_string`, with no
`format_error`.  With a NUL or any other character that is not `{` behind the
view the same call throws `format_error("unclosed bracket")`. -/
theorem unclosed_bracket_read_as_escape :
    format_string.parse "abc".toList = .ok [.print_text "abc".toList] ∧
      format_string.parse_iteration_stored '{' "abc\x7b".toList 0 =
        .advance [] [.print_text "abc\x7b".toList] 0 ∧
      format_string.parse_stored '{' ("abc".toList ++ '{' :: []) =
        .ok [.print_text "abc\x7b".toList] ∧
      format_string.create_stored '{' ("abc".toList ++ '{' :: []) =
        .ok { m_actions := [.print_text "abc\x7b".toList] } ∧
      format_string.parse_stored '{' ("abc".toList ++ '{' :: []) ≠
        .error (.format_error "unclosed bracket") ∧
      format_string.parse_stored (Char.ofNat 0) ("abc".toList ++ '{' :: []) =
        .error (.format_error "unclosed bracket") ∧
      format_string.parse_stored 'x' ("abc".toList ++ '{' :: []) =
        .error (.format_error "unclosed bracket") := by
  refine ⟨by decide, by decide, by decide, by decide, by decide, by decide, by decide⟩

end ferrugo.fmt
